import Mathlib

/-!
Verification of the puzzle-generator repository (jigsaw_sudoku.py and
MiniSudokuGenerator6x6.py) against its specification.

The Python code is shallowly embedded: grids are lists of lists of naturals
(0 = empty cell), in-place mutation becomes explicit state passing (search
functions return the final grid so that the restore-on-backtrack discipline
is visible), recursion is fueled by the number of empty cells, and calls to
`random.shuffle` become an explicit oracle `σ : Nat → List α → List α`
applied at successive call indices (the index is threaded through every
function exactly at the points where the Python code consumes randomness).
Theorems quantify over all oracles whose outputs are permutations of their
inputs, which covers every run of the randomized Python program.
-/

namespace PuzzleGen

/-- A grid is a list of rows; a cell holds 0 (empty) or a symbol. -/
abbrev Grid := List (List Nat)

/-- A region map is a matrix of region indices (`-1` marks an unclaimed
cell during region growth in `generate_regions`). -/
abbrev Regions := List (List Int)

/-- A shuffle oracle: call index ↦ reordering applied by `random.shuffle`. -/
abbrev Shuffle := Nat → List Nat → List Nat

/-- `grid[r][c]` with total indexing (out-of-range reads give 0). -/
def getCell (g : Grid) (r c : Nat) : Nat := (g.getD r []).getD c 0

/-- `grid[r][c] = v` (out-of-range writes change nothing). -/
def setCell (g : Grid) (r c v : Nat) : Grid := g.set r ((g.getD r []).set c v)

/-- `regions[r][c]` with total indexing. -/
def getReg (regions : Regions) (r c : Nat) : Int := (regions.getD r []).getD c (-1)

/-- `DIGITS` for grid size `n`: the list `[1, …, n]`. -/
def DIGITS (n : Nat) : List Nat := List.range' 1 n

/-- All cell coordinates of an `n × n` grid in row-major order. -/
def allCells (n : Nat) : List (Nat × Nat) :=
  (List.range n).flatMap fun r => (List.range n).map fun c => (r, c)

/-- Number of empty (0) cells of the grid. -/
def zerosCount (n : Nat) (g : Grid) : Nat :=
  (allCells n).countP fun p => getCell g p.1 p.2 == 0

/-- Number of filled (non-0) cells of the grid. -/
def givensCount (n : Nat) (g : Grid) : Nat :=
  (allCells n).countP fun p => getCell g p.1 p.2 != 0

/-- The grid is a well-formed `n × n` matrix. -/
def GridWF (n : Nat) (g : Grid) : Prop :=
  g.length = n ∧ ∀ row ∈ g, row.length = n

/-- `compute_candidates` from jigsaw_sudoku.py: the digits not yet present
in row `r`, column `c`, or the region containing `(r, c)`; `[]` if the cell
is already filled. -/
def compute_candidates (n : Nat) (grid : Grid) (regions : Regions) (r c : Nat) : List Nat :=
  if getCell grid r c ≠ 0 then []
  else
    let ridx := getReg regions r c
    (DIGITS n).filter fun d =>
      !((grid.getD r []).contains d) &&
      ((List.range n).all fun i => !(getCell grid i c == d)) &&
      ((List.range n).all fun rr => (List.range n).all fun cc =>
        !(getReg regions rr cc == ridx && getCell grid rr cc == d))

/-- The `best is None or len(cands) < len(best_cands)` update of the MRV
scan: keep the new cell if there is no best yet or it strictly improves. -/
def mrvUpdate (r c : Nat) (cands : List Nat) :
    Option (Nat × Nat × List Nat) → Option (Nat × Nat × List Nat)
  | none => some (r, c, cands)
  | some (rb, cb, bcands) =>
    if cands.length < bcands.length then some (r, c, cands) else some (rb, cb, bcands)

/-- The scanning loop of `find_unassigned_with_mrv`: row-major scan of all
cells, returning immediately on the first empty cell with no candidates,
otherwise keeping the first empty cell with the (strictly) fewest
candidates. -/
def mrvScan (n : Nat) (grid : Grid) (regions : Regions) :
    List (Nat × Nat) → Option (Nat × Nat × List Nat) → Option (Nat × Nat × List Nat)
  | [], best => best
  | (r, c) :: rest, best =>
    if getCell grid r c = 0 then
      if (compute_candidates n grid regions r c).isEmpty then some (r, c, [])
      else mrvScan n grid regions rest
        (mrvUpdate r c (compute_candidates n grid regions r c) best)
    else mrvScan n grid regions rest best

/-- `find_unassigned_with_mrv` from jigsaw_sudoku.py; the final
`random.shuffle(best_cands)` consumes one oracle index. -/
def find_unassigned_with_mrv (n : Nat) (σ : Shuffle) (grid : Grid) (regions : Regions)
    (k : Nat) : Option (Nat × Nat × List Nat) × Nat :=
  match mrvScan n grid regions (allCells n) none with
  | none => (none, k)
  | some (r, c, cands) =>
    if cands.isEmpty then (some (r, c, cands), k)
    else (some (r, c, σ k cands), k + 1)

/-- The candidate loop of `dfs` inside `solve_backtracking`: try each digit,
recurse, and reset the cell to 0 when the recursive call fails. -/
def btLoop (child : Grid → Nat → Bool × Grid × Nat) (r c : Nat) :
    List Nat → Grid → Nat → Bool × Grid × Nat
  | [], g, k => (false, g, k)
  | d :: ds, g, k =>
    match child (setCell g r c d) k with
    | (true, g', k') => (true, g', k')
    | (false, g', k') => btLoop child r c ds (setCell g' r c 0) k'

/-- `dfs` inside `solve_backtracking` from jigsaw_sudoku.py, fueled by the
number of empty cells. On success the returned grid is the solved one; on
failure it is the grid restored by backtracking. -/
def btDfs (n : Nat) (σ : Shuffle) (regions : Regions) :
    Nat → Grid → Nat → Bool × Grid × Nat
  | 0, g, k => (false, g, k)
  | fuel + 1, g, k =>
    match find_unassigned_with_mrv n σ g regions k with
    | (none, k') => (true, g, k')
    | (some (r, c, cands), k') => btLoop (btDfs n σ regions fuel) r c cands g k'

/-- `solve_backtracking` from jigsaw_sudoku.py: works on a copy of the
grid (so the caller's grid is never mutated) and returns the solution grid
or `none`. -/
def solve_backtracking (n : Nat) (σ : Shuffle) (grid : Grid) (regions : Regions)
    (k : Nat) : Option Grid × Nat :=
  match btDfs n σ regions (zerosCount n grid + 1) grid k with
  | (true, g', k') => (some g', k')
  | (false, _, k') => (none, k')

/-- The candidate loop of `dfs` inside `count_solutions`: when a recursive
call reports that the running count reached the cutoff, return at once
(leaving the cell assigned); otherwise reset the cell and continue. -/
def cntLoop (child : Grid → Nat → Nat → Nat × Grid × Nat) (limit r c : Nat) :
    List Nat → Grid → Nat → Nat → Nat × Grid × Nat
  | [], g, cnt, k => (cnt, g, k)
  | d :: ds, g, cnt, k =>
    match child (setCell g r c d) cnt k with
    | (cnt', g', k') =>
      if limit ≤ cnt' then (cnt', g', k')
      else cntLoop child limit r c ds (setCell g' r c 0) cnt' k'

/-- `dfs` inside `count_solutions` from jigsaw_sudoku.py: counts complete
assignments, stopping as soon as the running count reaches `limit`. -/
def cntDfs (n : Nat) (σ : Shuffle) (regions : Regions) (limit : Nat) :
    Nat → Grid → Nat → Nat → Nat × Grid × Nat
  | 0, g, cnt, k => (cnt, g, k)
  | fuel + 1, g, cnt, k =>
    if limit ≤ cnt then (cnt, g, k)
    else
      match find_unassigned_with_mrv n σ g regions k with
      | (none, k') => (cnt + 1, g, k')
      | (some (r, c, cands), k') => cntLoop (cntDfs n σ regions limit fuel) limit r c cands g cnt k'

/-- `count_solutions` from jigsaw_sudoku.py: number of solutions of the
grid, up to `limit`, computed on a copy of the grid. -/
def count_solutions (n : Nat) (σ : Shuffle) (grid : Grid) (regions : Regions)
    (limit : Nat) (k : Nat) : Nat × Nat :=
  match cntDfs n σ regions limit (zerosCount n grid + 1) grid 0 k with
  | (cnt, _, k') => (cnt, k')

/-- An oracle family whose outputs are always permutations of the inputs
(the semantics of `random.shuffle`). -/
def PermFam {α : Type} (σ : Nat → List α → List α) : Prop :=
  ∀ k l, (σ k l).Perm l

/-- Every cell in range is filled. -/
def CompleteG (n : Nat) (g : Grid) : Prop :=
  ∀ r < n, ∀ c < n, getCell g r c ≠ 0

/-- Every cell value is at most `n` (so, with `CompleteG`, in `1..n`). -/
def InRangeVals (n : Nat) (g : Grid) : Prop :=
  ∀ r < n, ∀ c < n, getCell g r c ≤ n

/-- No two distinct filled cells sharing a row, a column, or a region carry
the same symbol. -/
def ConflictFree (n : Nat) (regions : Regions) (g : Grid) : Prop :=
  ∀ r₁ < n, ∀ c₁ < n, ∀ r₂ < n, ∀ c₂ < n,
    (r₁, c₁) ≠ (r₂, c₂) →
    (r₁ = r₂ ∨ c₁ = c₂ ∨ getReg regions r₁ c₁ = getReg regions r₂ c₂) →
    getCell g r₁ c₁ ≠ 0 → getCell g r₂ c₂ ≠ 0 →
    getCell g r₁ c₁ ≠ getCell g r₂ c₂

/-- A full valid solution grid. -/
def IsSolution (n : Nat) (regions : Regions) (g : Grid) : Prop :=
  GridWF n g ∧ CompleteG n g ∧ InRangeVals n g ∧ ConflictFree n regions g

/-- `s` agrees with `g` on every filled cell of `g`. -/
def ExtendsTo (n : Nat) (g s : Grid) : Prop :=
  ∀ r < n, ∀ c < n, getCell g r c ≠ 0 → getCell s r c = getCell g r c

/-- `s` is a solution of the (partial) grid `g`. -/
def IsCompletion (n : Nat) (regions : Regions) (g s : Grid) : Prop :=
  IsSolution n regions s ∧ ExtendsTo n g s

section BasicLemmas

theorem mem_allCells {n r c : Nat} : (r, c) ∈ allCells n ↔ r < n ∧ c < n := by
  simp only [allCells, List.mem_flatMap, List.mem_map, List.mem_range]
  constructor
  · rintro ⟨a, ha, b, hb, h⟩
    obtain ⟨rfl, rfl⟩ := Prod.mk.injEq .. ▸ h
    exact ⟨ha, hb⟩
  · rintro ⟨hr, hc⟩
    exact ⟨r, hr, c, hc, rfl⟩

theorem allCells_nodup (n : Nat) : (allCells n).Nodup := by
  apply List.nodup_flatMap.2
  constructor
  · intro r _
    exact (List.nodup_range _).map (fun a b h => (Prod.mk.injEq .. ▸ h).2)
  · apply (List.nodup_range n).imp
    intro r₁ r₂ hne p hp₁ hp₂
    simp only [List.mem_map] at hp₁ hp₂
    obtain ⟨c₁, _, rfl⟩ := hp₁
    obtain ⟨c₂, _, h⟩ := hp₂
    exact hne (Prod.mk.injEq .. ▸ h).1.symm

theorem length_allCells (n : Nat) : (allCells n).length = n * n := by
  unfold allCells
  rw [List.length_flatMap]
  have h1 : (List.length ∘ fun r : Nat => (List.range n).map fun c => (r, c)) =
      fun _ : Nat => n := by
    funext r
    simp
  rw [h1, List.map_const', List.sum_replicate, smul_eq_mul, List.length_range]

theorem getD_set_ne' {α : Type} (l : List α) (d : α) {i j : Nat} (a : α) (h : i ≠ j) :
    (l.set i a).getD j d = l.getD j d := by
  rcases Nat.lt_or_ge j l.length with hlt | hge
  · rw [List.getD_eq_getElem _ _ (by simpa using hlt), List.getElem_set_ne h (by simpa using hlt),
      List.getD_eq_getElem _ _ hlt]
  · rw [List.getD_eq_default _ _ (by simpa using hge), List.getD_eq_default _ _ hge]

theorem getD_set_self' {α : Type} (l : List α) (d : α) {i : Nat} (a : α) (h : i < l.length) :
    (l.set i a).getD i d = a := by
  rw [List.getD_eq_getElem _ _ (by simpa using h), List.getElem_set_self (by simpa using h)]

theorem setCell_oob {g : Grid} {r : Nat} (c v : Nat) (hge : g.length ≤ r) :
    setCell g r c v = g := List.set_eq_of_length_le hge

theorem row_setCell_ne {g : Grid} {r r' : Nat} (c v : Nat) (h : r' ≠ r) :
    (setCell g r c v).getD r' [] = g.getD r' [] := getD_set_ne' _ _ _ (Ne.symm h)

theorem row_setCell_self {g : Grid} {r : Nat} (c v : Nat) (hr : r < g.length) :
    (setCell g r c v).getD r [] = (g.getD r []).set c v := getD_set_self' _ _ _ hr

theorem getCell_setCell_ne {g : Grid} {r c r' c' : Nat} (v : Nat) (h : (r', c') ≠ (r, c)) :
    getCell (setCell g r c v) r' c' = getCell g r' c' := by
  rcases eq_or_ne r' r with rfl | hr
  · have hc : c' ≠ c := fun hc => h (by rw [hc])
    rcases Nat.lt_or_ge r' g.length with hlt | hge
    · show ((setCell g r' c v).getD r' []).getD c' 0 = _
      rw [row_setCell_self _ _ hlt, getD_set_ne' _ _ _ (Ne.symm hc)]
      rfl
    · rw [setCell_oob _ _ hge]
  · show ((setCell g r c v).getD r' []).getD c' 0 = _
    rw [row_setCell_ne _ _ hr]
    rfl

theorem getD_row_mem {n : Nat} {g : Grid} (hwf : GridWF n g) {r : Nat} (hr : r < g.length) :
    (g.getD r []).length = n := by
  rw [List.getD_eq_getElem _ _ hr]
  exact hwf.2 _ (List.getElem_mem hr)

theorem getCell_setCell_self {n : Nat} {g : Grid} (hwf : GridWF n g) {r c : Nat}
    (hr : r < n) (hc : c < n) (v : Nat) : getCell (setCell g r c v) r c = v := by
  have hrl : r < g.length := by rw [hwf.1]; omega
  have hrow : (g.getD r []).length = n := getD_row_mem hwf hrl
  show ((setCell g r c v).getD r []).getD c 0 = v
  rw [row_setCell_self _ _ hrl, getD_set_self' _ _ _ (by omega)]

theorem gridWF_setCell {n : Nat} {g : Grid} (hwf : GridWF n g) (r c v : Nat) :
    GridWF n (setCell g r c v) := by
  rcases Nat.lt_or_ge r g.length with hlt | hge
  · obtain ⟨hlen, hrows⟩ := hwf
    refine ⟨by simp [setCell, hlen], ?_⟩
    intro row hrow
    rcases List.mem_or_eq_of_mem_set hrow with h | rfl
    · exact hrows _ h
    · rw [List.length_set]
      exact getD_row_mem ⟨hlen, hrows⟩ hlt
  · rw [setCell_oob _ _ hge]
    exact hwf

theorem setCell_self_eq {n : Nat} {g : Grid} (hwf : GridWF n g) {r c : Nat}
    (hr : r < n) (hc : c < n) {v : Nat} (hv : getCell g r c = v) : setCell g r c v = g := by
  have hrl : r < g.length := by rw [hwf.1]; omega
  have hrow : (g.getD r []).length = n := getD_row_mem hwf hrl
  unfold setCell
  have hset : (g.getD r []).set c v = g.getD r [] := by
    apply List.ext_getElem (by simp)
    intro i h₁ h₂
    rcases eq_or_ne i c with rfl | hne
    · rw [List.getElem_set_self (by omega)]
      rw [← hv]
      unfold getCell
      rw [List.getD_eq_getElem _ _ (by omega)]
    · rw [List.getElem_set_ne (Ne.symm hne) (by omega)]
  rw [hset]
  apply List.ext_getElem (by simp)
  intro i h₁ h₂
  rcases eq_or_ne i r with rfl | hne
  · rw [List.getElem_set_self (by omega), List.getD_eq_getElem _ _ (by omega)]
  · rw [List.getElem_set_ne (Ne.symm hne) (by omega)]

theorem grid_ext {n : Nat} {g₁ g₂ : Grid} (h₁ : GridWF n g₁) (h₂ : GridWF n g₂)
    (h : ∀ r < n, ∀ c < n, getCell g₁ r c = getCell g₂ r c) : g₁ = g₂ := by
  obtain ⟨hl₁, hr₁⟩ := h₁
  obtain ⟨hl₂, hr₂⟩ := h₂
  apply List.ext_getElem (by omega)
  intro r hra hrb
  have hrow₁ : g₁[r].length = n := hr₁ _ (List.getElem_mem hra)
  have hrow₂ : g₂[r].length = n := hr₂ _ (List.getElem_mem hrb)
  apply List.ext_getElem (by omega)
  intro c hca hcb
  have := h r (by omega) c (by omega)
  unfold getCell at this
  rwa [List.getD_eq_getElem _ _ hra, List.getD_eq_getElem _ _ hrb,
    List.getD_eq_getElem _ _ hca, List.getD_eq_getElem _ _ hcb] at this

theorem countP_update_of_nodup {α : Type} (p q : α → Bool) :
    ∀ (l : List α), l.Nodup → ∀ a ∈ l, (∀ b ∈ l, b ≠ a → p b = q b) →
      p a = true → q a = false → l.countP q + 1 = l.countP p
  | [], _, a, ha, _, _, _ => absurd ha (List.not_mem_nil a)
  | x :: xs, hnd, a, ha, hagree, hpa, hqa => by
    rcases List.mem_cons.1 ha with rfl | hmem
    · have hxs : ∀ b ∈ xs, p b = q b := fun b hb =>
        hagree b (List.mem_cons_of_mem _ hb)
          (fun hba => ((List.nodup_cons.1 hnd).1 (hba ▸ hb)).elim)
      rw [List.countP_cons, List.countP_cons, hpa, hqa]
      have : xs.countP p = xs.countP q := List.countP_congr (fun b hb => by rw [hxs b hb])
      simp [this]
    · have hxa : x ≠ a := fun hxa => (List.nodup_cons.1 hnd).1 (hxa ▸ hmem)
      have := countP_update_of_nodup p q xs (List.nodup_cons.1 hnd).2 a hmem
        (fun b hb hba => hagree b (List.mem_cons_of_mem _ hb) hba) hpa hqa
      rw [List.countP_cons, List.countP_cons, hagree x (List.mem_cons_self x xs) hxa]
      omega

theorem zerosCount_setCell {n : Nat} {g : Grid} (hwf : GridWF n g) {r c : Nat}
    (hr : r < n) (hc : c < n) (h0 : getCell g r c = 0) {v : Nat} (hv : v ≠ 0) :
    zerosCount n (setCell g r c v) + 1 = zerosCount n g := by
  unfold zerosCount
  apply countP_update_of_nodup _ _ _ (allCells_nodup n) (r, c) (mem_allCells.2 ⟨hr, hc⟩)
  · rintro ⟨r', c'⟩ _ hne
    simp only [getCell_setCell_ne _ hne]
  · simp [h0]
  · simp [getCell_setCell_self hwf hr hc, hv]

end BasicLemmas

section Candidates

/-- Characterization of `compute_candidates`: exactly the digits `1..n` not
present in the row list, the column, or the region of `(r, c)`, and `[]`
when the cell is filled. -/
theorem mem_compute_candidates {n : Nat} {g : Grid} {regions : Regions} {r c d : Nat} :
    d ∈ compute_candidates n g regions r c ↔
      getCell g r c = 0 ∧ 1 ≤ d ∧ d < 1 + n ∧
      d ∉ g.getD r [] ∧
      (∀ i < n, getCell g i c ≠ d) ∧
      (∀ rr < n, ∀ cc < n,
        getReg regions rr cc = getReg regions r c → getCell g rr cc ≠ d) := by
  by_cases h0 : getCell g r c = 0
  · simp only [h0, true_and]
    simp only [compute_candidates, h0, ne_eq, not_true_eq_false, if_false, List.mem_filter,
      DIGITS, List.mem_range'_1, Bool.and_eq_true, List.all_eq_true, List.mem_range,
      Bool.not_eq_true', List.elem_eq_mem, decide_eq_false_iff_not, Bool.and_eq_false_iff,
      beq_eq_false_iff_ne, ne_eq]
    constructor
    · rintro ⟨⟨hd1, hd2⟩, ⟨hrow, hcol⟩, hreg⟩
      refine ⟨hd1, hd2, hrow, fun i hi => (hcol i hi), fun rr hrr cc hcc hR => ?_⟩
      rcases hreg rr hrr cc hcc with h | h
      · exact absurd hR h
      · exact h
    · rintro ⟨hd1, hd2, hrow, hcol, hreg⟩
      refine ⟨⟨hd1, hd2⟩, ⟨hrow, fun i hi => hcol i hi⟩, fun rr hrr cc hcc => ?_⟩
      by_cases hR : getReg regions rr cc = getReg regions r c
      · exact Or.inr (hreg rr hrr cc hcc hR)
      · exact Or.inl hR
  · simp [compute_candidates, h0]

/-- A filled cell has no candidates. -/
theorem compute_candidates_filled {n : Nat} {g : Grid} {regions : Regions} {r c : Nat}
    (h : getCell g r c ≠ 0) : compute_candidates n g regions r c = [] := by
  unfold compute_candidates
  simp [h]

theorem compute_candidates_nodup (n : Nat) (g : Grid) (regions : Regions) (r c : Nat) :
    (compute_candidates n g regions r c).Nodup := by
  unfold compute_candidates
  split
  · exact List.nodup_nil
  · exact (List.nodup_range' ..).filter _

theorem compute_candidates_pos {n : Nat} {g : Grid} {regions : Regions} {r c d : Nat}
    (h : d ∈ compute_candidates n g regions r c) : d ≠ 0 ∧ d ≤ n := by
  have := mem_compute_candidates.1 h
  omega

/-- Row membership in terms of `getCell`, for well-formed grids. -/
theorem mem_row_iff {n : Nat} {g : Grid} (hwf : GridWF n g) {r : Nat} (hr : r < n) {d : Nat} :
    d ∈ g.getD r [] ↔ ∃ i < n, getCell g r i = d := by
  have hrl : r < g.length := by rw [hwf.1]; omega
  have hrow : (g.getD r []).length = n := getD_row_mem hwf hrl
  rw [List.mem_iff_getElem]
  constructor
  · rintro ⟨i, hi, rfl⟩
    refine ⟨i, by omega, ?_⟩
    unfold getCell
    rw [List.getD_eq_getElem _ _ (by omega)]
  · rintro ⟨i, hi, hd⟩
    refine ⟨i, by omega, ?_⟩
    unfold getCell at hd
    rwa [List.getD_eq_getElem _ _ (by omega)] at hd

/-- A legal candidate `d` at `(r, c)` does not occur at any other cell of
the same row, column, or region. -/
theorem cand_not_in_unit {n : Nat} {g : Grid} {regions : Regions} {r c d : Nat}
    (hwf : GridWF n g) (hd : d ∈ compute_candidates n g regions r c)
    (hr : r < n) (hc : c < n) :
    ∀ r₂ < n, ∀ c₂ < n, (r₂, c₂) ≠ (r, c) →
      (r₂ = r ∨ c₂ = c ∨ getReg regions r₂ c₂ = getReg regions r c) →
      getCell g r₂ c₂ ≠ d := by
  obtain ⟨h0, hd1, hd2, hrow, hcol, hreg⟩ := mem_compute_candidates.1 hd
  intro r₂ hr₂ c₂ hc₂ _ hunit heq
  rcases hunit with rfl | rfl | h
  · exact hrow ((mem_row_iff hwf hr₂).2 ⟨c₂, hc₂, heq⟩)
  · exact hcol r₂ hr₂ heq
  · exact hreg r₂ hr₂ c₂ hc₂ h heq

/-- Placing a legal candidate keeps the grid conflict-free. -/
theorem conflictFree_setCell {n : Nat} {g : Grid} {regions : Regions} {r c d : Nat}
    (hwf : GridWF n g) (hcf : ConflictFree n regions g)
    (hd : d ∈ compute_candidates n g regions r c) (hr : r < n) (hc : c < n) :
    ConflictFree n regions (setCell g r c d) := by
  intro r₁ hr₁ c₁ hc₁ r₂ hr₂ c₂ hc₂ hne hunit hz₁ hz₂
  by_cases e₁ : (r₁, c₁) = (r, c) <;> by_cases e₂ : (r₂, c₂) = (r, c)
  · exact absurd (e₁.trans e₂.symm) hne
  · obtain ⟨rfl, rfl⟩ : r₁ = r ∧ c₁ = c := Prod.mk.injEq .. ▸ e₁
    rw [getCell_setCell_self hwf hr₁ hc₁]
    rw [getCell_setCell_ne _ e₂]
    intro heq
    refine cand_not_in_unit hwf hd hr₁ hc₁ r₂ hr₂ c₂ hc₂ e₂ ?_ heq.symm
    rcases hunit with h | h | h
    · exact Or.inl h.symm
    · exact Or.inr (Or.inl h.symm)
    · exact Or.inr (Or.inr h.symm)
  · obtain ⟨rfl, rfl⟩ : r₂ = r ∧ c₂ = c := Prod.mk.injEq .. ▸ e₂
    rw [getCell_setCell_ne _ e₁, getCell_setCell_self hwf hr₂ hc₂]
    intro heq
    exact cand_not_in_unit hwf hd hr₂ hc₂ r₁ hr₁ c₁ hc₁ e₁
      (by rcases hunit with h | h | h
          · exact Or.inl h
          · exact Or.inr (Or.inl h)
          · exact Or.inr (Or.inr h)) heq
  · rw [getCell_setCell_ne _ e₁] at hz₁ ⊢
    rw [getCell_setCell_ne _ e₂] at hz₂ ⊢
    exact hcf r₁ hr₁ c₁ hc₁ r₂ hr₂ c₂ hc₂ hne hunit hz₁ hz₂

end Candidates

section MRVLemmas

variable {n : Nat} {g : Grid} {regions : Regions}

/-- Soundness invariant for the running best cell of the MRV scan. -/
def CandOK (n : Nat) (g : Grid) (regions : Regions) (x : Nat × Nat × List Nat) : Prop :=
  x.1 < n ∧ x.2.1 < n ∧ getCell g x.1 x.2.1 = 0 ∧
    x.2.2 = compute_candidates n g regions x.1 x.2.1 ∧ x.2.2 ≠ []

theorem mrvUpdate_cases (r c : Nat) (cands : List Nat)
    (best : Option (Nat × Nat × List Nat)) :
    mrvUpdate r c cands best = some (r, c, cands) ∨
      ∃ b, best = some b ∧ mrvUpdate r c cands best = some b := by
  match best with
  | none => exact Or.inl rfl
  | some (rb, cb, bcands) =>
    by_cases hl : cands.length < bcands.length
    · exact Or.inl (by simp [mrvUpdate, hl])
    · exact Or.inr ⟨_, rfl, by simp [mrvUpdate, hl]⟩

theorem mrvUpdate_isSome (r c : Nat) (cands : List Nat)
    (best : Option (Nat × Nat × List Nat)) :
    ∃ y, mrvUpdate r c cands best = some y := by
  rcases mrvUpdate_cases r c cands best with h | ⟨b, _, h⟩ <;> exact ⟨_, h⟩

theorem mrvUpdate_len (r c : Nat) (cands : List Nat)
    (best : Option (Nat × Nat × List Nat)) (y : Nat × Nat × List Nat)
    (hy : mrvUpdate r c cands best = some y) :
    y.2.2.length ≤ cands.length ∧ ∀ b, best = some b → y.2.2.length ≤ b.2.2.length := by
  match best with
  | none =>
    cases hy
    exact ⟨le_refl _, fun b hb => by cases hb⟩
  | some (rb, cb, bcands) =>
    by_cases hl : cands.length < bcands.length
    · rw [show mrvUpdate r c cands (some (rb, cb, bcands)) = some (r, c, cands) by
        simp [mrvUpdate, hl]] at hy
      cases hy
      exact ⟨le_refl _, fun b hb => by cases hb; exact le_of_lt hl⟩
    · rw [show mrvUpdate r c cands (some (rb, cb, bcands)) = some (rb, cb, bcands) by
        simp [mrvUpdate, hl]] at hy
      cases hy
      exact ⟨le_of_not_lt hl, fun b hb => by cases hb; exact le_refl _⟩

theorem mrvScan_sound :
    ∀ (cells : List (Nat × Nat)) (best : Option (Nat × Nat × List Nat)),
      (∀ x, best = some x → CandOK n g regions x) →
      (∀ p ∈ cells, p.1 < n ∧ p.2 < n) →
      ∀ x, mrvScan n g regions cells best = some x →
        x.1 < n ∧ x.2.1 < n ∧ getCell g x.1 x.2.1 = 0 ∧
          x.2.2 = compute_candidates n g regions x.1 x.2.1
  | [], best, hbest, _, x, hx => by
    obtain ⟨h1, h2, h3, h4, _⟩ := hbest x hx
    exact ⟨h1, h2, h3, h4⟩
  | (r, c) :: rest, best, hbest, hcells, x, hx => by
    have hrc := hcells (r, c) (List.mem_cons_self _ _)
    rw [mrvScan] at hx
    split at hx
    · rename_i h0
      split at hx
      · rename_i hemp
        cases hx
        exact ⟨hrc.1, hrc.2, h0, (List.isEmpty_iff.1 hemp).symm⟩
      · rename_i hemp
        refine mrvScan_sound rest _ ?_
          (fun p hp => hcells p (List.mem_cons_of_mem _ hp)) x hx
        intro y hy
        rcases mrvUpdate_cases r c (compute_candidates n g regions r c) best with h | ⟨b, hb, h⟩
        · rw [h] at hy
          cases hy
          exact ⟨hrc.1, hrc.2, h0, rfl, fun hh => hemp (List.isEmpty_iff.2 hh)⟩
        · rw [h] at hy
          cases hy
          exact hbest _ hb
    · exact mrvScan_sound rest best hbest
        (fun p hp => hcells p (List.mem_cons_of_mem _ hp)) x hx

theorem mrvScan_eq_none :
    ∀ (cells : List (Nat × Nat)) (best : Option (Nat × Nat × List Nat)),
      mrvScan n g regions cells best = none →
      best = none ∧ ∀ p ∈ cells, getCell g p.1 p.2 ≠ 0
  | [], best, h => ⟨h, by simp⟩
  | (r, c) :: rest, best, h => by
    rw [mrvScan] at h
    split at h
    · rename_i h0
      split at h
      · cases h
      · obtain ⟨y, hy⟩ := mrvUpdate_isSome r c (compute_candidates n g regions r c) best
        rw [hy] at h
        have := (mrvScan_eq_none rest _ h).1
        cases this
    · rename_i h0
      obtain ⟨h1, h2⟩ := mrvScan_eq_none rest best h
      refine ⟨h1, ?_⟩
      intro p hp
      rcases List.mem_cons.1 hp with rfl | hp'
      · exact h0
      · exact h2 p hp'

theorem mrvScan_all_filled :
    ∀ (cells : List (Nat × Nat)) (best : Option (Nat × Nat × List Nat)),
      (∀ p ∈ cells, getCell g p.1 p.2 ≠ 0) →
      mrvScan n g regions cells best = best
  | [], _, _ => rfl
  | (r, c) :: rest, best, h => by
    rw [mrvScan]
    rw [if_neg (h (r, c) (List.mem_cons_self _ _))]
    exact mrvScan_all_filled rest best (fun p hp => h p (List.mem_cons_of_mem _ hp))

theorem mrvScan_min :
    ∀ (cells : List (Nat × Nat)) (best : Option (Nat × Nat × List Nat))
      (x : Nat × Nat × List Nat),
      mrvScan n g regions cells best = some x → x.2.2 ≠ [] →
      (∀ b, best = some b → x.2.2.length ≤ b.2.2.length) ∧
      (∀ p ∈ cells, getCell g p.1 p.2 = 0 →
        x.2.2.length ≤ (compute_candidates n g regions p.1 p.2).length)
  | [], best, x, hx, _ => by
    cases hx
    exact ⟨fun b hb => by cases hb; exact le_refl _, by simp⟩
  | (r, c) :: rest, best, x, hx, hne => by
    rw [mrvScan] at hx
    split at hx
    · rename_i h0
      split at hx
      · rename_i hemp
        cases hx
        exact absurd rfl hne
      · rename_i hemp
        obtain ⟨y, hy⟩ := mrvUpdate_isSome r c (compute_candidates n g regions r c) best
        rw [hy] at hx
        obtain ⟨ih1, ih2⟩ := mrvScan_min rest _ x hx hne
        have hylen := mrvUpdate_len r c _ best y hy
        have hhead : x.2.2.length ≤ (compute_candidates n g regions r c).length :=
          le_trans (ih1 _ rfl) hylen.1
        refine ⟨fun b hb => le_trans (ih1 _ rfl) (hylen.2 b hb), ?_⟩
        intro p hp hp0
        rcases List.mem_cons.1 hp with rfl | hp'
        · exact hhead
        · exact ih2 p hp' hp0
    · rename_i h0
      obtain ⟨ih1, ih2⟩ := mrvScan_min rest best x hx hne
      refine ⟨ih1, ?_⟩
      intro p hp hp0
      rcases List.mem_cons.1 hp with rfl | hp'
      · exact absurd hp0 h0
      · exact ih2 p hp' hp0

theorem mrvScan_deadend :
    ∀ (cells : List (Nat × Nat)) (best : Option (Nat × Nat × List Nat)),
      ∀ p ∈ cells, getCell g p.1 p.2 = 0 → compute_candidates n g regions p.1 p.2 = [] →
      ∃ r c, mrvScan n g regions cells best = some (r, c, []) ∧ getCell g r c = 0 ∧
        compute_candidates n g regions r c = []
  | [], best, p, hp, _, _ => absurd hp (List.not_mem_nil p)
  | (r₀, c₀) :: rest, best, p, hp, hp0, hpcand => by
    rw [mrvScan]
    rcases List.mem_cons.1 hp with rfl | hp'
    · rw [if_pos hp0]
      rw [if_pos (by simp [hpcand])]
      exact ⟨r₀, c₀, rfl, hp0, hpcand⟩
    · split
      · rename_i h0
        split
        · rename_i hemp
          exact ⟨r₀, c₀, rfl, h0, List.isEmpty_iff.1 hemp⟩
        · exact mrvScan_deadend rest _ p hp' hp0 hpcand
      · exact mrvScan_deadend rest best p hp' hp0 hpcand

/-- `find_unassigned_with_mrv` returns `none` exactly on complete grids. -/
theorem find_mrv_none_iff {σ : Shuffle} {k : Nat} :
    (find_unassigned_with_mrv n σ g regions k).1 = none ↔ CompleteG n g := by
  unfold find_unassigned_with_mrv
  constructor
  · intro h
    split at h
    · rename_i hscan
      intro r hr c hc
      exact (mrvScan_eq_none _ _ hscan).2 (r, c) (mem_allCells.2 ⟨hr, hc⟩)
    · rename_i x hscan
      split at h <;> cases h
  · intro hcomp
    rw [mrvScan_all_filled _ _ (fun p hp => by
      obtain ⟨h1, h2⟩ := mem_allCells.1 hp
      exact hcomp p.1 h1 p.2 h2)]

/-- Facts about a successful `find_unassigned_with_mrv`: the chosen cell is
an in-range empty cell whose candidate list is (a permutation of) its
computed candidates. -/
theorem find_mrv_some {σ : Shuffle} (hperm : PermFam σ) {k : Nat} {r c : Nat}
    {cands : List Nat} {k' : Nat}
    (h : find_unassigned_with_mrv n σ g regions k = (some (r, c, cands), k')) :
    r < n ∧ c < n ∧ getCell g r c = 0 ∧
      cands.Perm (compute_candidates n g regions r c) := by
  unfold find_unassigned_with_mrv at h
  rcases hscan : mrvScan n g regions (allCells n) none with _ | ⟨xr, xc, xcands⟩
  · rw [hscan] at h
    cases h
  · rw [hscan] at h
    dsimp only at h
    obtain ⟨h1, h2, h3, h4⟩ := mrvScan_sound (allCells n) none (fun y hy => by cases hy)
      (fun p hp => mem_allCells.1 hp) (xr, xc, xcands) hscan
    have h4' : xcands = compute_candidates n g regions xr xc := h4
    by_cases hemp : xcands.isEmpty
    · rw [if_pos hemp] at h
      cases h
      refine ⟨h1, h2, h3, ?_⟩
      rw [← h4']
    · rw [if_neg hemp] at h
      cases h
      refine ⟨h1, h2, h3, ?_⟩
      rw [← h4']
      exact hperm k xcands

end MRVLemmas

section CompletionLemmas

variable {n : Nat} {regions : Regions}

theorem isCompletion_self {g : Grid} (h : IsSolution n regions g) :
    IsCompletion n regions g g :=
  ⟨h, fun _ _ _ _ _ => rfl⟩

theorem completion_of_complete {g s : Grid} (hg : GridWF n g) (hcomp : CompleteG n g)
    (h : IsCompletion n regions g s) : s = g :=
  grid_ext h.1.1 hg (fun r hr c hc => h.2 r hr c hc (hcomp r hr c hc))

/-- The value of a completion at an empty cell is a legal candidate. -/
theorem completion_cand {g s : Grid} {r c : Nat} (hwfg : GridWF n g)
    (hcomp : IsCompletion n regions g s) (hr : r < n) (hc : c < n)
    (h0 : getCell g r c = 0) :
    getCell s r c ∈ compute_candidates n g regions r c := by
  obtain ⟨⟨hwfs, hcs, hrs, hcfs⟩, hext⟩ := hcomp
  have hd0 : getCell s r c ≠ 0 := hcs r hr c hc
  have hdn : getCell s r c ≤ n := hrs r hr c hc
  apply mem_compute_candidates.2
  refine ⟨h0, by omega, by omega, ?_, ?_, ?_⟩
  · intro hmem
    obtain ⟨i, hi, hgi⟩ := (mem_row_iff hwfg hr).1 hmem
    have hgne : getCell g r i ≠ 0 := by rw [hgi]; exact hd0
    have hsi : getCell s r i = getCell s r c := by rw [hext r hr i hi hgne, hgi]
    have hic : i ≠ c := fun hic => by rw [hic] at hgi; rw [hgi] at h0; exact hd0 h0
    have hne : (r, c) ≠ (r, i) :=
      fun hp => hic (And.right (Prod.mk.injEq .. ▸ hp : r = r ∧ c = i)).symm
    exact hcfs r hr c hc r hr i hi hne (Or.inl rfl) hd0
      (by rw [hsi]; exact hd0) hsi.symm
  · intro i hi hgi
    have hgne : getCell g i c ≠ 0 := by rw [hgi]; exact hd0
    have hsi : getCell s i c = getCell s r c := by rw [hext i hi c hc hgne, hgi]
    have hir : i ≠ r := fun hir => by rw [hir] at hgi; rw [hgi] at h0; exact hd0 h0
    have hne : (r, c) ≠ (i, c) :=
      fun hp => hir (And.left (Prod.mk.injEq .. ▸ hp : r = i ∧ c = c)).symm
    exact hcfs r hr c hc i hi c hc hne (Or.inr (Or.inl rfl)) hd0
      (by rw [hsi]; exact hd0) hsi.symm
  · intro rr hrr cc hcc hreg hgi
    have hgne : getCell g rr cc ≠ 0 := by rw [hgi]; exact hd0
    have hsi : getCell s rr cc = getCell s r c := by rw [hext rr hrr cc hcc hgne, hgi]
    have hne : (r, c) ≠ (rr, cc) := by
      intro hp
      obtain ⟨hpr, hpc⟩ : r = rr ∧ c = cc := Prod.mk.injEq .. ▸ hp
      rw [hpr, hpc] at h0
      rw [hgi] at h0
      exact hd0 h0
    exact hcfs r hr c hc rr hrr cc hcc hne (Or.inr (Or.inr hreg.symm)) hd0
      (by rw [hsi]; exact hd0) hsi.symm

/-- Setting an empty cell to a nonzero value: completions of the new grid
are exactly the completions of the old grid taking that value there. -/
theorem isCompletion_setCell_iff {g s : Grid} {r c d : Nat} (hwfg : GridWF n g)
    (hr : r < n) (hc : c < n) (h0 : getCell g r c = 0) (hd : d ≠ 0) :
    IsCompletion n regions (setCell g r c d) s ↔
      IsCompletion n regions g s ∧ getCell s r c = d := by
  constructor
  · rintro ⟨hsol, hext⟩
    have hval : getCell s r c = d := by
      have := hext r hr c hc (by rw [getCell_setCell_self hwfg hr hc]; exact hd)
      rwa [getCell_setCell_self hwfg hr hc] at this
    refine ⟨⟨hsol, ?_⟩, hval⟩
    intro r' hr' c' hc' hne
    have hpne : (r', c') ≠ (r, c) := by
      intro hp
      obtain ⟨hpr, hpc⟩ : r' = r ∧ c' = c := Prod.mk.injEq .. ▸ hp
      rw [hpr, hpc] at hne
      exact hne h0
    have := hext r' hr' c' hc' (by rwa [getCell_setCell_ne _ hpne])
    rwa [getCell_setCell_ne _ hpne] at this
  · rintro ⟨⟨hsol, hext⟩, hval⟩
    refine ⟨hsol, ?_⟩
    intro r' hr' c' hc' hne
    by_cases hpne : (r', c') = (r, c)
    · obtain ⟨rfl, rfl⟩ : r' = r ∧ c' = c := Prod.mk.injEq .. ▸ hpne
      rw [getCell_setCell_self hwfg hr' hc']
      exact hval
    · rw [getCell_setCell_ne _ hpne]
      rw [getCell_setCell_ne _ hpne] at hne
      exact hext r' hr' c' hc' hne

end CompletionLemmas

section SearchInvariants

variable {n : Nat} {σ : Shuffle} {regions : Regions}

/-- Invariant carried through the search: well-formed, in-range values,
conflict-free. -/
def Good (n : Nat) (regions : Regions) (g : Grid) : Prop :=
  GridWF n g ∧ InRangeVals n g ∧ ConflictFree n regions g

def HasCompletion (n : Nat) (regions : Regions) (g : Grid) : Prop :=
  ∃ s, IsCompletion n regions g s

def UniqueCompletion (n : Nat) (regions : Regions) (g s : Grid) : Prop :=
  IsCompletion n regions g s ∧ ∀ t, IsCompletion n regions g t → t = s

/-- The in-range/empty-cell part of a successful MRV lookup (needs no
assumption on the shuffle oracle). -/
theorem find_mrv_some_cell {g : Grid} {σ : Shuffle} {k : Nat} {r c : Nat}
    {cands : List Nat} {k' : Nat}
    (h : find_unassigned_with_mrv n σ g regions k = (some (r, c, cands), k')) :
    r < n ∧ c < n ∧ getCell g r c = 0 := by
  unfold find_unassigned_with_mrv at h
  rcases hscan : mrvScan n g regions (allCells n) none with _ | ⟨xr, xc, xcands⟩
  · rw [hscan] at h
    cases h
  · rw [hscan] at h
    dsimp only at h
    obtain ⟨h1, h2, h3, _⟩ := mrvScan_sound (allCells n) none (fun y hy => by cases hy)
      (fun p hp => mem_allCells.1 hp) (xr, xc, xcands) hscan
    by_cases hemp : xcands.isEmpty
    · rw [if_pos hemp] at h
      cases h
      exact ⟨h1, h2, h3⟩
    · rw [if_neg hemp] at h
      cases h
      exact ⟨h1, h2, h3⟩

theorem setCell_setCell {g : Grid} (r c v w : Nat) :
    setCell (setCell g r c v) r c w = setCell g r c w := by
  rcases Nat.lt_or_ge r g.length with hlt | hge
  · unfold setCell
    rw [getD_set_self' _ _ _ hlt, List.set_set, List.set_set]
  · rw [setCell_oob _ _ hge, setCell_oob _ _ hge]

theorem setCell_zero_cancel {g : Grid} {r c : Nat} (hwf : GridWF n g)
    (hr : r < n) (hc : c < n) (h0 : getCell g r c = 0) (d : Nat) :
    setCell (setCell g r c d) r c 0 = g := by
  rw [setCell_setCell]
  exact setCell_self_eq hwf hr hc h0

theorem good_setCell {g : Grid} (hg : Good n regions g) {r c d : Nat}
    (hr : r < n) (hc : c < n) (hd : d ∈ compute_candidates n g regions r c) :
    Good n regions (setCell g r c d) := by
  obtain ⟨hwf, hir, hcf⟩ := hg
  have hdn := (mem_compute_candidates.1 hd).2.2.1
  refine ⟨gridWF_setCell hwf r c d, ?_, conflictFree_setCell hwf hcf hd hr hc⟩
  intro r' hr' c' hc'
  by_cases hp : (r', c') = (r, c)
  · obtain ⟨rfl, rfl⟩ : r' = r ∧ c' = c := Prod.mk.injEq .. ▸ hp
    rw [getCell_setCell_self hwf hr' hc']
    omega
  · rw [getCell_setCell_ne _ hp]
    exact hir r' hr' c' hc'

theorem good_complete_isSolution {g : Grid} (hg : Good n regions g)
    (hc : CompleteG n g) : IsSolution n regions g :=
  ⟨hg.1, hc, hg.2.1, hg.2.2⟩

/-- Restoration discipline of one candidate loop of the counting search. -/
theorem cntLoop_restore {limit : Nat} (child : Grid → Nat → Nat → Nat × Grid × Nat)
    (r c : Nat)
    (hchild : ∀ g cnt k, GridWF n g → (child g cnt k).1 < limit → (child g cnt k).2.1 = g) :
    ∀ (ds : List Nat) (g : Grid) (cnt k : Nat), GridWF n g → r < n → c < n →
      getCell g r c = 0 →
      (cntLoop child limit r c ds g cnt k).1 < limit →
      (cntLoop child limit r c ds g cnt k).2.1 = g
  | [], g, cnt, k, _, _, _, _, _ => rfl
  | d :: ds, g, cnt, k, hwf, hr, hc, h0, hlt => by
    rcases hres : child (setCell g r c d) cnt k with ⟨cnt', gk⟩
    rcases gk with ⟨g', k'⟩
    rw [cntLoop, hres] at hlt ⊢
    dsimp only at hlt ⊢
    by_cases hle : limit ≤ cnt'
    · rw [if_pos hle] at hlt
      omega
    · rw [if_neg hle] at hlt ⊢
      have hg' : g' = setCell g r c d := by
        have := hchild (setCell g r c d) cnt k (gridWF_setCell hwf r c d)
        rw [hres] at this
        exact this (by omega)
      rw [hg', setCell_zero_cancel hwf hr hc h0 d] at hlt ⊢
      exact cntLoop_restore child r c hchild ds g cnt' k' hwf hr hc h0 hlt

/-- Restoration discipline of the counting search: whenever the cutoff has
not been reached (the "branch exhausted" outcome), the returned grid
is exactly the input grid. -/
theorem cntDfs_restore {limit : Nat} :
    ∀ (fuel : Nat) (g : Grid) (cnt k : Nat), GridWF n g →
      (cntDfs n σ regions limit fuel g cnt k).1 < limit →
      (cntDfs n σ regions limit fuel g cnt k).2.1 = g
  | 0, g, cnt, k, _, _ => rfl
  | fuel + 1, g, cnt, k, hwf, hlt => by
    by_cases hcnt : limit ≤ cnt
    · rw [cntDfs, if_pos hcnt]
    · rcases hm : find_unassigned_with_mrv n σ g regions k with ⟨o, k'⟩
      rcases o with _ | ⟨r, c, cands⟩
      · rw [cntDfs, if_neg hcnt, hm]
      · have hEq : cntDfs n σ regions limit (fuel + 1) g cnt k
            = cntLoop (cntDfs n σ regions limit fuel) limit r c cands g cnt k' := by
          rw [cntDfs, if_neg hcnt, hm]
        rw [hEq] at hlt ⊢
        obtain ⟨hr, hc, h0⟩ := find_mrv_some_cell hm
        exact cntLoop_restore (cntDfs n σ regions limit fuel) r c
          (fun g' cnt' k' hwf' => cntDfs_restore fuel g' cnt' k' hwf')
          cands g cnt k' hwf hr hc h0 hlt

end SearchInvariants

section CountLemmas

variable {n : Nat} {σ : Shuffle} {regions : Regions}

theorem cntLoop_mono {limit : Nat} (child : Grid → Nat → Nat → Nat × Grid × Nat)
    (r c : Nat) (hchild : ∀ g cnt k, cnt ≤ (child g cnt k).1) :
    ∀ (ds : List Nat) (g : Grid) (cnt k : Nat),
      cnt ≤ (cntLoop child limit r c ds g cnt k).1
  | [], g, cnt, k => le_refl _
  | d :: ds, g, cnt, k => by
    rcases hres : child (setCell g r c d) cnt k with ⟨cnt', g', k'⟩
    have h1 : cnt ≤ cnt' := by
      have := hchild (setCell g r c d) cnt k
      rwa [hres] at this
    rw [cntLoop, hres]
    dsimp only
    by_cases hle : limit ≤ cnt'
    · rw [if_pos hle]
      exact h1
    · rw [if_neg hle]
      exact le_trans h1 (cntLoop_mono child r c hchild ds _ cnt' k')

theorem cntDfs_mono {limit : Nat} :
    ∀ (fuel : Nat) (g : Grid) (cnt k : Nat),
      cnt ≤ (cntDfs n σ regions limit fuel g cnt k).1
  | 0, g, cnt, k => le_refl _
  | fuel + 1, g, cnt, k => by
    by_cases hcnt : limit ≤ cnt
    · rw [cntDfs, if_pos hcnt]
    · rcases hm : find_unassigned_with_mrv n σ g regions k with ⟨o, k'⟩
      rcases o with _ | ⟨r, c, cands⟩
      · rw [cntDfs, if_neg hcnt, hm]
        dsimp only
        omega
      · have hEq : cntDfs n σ regions limit (fuel + 1) g cnt k
            = cntLoop (cntDfs n σ regions limit fuel) limit r c cands g cnt k' := by
          rw [cntDfs, if_neg hcnt, hm]
        rw [hEq]
        exact cntLoop_mono _ r c (fun g' cnt'' k'' => cntDfs_mono fuel g' cnt'' k'')
          cands g cnt k'

theorem cntLoop_le {limit : Nat} (child : Grid → Nat → Nat → Nat × Grid × Nat)
    (r c : Nat) (hchild : ∀ g cnt k, cnt ≤ limit → (child g cnt k).1 ≤ limit) :
    ∀ (ds : List Nat) (g : Grid) (cnt k : Nat), cnt ≤ limit →
      (cntLoop child limit r c ds g cnt k).1 ≤ limit
  | [], g, cnt, k, h => h
  | d :: ds, g, cnt, k, h => by
    rcases hres : child (setCell g r c d) cnt k with ⟨cnt', g', k'⟩
    have h1 : cnt' ≤ limit := by
      have := hchild (setCell g r c d) cnt k h
      rwa [hres] at this
    rw [cntLoop, hres]
    dsimp only
    by_cases hle : limit ≤ cnt'
    · rw [if_pos hle]
      exact h1
    · rw [if_neg hle]
      exact cntLoop_le child r c hchild ds _ cnt' k' h1

theorem cntDfs_le {limit : Nat} :
    ∀ (fuel : Nat) (g : Grid) (cnt k : Nat), cnt ≤ limit →
      (cntDfs n σ regions limit fuel g cnt k).1 ≤ limit
  | 0, g, cnt, k, h => h
  | fuel + 1, g, cnt, k, h => by
    by_cases hcnt : limit ≤ cnt
    · rw [cntDfs, if_pos hcnt]
      exact h
    · rcases hm : find_unassigned_with_mrv n σ g regions k with ⟨o, k'⟩
      rcases o with _ | ⟨r, c, cands⟩
      · rw [cntDfs, if_neg hcnt, hm]
        dsimp only
        omega
      · have hEq : cntDfs n σ regions limit (fuel + 1) g cnt k
            = cntLoop (cntDfs n σ regions limit fuel) limit r c cands g cnt k' := by
          rw [cntDfs, if_neg hcnt, hm]
        rw [hEq]
        exact cntLoop_le _ r c (fun g' cnt'' k'' => cntDfs_le fuel g' cnt'' k'')
          cands g cnt k' h

theorem cntLoop_barren {limit : Nat} (child : Grid → Nat → Nat → Nat × Grid × Nat)
    (r c : Nat) {g : Grid} (hwf : GridWF n g) (hr : r < n) (hc : c < n)
    (h0 : getCell g r c = 0) :
    ∀ (ds : List Nat),
      (∀ d ∈ ds, ∀ cnt k, (child (setCell g r c d) cnt k).1 = cnt) →
      (∀ d ∈ ds, ∀ cnt k, (child (setCell g r c d) cnt k).1 < limit →
        (child (setCell g r c d) cnt k).2.1 = setCell g r c d) →
      ∀ (cnt k : Nat), cnt < limit →
      (cntLoop child limit r c ds g cnt k).1 = cnt
  | [], _, _, cnt, k, _ => rfl
  | d :: ds, hbarren, hrest, cnt, k, hlt => by
    rcases hres : child (setCell g r c d) cnt k with ⟨cnt', g', k'⟩
    have h1 : cnt' = cnt := by
      have := hbarren d (List.mem_cons_self _ _) cnt k
      rwa [hres] at this
    have h2 : g' = setCell g r c d := by
      have := hrest d (List.mem_cons_self _ _) cnt k
      rw [hres] at this
      exact this (by omega)
    rw [cntLoop, hres]
    dsimp only
    rw [if_neg (by omega), h2, setCell_zero_cancel hwf hr hc h0 d, h1]
    exact cntLoop_barren child r c hwf hr hc h0 ds
      (fun d' hd' => hbarren d' (List.mem_cons_of_mem _ hd'))
      (fun d' hd' => hrest d' (List.mem_cons_of_mem _ hd')) cnt k' hlt

/-- A grid with no completion contributes nothing to the count. -/
theorem cntDfs_barren {limit : Nat} (hperm : PermFam σ) :
    ∀ (fuel : Nat) (g : Grid) (cnt k : Nat), Good n regions g →
      zerosCount n g < fuel → ¬HasCompletion n regions g →
      (cntDfs n σ regions limit fuel g cnt k).1 = cnt
  | 0, g, cnt, k, _, _, _ => rfl
  | fuel + 1, g, cnt, k, hg, hfuel, hno => by
    by_cases hcnt : limit ≤ cnt
    · rw [cntDfs, if_pos hcnt]
    · rcases hm : find_unassigned_with_mrv n σ g regions k with ⟨o, k'⟩
      rcases o with _ | ⟨r, c, cands⟩
      · exfalso
        have hcomp : CompleteG n g := find_mrv_none_iff.1 (by rw [hm])
        exact hno ⟨g, isCompletion_self (good_complete_isSolution hg hcomp)⟩
      · have hEq : cntDfs n σ regions limit (fuel + 1) g cnt k
            = cntLoop (cntDfs n σ regions limit fuel) limit r c cands g cnt k' := by
          rw [cntDfs, if_neg hcnt, hm]
        rw [hEq]
        obtain ⟨hr, hc, h0⟩ := find_mrv_some_cell hm
        obtain ⟨_, _, _, hcperm⟩ := find_mrv_some hperm hm
        refine cntLoop_barren _ r c hg.1 hr hc h0 cands ?_ ?_ cnt k' (by omega)
        · intro d hd cnt'' k''
          have hdc : d ∈ compute_candidates n g regions r c := hcperm.mem_iff.1 hd
          have hd0 : d ≠ 0 := (compute_candidates_pos hdc).1
          refine cntDfs_barren hperm fuel _ cnt'' k'' (good_setCell hg hr hc hdc) ?_ ?_
          · have := zerosCount_setCell hg.1 hr hc h0 hd0
            omega
          · rintro ⟨s, hs⟩
            exact hno ⟨s, ((isCompletion_setCell_iff hg.1 hr hc h0 hd0).1 hs).1⟩
        · intro d hd cnt'' k'' hlt
          exact cntDfs_restore fuel _ cnt'' k'' (gridWF_setCell hg.1 r c d) hlt

theorem cntLoop_found {limit : Nat} (child : Grid → Nat → Nat → Nat × Grid × Nat)
    (r c : Nat) {g : Grid} (hwf : GridWF n g) (hr : r < n) (hc : c < n)
    (h0 : getCell g r c = 0)
    (hmono : ∀ g' cnt k, cnt ≤ (child g' cnt k).1) :
    ∀ (ds : List Nat),
      (∀ d ∈ ds, ∀ cnt k, (child (setCell g r c d) cnt k).1 < limit →
        (child (setCell g r c d) cnt k).2.1 = setCell g r c d) →
      ∀ (cnt k : Nat), cnt < limit →
      (∃ d ∈ ds, ∀ cnt' k', cnt' < limit → cnt' + 1 ≤ (child (setCell g r c d) cnt' k').1) →
      cnt + 1 ≤ (cntLoop child limit r c ds g cnt k).1
  | [], _, cnt, k, _, hex => absurd hex (by simp)
  | d :: ds, hrest, cnt, k, hlt, hex => by
    rcases hres : child (setCell g r c d) cnt k with ⟨cnt', g', k'⟩
    have hmono' : cnt ≤ cnt' := by
      have := hmono (setCell g r c d) cnt k
      rwa [hres] at this
    rw [cntLoop, hres]
    dsimp only
    by_cases hle : limit ≤ cnt'
    · rw [if_pos hle]
      omega
    · rw [if_neg hle]
      have h2 : g' = setCell g r c d := by
        have := hrest d (List.mem_cons_self _ _) cnt k
        rw [hres] at this
        exact this (by omega)
      rw [h2, setCell_zero_cancel hwf hr hc h0 d]
      obtain ⟨d', hd', hfound⟩ := hex
      rcases List.mem_cons.1 hd' with rfl | hd'mem
      · -- the productive candidate is the head: the child already counted
        have : cnt + 1 ≤ cnt' := by
          have := hfound cnt k hlt
          rwa [hres] at this
        exact le_trans this (cntLoop_mono child r c hmono ds g cnt' k')
      · have hrec := cntLoop_found child r c hwf hr hc h0 hmono ds
          (fun d'' hd'' => hrest d'' (List.mem_cons_of_mem _ hd''))
          cnt' k' (by omega) ⟨d', hd'mem, hfound⟩
        omega

/-- A grid with at least one completion makes the count strictly grow
(as long as the cutoff leaves room). -/
theorem cntDfs_found {limit : Nat} (hperm : PermFam σ) :
    ∀ (fuel : Nat) (g : Grid) (cnt k : Nat), Good n regions g →
      zerosCount n g < fuel → HasCompletion n regions g → cnt < limit →
      cnt + 1 ≤ (cntDfs n σ regions limit fuel g cnt k).1
  | 0, g, cnt, k, hg, hfuel, _, _ => by
    exfalso
    omega
  | fuel + 1, g, cnt, k, hg, hfuel, hhas, hlt => by
    rw [cntDfs, if_neg (by omega)]
    rcases hm : find_unassigned_with_mrv n σ g regions k with ⟨o, k'⟩
    rcases o with _ | ⟨r, c, cands⟩
    · dsimp only
      exact le_refl _
    · dsimp only
      obtain ⟨hr, hc, h0⟩ := find_mrv_some_cell hm
      obtain ⟨_, _, _, hcperm⟩ := find_mrv_some hperm hm
      obtain ⟨s, hs⟩ := hhas
      have hd0c : getCell s r c ∈ compute_candidates n g regions r c :=
        completion_cand hg.1 hs hr hc h0
      have hd0cands : getCell s r c ∈ cands := hcperm.mem_iff.2 hd0c
      have hsd0 : getCell s r c ≠ 0 := (compute_candidates_pos hd0c).1
      refine cntLoop_found _ r c hg.1 hr hc h0
        (fun g' cnt'' k'' => cntDfs_mono fuel g' cnt'' k'') cands ?_ cnt k' hlt ?_
      · intro d hd cnt'' k'' hlt'
        exact cntDfs_restore fuel _ cnt'' k'' (gridWF_setCell hg.1 r c d) hlt'
      · refine ⟨getCell s r c, hd0cands, ?_⟩
        intro cnt'' k'' hlt''
        refine cntDfs_found hperm fuel _ cnt'' k''
          (good_setCell hg hr hc hd0c) ?_ ?_ hlt''
        · have := zerosCount_setCell hg.1 hr hc h0 hsd0
          omega
        · exact ⟨s, (isCompletion_setCell_iff hg.1 hr hc h0 hsd0).2 ⟨hs, rfl⟩⟩

def TwoCompletions (n : Nat) (regions : Regions) (g : Grid) : Prop :=
  ∃ s₁ s₂, IsCompletion n regions g s₁ ∧ IsCompletion n regions g s₂ ∧ s₁ ≠ s₂

theorem TwoCompletions.has {g : Grid} (h : TwoCompletions n regions g) :
    HasCompletion n regions g := by
  obtain ⟨s₁, _, h₁, _, _⟩ := h
  exact ⟨s₁, h₁⟩

theorem cntLoop_two (child : Grid → Nat → Nat → Nat × Grid × Nat)
    (r c : Nat) {g : Grid} (hwf : GridWF n g) (hr : r < n) (hc : c < n)
    (h0 : getCell g r c = 0)
    (hle : ∀ g' cnt k, cnt ≤ 2 → (child g' cnt k).1 ≤ 2) :
    ∀ (ds : List Nat),
      (∀ d ∈ ds, ∀ cnt k, (child (setCell g r c d) cnt k).1 < 2 →
        (child (setCell g r c d) cnt k).2.1 = setCell g r c d) →
      (∀ d ∈ ds, ¬HasCompletion n regions (setCell g r c d) →
        ∀ cnt k, (child (setCell g r c d) cnt k).1 = cnt) →
      (∀ d ∈ ds, HasCompletion n regions (setCell g r c d) →
        ∀ cnt k, cnt < 2 → cnt + 1 ≤ (child (setCell g r c d) cnt k).1) →
      (∀ d ∈ ds, ∀ cnt k,
        ((cnt = 1 ∧ HasCompletion n regions (setCell g r c d)) ∨
         (cnt = 0 ∧ TwoCompletions n regions (setCell g r c d))) →
        (child (setCell g r c d) cnt k).1 = 2) →
      ∀ (cnt k : Nat),
      ((cnt = 1 ∧ ∃ d ∈ ds, HasCompletion n regions (setCell g r c d)) ∨
       (cnt = 0 ∧ ((∃ d ∈ ds, TwoCompletions n regions (setCell g r c d)) ∨
         (∃ d₁ ∈ ds, ∃ d₂ ∈ ds, d₁ ≠ d₂ ∧ HasCompletion n regions (setCell g r c d₁) ∧
           HasCompletion n regions (setCell g r c d₂))))) →
      (cntLoop child 2 r c ds g cnt k).1 = 2
  | [], _, _, _, _, cnt, k, hcond => by
    rcases hcond with ⟨_, d, hd, _⟩ | ⟨_, ⟨d, hd, _⟩ | ⟨d, hd, _⟩⟩ <;>
      exact absurd hd (List.not_mem_nil d)
  | d :: ds, hrest, hbarren, hfound, htwo, cnt, k, hcond => by
    rcases hres : child (setCell g r c d) cnt k with ⟨cnt₁, g₁, k₁⟩
    rw [cntLoop, hres]
    dsimp only
    have hd_mem : d ∈ d :: ds := List.mem_cons_self _ _
    have hrest' : ∀ d' ∈ ds, ∀ cnt' k', (child (setCell g r c d') cnt' k').1 < 2 →
        (child (setCell g r c d') cnt' k').2.1 = setCell g r c d' :=
      fun d' hd' => hrest d' (List.mem_cons_of_mem _ hd')
    have hbarren' : ∀ d' ∈ ds, ¬HasCompletion n regions (setCell g r c d') →
        ∀ cnt' k', (child (setCell g r c d') cnt' k').1 = cnt' :=
      fun d' hd' => hbarren d' (List.mem_cons_of_mem _ hd')
    have hfound' : ∀ d' ∈ ds, HasCompletion n regions (setCell g r c d') →
        ∀ cnt' k', cnt' < 2 → cnt' + 1 ≤ (child (setCell g r c d') cnt' k').1 :=
      fun d' hd' => hfound d' (List.mem_cons_of_mem _ hd')
    have htwo' : ∀ d' ∈ ds, ∀ cnt' k',
        ((cnt' = 1 ∧ HasCompletion n regions (setCell g r c d')) ∨
         (cnt' = 0 ∧ TwoCompletions n regions (setCell g r c d'))) →
        (child (setCell g r c d') cnt' k').1 = 2 :=
      fun d' hd' => htwo d' (List.mem_cons_of_mem _ hd')
    have hrestore : cnt₁ < 2 → g₁ = setCell g r c d := by
      intro hlt
      have := hrest d hd_mem cnt k
      rw [hres] at this
      exact this hlt
    rcases hcond with ⟨hcnt1, d', hd', hhas'⟩ | ⟨hcnt0, hsub⟩
    · -- count already 1: one more completion somewhere pushes it to 2
      subst hcnt1
      by_cases hhd : HasCompletion n regions (setCell g r c d)
      · have h2 : cnt₁ = 2 := by
          have hlow := hfound d hd_mem hhd 1 k (by omega)
          have hhigh := hle (setCell g r c d) 1 k (by omega)
          rw [hres] at hlow hhigh
          omega
        rw [if_pos (by omega)]
        exact h2
      · have h1 : cnt₁ = 1 := by
          have := hbarren d hd_mem hhd 1 k
          rwa [hres] at this
        rw [if_neg (by omega), hrestore (by omega), setCell_zero_cancel hwf hr hc h0 d, h1]
        have hd'ds : d' ∈ ds := by
          rcases List.mem_cons.1 hd' with rfl | h
          · exact absurd hhas' hhd
          · exact h
        exact cntLoop_two child r c hwf hr hc h0 hle ds hrest' hbarren' hfound' htwo'
          1 k₁ (Or.inl ⟨rfl, d', hd'ds, hhas'⟩)
    · subst hcnt0
      rcases hsub with ⟨d', hd', htd'⟩ | ⟨d₁, hd₁, d₂, hd₂, hne, hh₁, hh₂⟩
      · -- some branch has two distinct completions
        by_cases htd : TwoCompletions n regions (setCell g r c d)
        · have h2 : cnt₁ = 2 := by
            have := htwo d hd_mem 0 k (Or.inr ⟨rfl, htd⟩)
            rwa [hres] at this
          rw [if_pos (by omega)]
          exact h2
        · by_cases hhd : HasCompletion n regions (setCell g r c d)
          · have hlow : 1 ≤ cnt₁ := by
              have := hfound d hd_mem hhd 0 k (by omega)
              rw [hres] at this
              omega
            have hhigh : cnt₁ ≤ 2 := by
              have := hle (setCell g r c d) 0 k (by omega)
              rwa [hres] at this
            by_cases h2 : 2 ≤ cnt₁
            · rw [if_pos h2]
              omega
            · have h1 : cnt₁ = 1 := by omega
              rw [if_neg h2, hrestore (by omega), setCell_zero_cancel hwf hr hc h0 d, h1]
              have hd'ds : d' ∈ ds := by
                rcases List.mem_cons.1 hd' with rfl | h
                · exact absurd htd' htd
                · exact h
              exact cntLoop_two child r c hwf hr hc h0 hle ds hrest' hbarren' hfound'
                htwo' 1 k₁ (Or.inl ⟨rfl, d', hd'ds, htd'.has⟩)
          · have h1 : cnt₁ = 0 := by
              have := hbarren d hd_mem hhd 0 k
              rwa [hres] at this
            rw [if_neg (by omega), hrestore (by omega), setCell_zero_cancel hwf hr hc h0 d, h1]
            have hd'ds : d' ∈ ds := by
              rcases List.mem_cons.1 hd' with rfl | h
              · exact absurd htd'.has hhd
              · exact h
            exact cntLoop_two child r c hwf hr hc h0 hle ds hrest' hbarren' hfound' htwo'
              0 k₁ (Or.inr ⟨rfl, Or.inl ⟨d', hd'ds, htd'⟩⟩)
      · -- two different branches carry a completion each
        by_cases hhd : HasCompletion n regions (setCell g r c d)
        · have hlow : 1 ≤ cnt₁ := by
            have := hfound d hd_mem hhd 0 k (by omega)
            rw [hres] at this
            omega
          have hhigh : cnt₁ ≤ 2 := by
            have := hle (setCell g r c d) 0 k (by omega)
            rwa [hres] at this
          by_cases h2 : 2 ≤ cnt₁
          · rw [if_pos h2]
            omega
          · have h1 : cnt₁ = 1 := by omega
            rw [if_neg h2, hrestore (by omega), setCell_zero_cancel hwf hr hc h0 d, h1]
            have : ∃ d' ∈ ds, HasCompletion n regions (setCell g r c d') := by
              rcases List.mem_cons.1 hd₁ with rfl | h₁mem
              · rcases List.mem_cons.1 hd₂ with rfl | h₂mem
                · exact absurd rfl hne
                · exact ⟨d₂, h₂mem, hh₂⟩
              · exact ⟨d₁, h₁mem, hh₁⟩
            obtain ⟨d', hd'ds, hhas'⟩ := this
            exact cntLoop_two child r c hwf hr hc h0 hle ds hrest' hbarren' hfound' htwo'
              1 k₁ (Or.inl ⟨rfl, d', hd'ds, hhas'⟩)
        · have h1 : cnt₁ = 0 := by
            have := hbarren d hd_mem hhd 0 k
            rwa [hres] at this
          rw [if_neg (by omega), hrestore (by omega), setCell_zero_cancel hwf hr hc h0 d, h1]
          have hd₁ds : d₁ ∈ ds := by
            rcases List.mem_cons.1 hd₁ with rfl | h
            · exact absurd hh₁ hhd
            · exact h
          have hd₂ds : d₂ ∈ ds := by
            rcases List.mem_cons.1 hd₂ with rfl | h
            · exact absurd hh₂ hhd
            · exact h
          exact cntLoop_two child r c hwf hr hc h0 hle ds hrest' hbarren' hfound' htwo'
            0 k₁ (Or.inr ⟨rfl, Or.inr ⟨d₁, hd₁ds, d₂, hd₂ds, hne, hh₁, hh₂⟩⟩)

/-- With cutoff 2, a grid with one completion and running count 1, or two
distinct completions and running count 0, drives the count to exactly 2. -/
theorem cntDfs_two (hperm : PermFam σ) :
    ∀ (fuel : Nat) (g : Grid) (cnt k : Nat), Good n regions g →
      zerosCount n g < fuel →
      ((cnt = 1 ∧ HasCompletion n regions g) ∨ (cnt = 0 ∧ TwoCompletions n regions g)) →
      (cntDfs n σ regions 2 fuel g cnt k).1 = 2
  | 0, g, cnt, k, _, hfuel, _ => by omega
  | fuel + 1, g, cnt, k, hg, hfuel, hcond => by
    have hcnt : ¬(2 ≤ cnt) := by rcases hcond with ⟨h, _⟩ | ⟨h, _⟩ <;> omega
    rcases hm : find_unassigned_with_mrv n σ g regions k with ⟨o, k'⟩
    rcases o with _ | ⟨r, c, cands⟩
    · -- the grid is complete
      have hcomp : CompleteG n g := find_mrv_none_iff.1 (by rw [hm])
      rcases hcond with ⟨hcnt1, _⟩ | ⟨_, s₁, s₂, h₁, h₂, hne⟩
      · rw [cntDfs, if_neg hcnt, hm]
        dsimp only
        omega
      · exact absurd ((completion_of_complete hg.1 hcomp h₁).trans
          (completion_of_complete hg.1 hcomp h₂).symm) hne
    · have hEq : cntDfs n σ regions 2 (fuel + 1) g cnt k
          = cntLoop (cntDfs n σ regions 2 fuel) 2 r c cands g cnt k' := by
        rw [cntDfs, if_neg hcnt, hm]
      rw [hEq]
      obtain ⟨hr, hc, h0⟩ := find_mrv_some_cell hm
      obtain ⟨_, _, _, hcperm⟩ := find_mrv_some hperm hm
      have hchildgood : ∀ d ∈ cands, Good n regions (setCell g r c d) ∧
          zerosCount n (setCell g r c d) < fuel ∧ d ≠ 0 := by
        intro d hd
        have hdc : d ∈ compute_candidates n g regions r c := hcperm.mem_iff.1 hd
        have hd0 : d ≠ 0 := (compute_candidates_pos hdc).1
        refine ⟨good_setCell hg hr hc hdc, ?_, hd0⟩
        have := zerosCount_setCell hg.1 hr hc h0 hd0
        omega
      refine @cntLoop_two n regions (cntDfs n σ regions 2 fuel) r c g hg.1 hr hc h0
        (fun g' cnt'' k'' => cntDfs_le fuel g' cnt'' k'') cands ?_ ?_ ?_ ?_ cnt k' ?_
      · intro d hd cnt'' k'' hlt
        exact cntDfs_restore fuel _ cnt'' k'' (gridWF_setCell hg.1 r c d) hlt
      · intro d hd hno cnt'' k''
        exact cntDfs_barren hperm fuel _ cnt'' k'' (hchildgood d hd).1
          (hchildgood d hd).2.1 hno
      · intro d hd hhas cnt'' k'' hlt
        exact cntDfs_found hperm fuel _ cnt'' k'' (hchildgood d hd).1
          (hchildgood d hd).2.1 hhas hlt
      · intro d hd cnt'' k'' hcond'
        exact cntDfs_two hperm fuel _ cnt'' k'' (hchildgood d hd).1
          (hchildgood d hd).2.1 hcond'
      · -- translate the completions of `g` into completions of the branches
        rcases hcond with ⟨hcnt1, s, hs⟩ | ⟨hcnt0, s₁, s₂, h₁, h₂, hne⟩
        · refine Or.inl ⟨hcnt1, getCell s r c, ?_, ?_⟩
          · exact hcperm.mem_iff.2 (completion_cand hg.1 hs hr hc h0)
          · have hd0 : getCell s r c ≠ 0 :=
              (compute_candidates_pos (completion_cand hg.1 hs hr hc h0)).1
            exact ⟨s, (isCompletion_setCell_iff hg.1 hr hc h0 hd0).2 ⟨hs, rfl⟩⟩
        · have hc₁ : getCell s₁ r c ∈ compute_candidates n g regions r c :=
            completion_cand hg.1 h₁ hr hc h0
          have hc₂ : getCell s₂ r c ∈ compute_candidates n g regions r c :=
            completion_cand hg.1 h₂ hr hc h0
          have hd₁0 : getCell s₁ r c ≠ 0 := (compute_candidates_pos hc₁).1
          have hd₂0 : getCell s₂ r c ≠ 0 := (compute_candidates_pos hc₂).1
          by_cases hdd : getCell s₁ r c = getCell s₂ r c
          · refine Or.inr ⟨hcnt0, Or.inl ⟨getCell s₁ r c, hcperm.mem_iff.2 hc₁,
              s₁, s₂, ?_, ?_, hne⟩⟩
            · exact (isCompletion_setCell_iff hg.1 hr hc h0 hd₁0).2 ⟨h₁, rfl⟩
            · exact (isCompletion_setCell_iff hg.1 hr hc h0 hd₁0).2 ⟨h₂, hdd.symm⟩
          · refine Or.inr ⟨hcnt0, Or.inr ⟨getCell s₁ r c, hcperm.mem_iff.2 hc₁,
              getCell s₂ r c, hcperm.mem_iff.2 hc₂, hdd, ?_, ?_⟩⟩
            · exact ⟨s₁, (isCompletion_setCell_iff hg.1 hr hc h0 hd₁0).2 ⟨h₁, rfl⟩⟩
            · exact ⟨s₂, (isCompletion_setCell_iff hg.1 hr hc h0 hd₂0).2 ⟨h₂, rfl⟩⟩

theorem cntLoop_unique (child : Grid → Nat → Nat → Nat × Grid × Nat)
    (r c : Nat) {g : Grid} (hwf : GridWF n g) (hr : r < n) (hc : c < n)
    (h0 : getCell g r c = 0) (d0 : Nat)
    (hone : ∀ k, (child (setCell g r c d0) 0 k).1 = 1) :
    ∀ (ds : List Nat), ds.Nodup →
      (∀ d ∈ ds, ∀ cnt k, (child (setCell g r c d) cnt k).1 < 2 →
        (child (setCell g r c d) cnt k).2.1 = setCell g r c d) →
      (∀ d ∈ ds, d ≠ d0 → ∀ cnt k, (child (setCell g r c d) cnt k).1 = cnt) →
      ∀ (cnt k : Nat),
      ((cnt = 0 ∧ d0 ∈ ds) ∨ (cnt = 1 ∧ d0 ∉ ds)) →
      (cntLoop child 2 r c ds g cnt k).1 = 1
  | [], _, _, _, cnt, k, hcond => by
    rcases hcond with ⟨_, hd0⟩ | ⟨hcnt, _⟩
    · exact absurd hd0 (List.not_mem_nil d0)
    · exact hcnt
  | d :: ds, hnd, hrest, hbarren, cnt, k, hcond => by
    rcases hres : child (setCell g r c d) cnt k with ⟨cnt₁, g₁, k₁⟩
    rw [cntLoop, hres]
    dsimp only
    have hrestore : cnt₁ < 2 → g₁ = setCell g r c d := by
      intro hlt
      have := hrest d (List.mem_cons_self _ _) cnt k
      rw [hres] at this
      exact this hlt
    have hrest' := fun d' hd' => hrest d' (List.mem_cons_of_mem d hd')
    have hbarren' := fun d' hd' => hbarren d' (List.mem_cons_of_mem d hd')
    rcases hcond with ⟨hcnt0, hd0⟩ | ⟨hcnt1, hd0⟩
    · subst hcnt0
      by_cases hdd : d = d0
      · subst hdd
        have h1 : cnt₁ = 1 := by
          have := hone k
          rwa [hres] at this
        rw [if_neg (by omega), hrestore (by omega), setCell_zero_cancel hwf hr hc h0 d, h1]
        exact cntLoop_unique child r c hwf hr hc h0 d hone ds (List.nodup_cons.1 hnd).2
          hrest' hbarren' 1 k₁ (Or.inr ⟨rfl, (List.nodup_cons.1 hnd).1⟩)
      · have h1 : cnt₁ = 0 := by
          have := hbarren d (List.mem_cons_self _ _) hdd 0 k
          rwa [hres] at this
        rw [if_neg (by omega), hrestore (by omega), setCell_zero_cancel hwf hr hc h0 d, h1]
        have hd0ds : d0 ∈ ds := by
          rcases List.mem_cons.1 hd0 with rfl | h
          · exact absurd rfl hdd
          · exact h
        exact cntLoop_unique child r c hwf hr hc h0 d0 hone ds (List.nodup_cons.1 hnd).2
          hrest' hbarren' 0 k₁ (Or.inl ⟨rfl, hd0ds⟩)
    · subst hcnt1
      have hdd : d ≠ d0 := fun h => hd0 (h ▸ List.mem_cons_self _ _)
      have h1 : cnt₁ = 1 := by
        have := hbarren d (List.mem_cons_self _ _) hdd 1 k
        rwa [hres] at this
      rw [if_neg (by omega), hrestore (by omega), setCell_zero_cancel hwf hr hc h0 d, h1]
      exact cntLoop_unique child r c hwf hr hc h0 d0 hone ds (List.nodup_cons.1 hnd).2
        hrest' hbarren' 1 k₁ (Or.inr ⟨rfl, fun h => hd0 (List.mem_cons_of_mem d h)⟩)

/-- With cutoff 2, a grid with a unique completion counts exactly 1. -/
theorem cntDfs_unique (hperm : PermFam σ) :
    ∀ (fuel : Nat) (g : Grid) (k : Nat) (s : Grid), Good n regions g →
      zerosCount n g < fuel → UniqueCompletion n regions g s →
      (cntDfs n σ regions 2 fuel g 0 k).1 = 1
  | 0, g, k, s, _, hfuel, _ => by omega
  | fuel + 1, g, k, s, hg, hfuel, huniq => by
    rcases hm : find_unassigned_with_mrv n σ g regions k with ⟨o, k'⟩
    rcases o with _ | ⟨r, c, cands⟩
    · rw [cntDfs, if_neg (by omega), hm]
    · have hEq : cntDfs n σ regions 2 (fuel + 1) g 0 k
          = cntLoop (cntDfs n σ regions 2 fuel) 2 r c cands g 0 k' := by
        rw [cntDfs, if_neg (by omega), hm]
      rw [hEq]
      obtain ⟨hr, hc, h0⟩ := find_mrv_some_cell hm
      obtain ⟨_, _, _, hcperm⟩ := find_mrv_some hperm hm
      obtain ⟨hs, huniq'⟩ := huniq
      have hd0c : getCell s r c ∈ compute_candidates n g regions r c :=
        completion_cand hg.1 hs hr hc h0
      have hd00 : getCell s r c ≠ 0 := (compute_candidates_pos hd0c).1
      refine cntLoop_unique (cntDfs n σ regions 2 fuel) r c hg.1 hr hc h0
        (getCell s r c) ?_ cands (hcperm.symm.nodup (compute_candidates_nodup n g regions r c))
        ?_ ?_ 0 k' (Or.inl ⟨rfl, hcperm.mem_iff.2 hd0c⟩)
      · intro k''
        refine cntDfs_unique hperm fuel _ k'' s (good_setCell hg hr hc hd0c) ?_ ?_
        · have := zerosCount_setCell hg.1 hr hc h0 hd00
          omega
        · constructor
          · exact (isCompletion_setCell_iff hg.1 hr hc h0 hd00).2 ⟨hs, rfl⟩
          · intro t ht
            exact huniq' t ((isCompletion_setCell_iff hg.1 hr hc h0 hd00).1 ht).1
      · intro d hd cnt'' k'' hlt
        exact cntDfs_restore fuel _ cnt'' k'' (gridWF_setCell hg.1 r c d) hlt
      · intro d hd hdne cnt'' k''
        have hdc : d ∈ compute_candidates n g regions r c := hcperm.mem_iff.1 hd
        have hd0 : d ≠ 0 := (compute_candidates_pos hdc).1
        refine cntDfs_barren hperm fuel _ cnt'' k'' (good_setCell hg hr hc hdc) ?_ ?_
        · have := zerosCount_setCell hg.1 hr hc h0 hd0
          omega
        · rintro ⟨t, ht⟩
          obtain ⟨htg, htv⟩ := (isCompletion_setCell_iff hg.1 hr hc h0 hd0).1 ht
          exact hdne (by rw [← htv, huniq' t htg])

end CountLemmas

section BacktrackLemmas

variable {n : Nat} {σ : Shuffle} {regions : Regions}

theorem btLoop_restore (child : Grid → Nat → Bool × Grid × Nat) (r c : Nat) {g : Grid}
    (hwf : GridWF n g) (hr : r < n) (hc : c < n) (h0 : getCell g r c = 0) :
    ∀ (ds : List Nat),
      (∀ d ∈ ds, ∀ k, (child (setCell g r c d) k).1 = false →
        (child (setCell g r c d) k).2.1 = setCell g r c d) →
      ∀ (k : Nat),
      (btLoop child r c ds g k).1 = false → (btLoop child r c ds g k).2.1 = g
  | [], _, k, _ => rfl
  | d :: ds, hchild, k, hfail => by
    rcases hres : child (setCell g r c d) k with ⟨ok, g', k'⟩
    rw [btLoop, hres] at hfail ⊢
    rcases ok with _ | _
    · dsimp only at hfail ⊢
      have hg' : g' = setCell g r c d := by
        have := hchild d (List.mem_cons_self _ _) k
        rw [hres] at this
        exact this rfl
      rw [hg', setCell_zero_cancel hwf hr hc h0 d] at hfail ⊢
      exact btLoop_restore child r c hwf hr hc h0 ds
        (fun d' hd' => hchild d' (List.mem_cons_of_mem _ hd')) k' hfail
    · dsimp only at hfail
      cases hfail

/-- Restoration discipline of the construction search: when the search
fails, the returned grid is exactly the input grid. -/
theorem btDfs_restore :
    ∀ (fuel : Nat) (g : Grid) (k : Nat), GridWF n g →
      (btDfs n σ regions fuel g k).1 = false → (btDfs n σ regions fuel g k).2.1 = g
  | 0, g, k, _, _ => rfl
  | fuel + 1, g, k, hwf, hfail => by
    rcases hm : find_unassigned_with_mrv n σ g regions k with ⟨o, k'⟩
    rcases o with _ | ⟨r, c, cands⟩
    · rw [btDfs, hm] at hfail
      cases hfail
    · have hEq : btDfs n σ regions (fuel + 1) g k
          = btLoop (btDfs n σ regions fuel) r c cands g k' := by
        rw [btDfs, hm]
      rw [hEq] at hfail ⊢
      obtain ⟨hr, hc, h0⟩ := find_mrv_some_cell hm
      exact btLoop_restore (btDfs n σ regions fuel) r c hwf hr hc h0 cands
        (fun d _ k'' => btDfs_restore fuel _ k'' (gridWF_setCell hwf r c d))
        k' hfail

/-- Soundness of one candidate loop of the construction search. -/
theorem btLoop_sound (child : Grid → Nat → Bool × Grid × Nat) (r c : Nat) {g : Grid}
    (hwf : GridWF n g) (hr : r < n) (hc : c < n) (h0 : getCell g r c = 0) :
    ∀ (ds : List Nat),
      (∀ d ∈ ds, ∀ k, (child (setCell g r c d) k).1 = false →
        (child (setCell g r c d) k).2.1 = setCell g r c d) →
      (∀ d ∈ ds, ∀ k, (child (setCell g r c d) k).1 = true →
        Good n regions (child (setCell g r c d) k).2.1 ∧
          CompleteG n (child (setCell g r c d) k).2.1) →
      ∀ (k : Nat), (btLoop child r c ds g k).1 = true →
        Good n regions (btLoop child r c ds g k).2.1 ∧
          CompleteG n (btLoop child r c ds g k).2.1
  | [], _, _, k, hok => by cases hok
  | d :: ds, hrest, hsound, k, hok => by
    rcases hres : child (setCell g r c d) k with ⟨ok, g', k'⟩
    rw [btLoop, hres] at hok ⊢
    rcases ok with _ | _
    · dsimp only at hok ⊢
      have hg' : g' = setCell g r c d := by
        have := hrest d (List.mem_cons_self _ _) k
        rw [hres] at this
        exact this rfl
      rw [hg', setCell_zero_cancel hwf hr hc h0 d] at hok ⊢
      exact btLoop_sound child r c hwf hr hc h0 ds
        (fun d' hd' => hrest d' (List.mem_cons_of_mem _ hd'))
        (fun d' hd' => hsound d' (List.mem_cons_of_mem _ hd')) k' hok
    · dsimp only
      have := hsound d (List.mem_cons_self _ _) k
      rw [hres] at this
      exact this rfl

/-- Soundness of the construction search: a successful search returns a
complete conflict-free grid. -/
theorem btDfs_sound (hperm : PermFam σ) :
    ∀ (fuel : Nat) (g : Grid) (k : Nat), Good n regions g → zerosCount n g < fuel →
      (btDfs n σ regions fuel g k).1 = true →
      Good n regions (btDfs n σ regions fuel g k).2.1 ∧
        CompleteG n (btDfs n σ regions fuel g k).2.1
  | 0, g, k, _, hfuel, hok => by cases hok
  | fuel + 1, g, k, hg, hfuel, hok => by
    rcases hm : find_unassigned_with_mrv n σ g regions k with ⟨o, k'⟩
    rcases o with _ | ⟨r, c, cands⟩
    · rw [btDfs, hm]
      dsimp only
      exact ⟨hg, find_mrv_none_iff.1 (by rw [hm])⟩
    · have hEq : btDfs n σ regions (fuel + 1) g k
          = btLoop (btDfs n σ regions fuel) r c cands g k' := by
        rw [btDfs, hm]
      rw [hEq] at hok ⊢
      obtain ⟨hr, hc, h0⟩ := find_mrv_some_cell hm
      obtain ⟨_, _, _, hcperm⟩ := find_mrv_some hperm hm
      refine btLoop_sound (btDfs n σ regions fuel) r c hg.1 hr hc h0 cands ?_ ?_ k' hok
      · intro d _ k'' hfail
        exact btDfs_restore fuel _ k'' (gridWF_setCell hg.1 r c d) hfail
      · intro d hd k'' hok'
        have hdc : d ∈ compute_candidates n g regions r c := hcperm.mem_iff.1 hd
        have hd0 : d ≠ 0 := (compute_candidates_pos hdc).1
        refine btDfs_sound hperm fuel _ k'' (good_setCell hg hr hc hdc) ?_ hok'
        have := zerosCount_setCell hg.1 hr hc h0 hd0
        omega

end BacktrackLemmas

section Units

variable {n : Nat} {regions : Regions}

/-- The cells of row `r`. -/
def rowCells (n r : Nat) : List (Nat × Nat) := (List.range n).map fun c => (r, c)

/-- The cells of column `c`. -/
def colCells (n c : Nat) : List (Nat × Nat) := (List.range n).map fun r => (r, c)

/-- The cells of the region with id `i`. -/
def regionCells (n : Nat) (regions : Regions) (i : Int) : List (Nat × Nat) :=
  (allCells n).filter fun p => getReg regions p.1 p.2 == i

/-- The symbols of the given cells. -/
def cellVals (g : Grid) (cells : List (Nat × Nat)) : List Nat :=
  cells.map fun p => getCell g p.1 p.2

/-- `n` cells carrying pairwise distinct symbols of `1..n` carry every
symbol exactly once. -/
theorem count_one_of_unit {g : Grid} {cells : List (Nat × Nat)}
    (hlen : cells.length = n) (hnd : cells.Nodup)
    (hdistinct : ∀ p ∈ cells, ∀ q ∈ cells, p ≠ q →
      getCell g p.1 p.2 ≠ getCell g q.1 q.2)
    (hvals : ∀ p ∈ cells, 1 ≤ getCell g p.1 p.2 ∧ getCell g p.1 p.2 ≤ n)
    {v : Nat} (hv1 : 1 ≤ v) (hvn : v ≤ n) :
    (cellVals g cells).count v = 1 := by
  have hmapnd : (cellVals g cells).Nodup := by
    refine List.Nodup.map_on ?_ hnd
    intro p hp q hq heq
    by_contra hne
    exact hdistinct p hp q hq hne heq
  have hsub : cellVals g cells ⊆ DIGITS n := by
    intro v' hv'
    obtain ⟨p, hp, rfl⟩ := List.mem_map.1 hv'
    have := hvals p hp
    rw [DIGITS, List.mem_range'_1]
    omega
  have hperm : (cellVals g cells).Perm (DIGITS n) := by
    refine (hmapnd.subperm hsub).perm_of_length_le ?_
    have h1 : (cellVals g cells).length = n := by
      rw [cellVals, List.length_map, hlen]
    have h2 : (DIGITS n).length = n := by
      rw [DIGITS, List.length_range']
    omega
  rw [hperm.count_eq]
  exact List.count_eq_one_of_mem (by rw [DIGITS]; exact List.nodup_range' ..)
    (by rw [DIGITS, List.mem_range'_1]; omega)

theorem rowCells_spec (r : Nat) :
    (rowCells n r).length = n ∧ (rowCells n r).Nodup ∧
      ∀ p ∈ rowCells n r, p.1 = r ∧ p.2 < n := by
  refine ⟨by simp [rowCells], ?_, ?_⟩
  · exact (List.nodup_range _).map fun a b h => (Prod.mk.injEq .. ▸ h).2
  · intro p hp
    obtain ⟨c, hc, rfl⟩ := List.mem_map.1 hp
    exact ⟨rfl, List.mem_range.1 hc⟩

theorem colCells_spec (c : Nat) :
    (colCells n c).length = n ∧ (colCells n c).Nodup ∧
      ∀ p ∈ colCells n c, p.1 < n ∧ p.2 = c := by
  refine ⟨by simp [colCells], ?_, ?_⟩
  · exact (List.nodup_range _).map fun a b h => (Prod.mk.injEq .. ▸ h).1
  · intro p hp
    obtain ⟨r, hr, rfl⟩ := List.mem_map.1 hp
    exact ⟨List.mem_range.1 hr, rfl⟩

theorem regionCells_spec (i : Int) :
    (regionCells n regions i).Nodup ∧
      ∀ p ∈ regionCells n regions i,
        p.1 < n ∧ p.2 < n ∧ getReg regions p.1 p.2 = i := by
  refine ⟨(allCells_nodup n).filter _, ?_⟩
  intro p hp
  obtain ⟨hmem, hpred⟩ := List.mem_filter.1 hp
  obtain ⟨h1, h2⟩ := mem_allCells.1 hmem
  exact ⟨h1, h2, by simpa using hpred⟩

/-- Every symbol `1..n` appears exactly once in every row, column, and
region unit of the solution. -/
def ExactlyOnceUnits (n : Nat) (regions : Regions) (g : Grid) : Prop :=
  (∀ r < n, ∀ v, 1 ≤ v → v ≤ n → (cellVals g (rowCells n r)).count v = 1) ∧
  (∀ c < n, ∀ v, 1 ≤ v → v ≤ n → (cellVals g (colCells n c)).count v = 1) ∧
  (∀ r < n, ∀ c < n, ∀ v, 1 ≤ v → v ≤ n →
    (cellVals g (regionCells n regions (getReg regions r c))).count v = 1)

/-- The region map partitions the grid into cells-of-a-region units of
size exactly `n` (true of every valid region map, and decidable). -/
def RegionUnitsWF (n : Nat) (regions : Regions) : Prop :=
  ∀ r < n, ∀ c < n, (regionCells n regions (getReg regions r c)).length = n

/-- A complete conflict-free in-range grid carries every symbol exactly
once in every unit. -/
theorem exactlyOnce_of_solution {g : Grid} (hsol : IsSolution n regions g)
    (hreg : RegionUnitsWF n regions) : ExactlyOnceUnits n regions g := by
  obtain ⟨hwf, hcomp, hir, hcf⟩ := hsol
  have hvals : ∀ p : Nat × Nat, p.1 < n → p.2 < n →
      1 ≤ getCell g p.1 p.2 ∧ getCell g p.1 p.2 ≤ n := by
    intro p h1 h2
    have := hcomp p.1 h1 p.2 h2
    have := hir p.1 h1 p.2 h2
    omega
  refine ⟨?_, ?_, ?_⟩
  · intro r hr v hv1 hvn
    obtain ⟨hlen, hnd, hmem⟩ := rowCells_spec (n := n) r
    refine count_one_of_unit hlen hnd ?_ ?_ hv1 hvn
    · intro p hp q hq hne
      obtain ⟨hp1, hp2⟩ := hmem p hp
      obtain ⟨hq1, hq2⟩ := hmem q hq
      exact hcf p.1 (hp1 ▸ hr) p.2 hp2 q.1 (hq1 ▸ hr) q.2 hq2 (by simpa using hne)
        (Or.inl (hp1.trans hq1.symm))
        (by have := hvals p (hp1 ▸ hr) hp2; omega)
        (by have := hvals q (hq1 ▸ hr) hq2; omega)
    · intro p hp
      obtain ⟨hp1, hp2⟩ := hmem p hp
      exact hvals p (hp1 ▸ hr) hp2
  · intro c hc v hv1 hvn
    obtain ⟨hlen, hnd, hmem⟩ := colCells_spec (n := n) c
    refine count_one_of_unit hlen hnd ?_ ?_ hv1 hvn
    · intro p hp q hq hne
      obtain ⟨hp1, hp2⟩ := hmem p hp
      obtain ⟨hq1, hq2⟩ := hmem q hq
      exact hcf p.1 hp1 p.2 (hp2 ▸ hc) q.1 hq1 q.2 (hq2 ▸ hc) (by simpa using hne)
        (Or.inr (Or.inl (hp2.trans hq2.symm)))
        (by have := hvals p hp1 (hp2 ▸ hc); omega)
        (by have := hvals q hq1 (hq2 ▸ hc); omega)
    · intro p hp
      obtain ⟨hp1, hp2⟩ := hmem p hp
      exact hvals p hp1 (hp2 ▸ hc)
  · intro r hr c hc v hv1 hvn
    obtain ⟨hnd, hmem⟩ := @regionCells_spec n regions (getReg regions r c)
    refine count_one_of_unit (hreg r hr c hc) hnd ?_ ?_ hv1 hvn
    · intro p hp q hq hne
      obtain ⟨hp1, hp2, hp3⟩ := hmem p hp
      obtain ⟨hq1, hq2, hq3⟩ := hmem q hq
      exact hcf p.1 hp1 p.2 hp2 q.1 hq1 q.2 hq2 (by simpa using hne)
        (Or.inr (Or.inr (hp3.trans hq3.symm)))
        (by have := hvals p hp1 hp2; omega)
        (by have := hvals q hq1 hq2; omega)
    · intro p hp
      obtain ⟨hp1, hp2, _⟩ := hmem p hp
      exact hvals p hp1 hp2

end Units

section Zeroing

variable {n : Nat} {regions : Regions}

theorem getCell_oob_zero {g : Grid} {r : Nat} (c : Nat) (hge : g.length ≤ r) :
    getCell g r c = 0 := by
  show (g.getD r []).getD c 0 = 0
  rw [List.getD_eq_default _ _ hge]
  simp

theorem getCell_setCell_zero_self (g : Grid) (r c : Nat) :
    getCell (setCell g r c 0) r c = 0 := by
  rcases Nat.lt_or_ge r g.length with hlt | hge
  · show ((setCell g r c 0).getD r []).getD c 0 = 0
    rw [row_setCell_self _ _ hlt]
    rcases Nat.lt_or_ge c (g.getD r []).length with hclt | hcge
    · rw [getD_set_self' _ _ _ hclt]
    · rw [List.getD_eq_default _ _ (by simpa using hcge)]
  · rw [setCell_oob _ _ hge]
    exact getCell_oob_zero c hge

theorem conflictFree_setCell_zero {g : Grid} (hcf : ConflictFree n regions g)
    (r c : Nat) : ConflictFree n regions (setCell g r c 0) := by
  intro r₁ hr₁ c₁ hc₁ r₂ hr₂ c₂ hc₂ hne hunit hz₁ hz₂
  by_cases e₁ : (r₁, c₁) = (r, c)
  · obtain ⟨rfl, rfl⟩ : r₁ = r ∧ c₁ = c := Prod.mk.injEq .. ▸ e₁
    exact absurd (getCell_setCell_zero_self g r₁ c₁) hz₁
  · by_cases e₂ : (r₂, c₂) = (r, c)
    · obtain ⟨rfl, rfl⟩ : r₂ = r ∧ c₂ = c := Prod.mk.injEq .. ▸ e₂
      exact absurd (getCell_setCell_zero_self g r₂ c₂) hz₂
    · rw [getCell_setCell_ne _ e₁] at hz₁ ⊢
      rw [getCell_setCell_ne _ e₂] at hz₂ ⊢
      exact hcf r₁ hr₁ c₁ hc₁ r₂ hr₂ c₂ hc₂ hne hunit hz₁ hz₂

theorem good_setCell_zero {g : Grid} (hg : Good n regions g) (r c : Nat) :
    Good n regions (setCell g r c 0) := by
  refine ⟨gridWF_setCell hg.1 r c 0, ?_, conflictFree_setCell_zero hg.2.2 r c⟩
  intro r' hr' c' hc'
  by_cases hp : (r', c') = (r, c)
  · obtain ⟨rfl, rfl⟩ : r' = r ∧ c' = c := Prod.mk.injEq .. ▸ hp
    rw [getCell_setCell_self hg.1 hr' hc']
    omega
  · rw [getCell_setCell_ne _ hp]
    exact hg.2.1 r' hr' c' hc'

theorem extendsTo_setCell_zero {g s : Grid} (hext : ExtendsTo n g s) (r c : Nat) :
    ExtendsTo n (setCell g r c 0) s := by
  intro r' hr' c' hc' hnz
  by_cases hp : (r', c') = (r, c)
  · obtain ⟨rfl, rfl⟩ : r' = r ∧ c' = c := Prod.mk.injEq .. ▸ hp
    exact absurd (getCell_setCell_zero_self g r' c') hnz
  · rw [getCell_setCell_ne _ hp] at hnz
    rw [getCell_setCell_ne _ hp]
    exact hext r' hr' c' hc' hnz

theorem givensCount_complete {g : Grid} (hcomp : CompleteG n g) :
    givensCount n g = n * n := by
  unfold givensCount
  rw [show (allCells n).countP (fun p => getCell g p.1 p.2 != 0) = (allCells n).length by
    rw [List.countP_eq_length]
    intro p hp
    obtain ⟨h1, h2⟩ := mem_allCells.1 hp
    simpa using hcomp p.1 h1 p.2 h2]
  exact length_allCells n

theorem givensCount_setCell_zero {g : Grid} (hwf : GridWF n g) {r c : Nat}
    (hr : r < n) (hc : c < n) (hnz : getCell g r c ≠ 0) :
    givensCount n (setCell g r c 0) + 1 = givensCount n g := by
  unfold givensCount
  apply countP_update_of_nodup _ _ _ (allCells_nodup n) (r, c) (mem_allCells.2 ⟨hr, hc⟩)
  · rintro ⟨r', c'⟩ _ hne
    simp only [getCell_setCell_ne _ hne]
  · simpa using hnz
  · simp [getCell_setCell_self hwf hr hc]

end Zeroing

section Pipeline

variable {n : Nat} {σ : Shuffle} {regions : Regions}

/-- The empty `n × n` grid used by `generate_full_solution`. -/
def empty_grid (n : Nat) : Grid := List.replicate n (List.replicate n 0)

theorem getCell_empty_grid (r c : Nat) : getCell (empty_grid n) r c = 0 := by
  show ((empty_grid n).getD r []).getD c 0 = 0
  have hrow : (empty_grid n).getD r [] = [] ∨
      (empty_grid n).getD r [] = List.replicate n 0 := by
    unfold empty_grid
    rcases Nat.lt_or_ge r n with hr | hr
    · right
      rw [List.getD_eq_getElem _ _ (by simpa using hr)]
      exact List.getElem_replicate ..
    · left
      exact List.getD_eq_default _ _ (by simpa using hr)
  rcases hrow with h | h <;> rw [h]
  · simp
  · rcases Nat.lt_or_ge c n with hc | hc
    · rw [List.getD_eq_getElem _ _ (by simpa using hc)]
      exact List.getElem_replicate ..
    · exact List.getD_eq_default _ _ (by simpa using hc)

theorem empty_grid_good : Good n regions (empty_grid n) := by
  refine ⟨⟨by simp [empty_grid], ?_⟩, ?_, ?_⟩
  · intro row hrow
    rw [List.eq_of_mem_replicate hrow]
    simp
  · intro r _ c _
    rw [getCell_empty_grid]
    omega
  · intro r₁ _ c₁ _ r₂ _ c₂ _ _ _ hz₁ _
    exact absurd (getCell_empty_grid r₁ c₁) hz₁

/-- A successful `solve_backtracking` run returns a valid full solution. -/
theorem solve_backtracking_sound (hperm : PermFam σ) {g sol : Grid} {k k' : Nat}
    (hg : Good n regions g)
    (h : solve_backtracking n σ g regions k = (some sol, k')) :
    IsSolution n regions sol := by
  unfold solve_backtracking at h
  rcases hres : btDfs n σ regions (zerosCount n g + 1) g k with ⟨ok, g', k''⟩
  rw [hres] at h
  rcases ok with _ | _
  · cases h
  · dsimp only at h
    obtain ⟨hs1, hs2⟩ : sol = g' ∧ k' = k'' := by
      cases h
      exact ⟨rfl, rfl⟩
    have := btDfs_sound hperm (zerosCount n g + 1) g k hg (by omega)
      (by rw [hres])
    rw [hres] at this
    subst hs1
    exact good_complete_isSolution this.1 this.2

/-- The retry structure of `generate_full_solution`: the initial call plus
up to five retries on the empty grid (`tries < 5`). -/
def gfsAux (n : Nat) (σ : Shuffle) (regions : Regions) : Nat → Nat → Option Grid × Nat
  | 0, k => (none, k)
  | t + 1, k =>
    match solve_backtracking n σ (empty_grid n) regions k with
    | (some sol, k') => (some sol, k')
    | (none, k') => gfsAux n σ regions t k'

/-- `generate_full_solution` from jigsaw_sudoku.py; the `none` outcome
models the final `RuntimeError`. -/
def generate_full_solution (n : Nat) (σ : Shuffle) (regions : Regions) (k : Nat) :
    Option Grid × Nat := gfsAux n σ regions 6 k

theorem gfsAux_sound (hperm : PermFam σ) :
    ∀ (t : Nat) (k : Nat) {sol : Grid} {k' : Nat},
      gfsAux n σ regions t k = (some sol, k') → IsSolution n regions sol
  | 0, k, sol, k', h => by cases h
  | t + 1, k, sol, k', h => by
    rw [gfsAux] at h
    rcases hres : solve_backtracking n σ (empty_grid n) regions k with ⟨o, k''⟩
    rw [hres] at h
    rcases o with _ | s
    · exact gfsAux_sound hperm t k'' h
    · dsimp only at h
      have : s = sol := by cases h; rfl
      subst this
      exact solve_backtracking_sound hperm empty_grid_good hres

/-- `generate_full_solution` only returns valid full solutions. -/
theorem generate_full_solution_sound (hperm : PermFam σ) {k : Nat} {sol : Grid}
    {k' : Nat} (h : generate_full_solution n σ regions k = (some sol, k')) :
    IsSolution n regions sol :=
  gfsAux_sound hperm 6 k h

theorem count_solutions_fst {g : Grid} {limit k : Nat} :
    (count_solutions n σ g regions limit k).1
      = (cntDfs n σ regions limit (zerosCount n g + 1) g 0 k).1 := by
  unfold count_solutions
  rcases h : cntDfs n σ regions limit (zerosCount n g + 1) g 0 k with ⟨cnt, g', k'⟩
  rfl

/-- `count_solutions` never exceeds its cutoff. -/
theorem count_solutions_le {g : Grid} {limit k : Nat} :
    (count_solutions n σ g regions limit k).1 ≤ limit := by
  rw [count_solutions_fst]
  exact cntDfs_le _ g 0 k (by omega)

/-- A grid with a unique completion counts exactly 1 under cutoff 2. -/
theorem count_solutions_unique (hperm : PermFam σ) {g s : Grid} {k : Nat}
    (hg : Good n regions g) (h : UniqueCompletion n regions g s) :
    (count_solutions n σ g regions 2 k).1 = 1 := by
  rw [count_solutions_fst]
  exact cntDfs_unique hperm _ g k s hg (by omega) h

/-- A grid with two distinct completions counts exactly 2 under cutoff 2,
no matter how many more completions exist. -/
theorem count_solutions_two (hperm : PermFam σ) {g : Grid} {k : Nat}
    (hg : Good n regions g) (h : TwoCompletions n regions g) :
    (count_solutions n σ g regions 2 k).1 = 2 := by
  rw [count_solutions_fst]
  exact cntDfs_two hperm _ g 0 k hg (by omega) (Or.inr ⟨rfl, h⟩)

theorem setCell_zero_restore {g : Grid} (hwf : GridWF n g) {r c : Nat}
    (hr : r < n) (hc : c < n) :
    setCell (setCell g r c 0) r c (getCell g r c) = g := by
  rw [setCell_setCell]
  exact setCell_self_eq hwf hr hc rfl

/-- The clue-removal loop of `generate_puzzle_from_solution`: visit the
shuffled cells, tentatively zero each clue, keep the removal only when the
cutoff-2 count returns exactly 1; break as soon as `target_givens` is
reached. The boolean records whether the loop broke early. -/
def reduceAux (n : Nat) (σ : Shuffle) (regions : Regions) (target : Nat) :
    List (Nat × Nat) → Grid → Nat → Nat → Grid × Nat × Bool
  | [], g, _, k => (g, k, false)
  | (r, c) :: cells, g, cur, k =>
    if cur ≤ target then (g, k, true)
    else
      match count_solutions n σ (setCell g r c 0) regions 2 k with
      | (sols, k') =>
        if sols = 1 then
          reduceAux n σ regions target cells (setCell g r c 0) (cur - 1) k'
        else
          reduceAux n σ regions target cells
            (setCell (setCell g r c 0) r c (getCell g r c)) cur k'

/-- `generate_puzzle_from_solution` from jigsaw_sudoku.py (the shuffled
cell order is the `order` parameter). -/
def generate_puzzle_from_solution (n : Nat) (σ : Shuffle) (solution : Grid)
    (regions : Regions) (target_givens : Nat) (order : List (Nat × Nat))
    (k : Nat) : Grid × Nat :=
  match reduceAux n σ regions target_givens order solution (n * n) k with
  | (g, k', _) => (g, k')

/-- Main invariant of the reducer: each kept grid has the original
solution as its unique completion. -/
theorem reduceAux_unique (hperm : PermFam σ) (sol : Grid) (target : Nat) :
    ∀ (cells : List (Nat × Nat)) (g : Grid) (cur k : Nat),
      Good n regions g →
      IsCompletion n regions g sol →
      (∀ t, IsCompletion n regions g t → t = sol) →
      (∀ p ∈ cells, p.1 < n ∧ p.2 < n) →
      Good n regions (reduceAux n σ regions target cells g cur k).1 ∧
      IsCompletion n regions (reduceAux n σ regions target cells g cur k).1 sol ∧
      (∀ t, IsCompletion n regions (reduceAux n σ regions target cells g cur k).1 t →
        t = sol)
  | [], g, cur, k, hg, hcomp, huniq, _ => ⟨hg, hcomp, huniq⟩
  | (r, c) :: cells, g, cur, k, hg, hcomp, huniq, hcells => by
    rw [reduceAux]
    by_cases hbreak : cur ≤ target
    · rw [if_pos hbreak]
      exact ⟨hg, hcomp, huniq⟩
    · rw [if_neg hbreak]
      rcases hcnt : count_solutions n σ (setCell g r c 0) regions 2 k with ⟨sols, k'⟩
      obtain ⟨hr, hc⟩ := hcells (r, c) (List.mem_cons_self _ _)
      have hg0 : Good n regions (setCell g r c 0) := good_setCell_zero hg r c
      have hcomp0 : IsCompletion n regions (setCell g r c 0) sol :=
        ⟨hcomp.1, extendsTo_setCell_zero hcomp.2 r c⟩
      dsimp only
      by_cases hsols : sols = 1
      · rw [if_pos hsols]
        refine reduceAux_unique hperm sol target cells _ (cur - 1) k' hg0 hcomp0 ?_
          (fun p hp => hcells p (List.mem_cons_of_mem _ hp))
        -- uniqueness is preserved because the count came back 1
        intro t ht
        by_contra hne
        have htwo : TwoCompletions n regions (setCell g r c 0) := ⟨t, sol, ht, hcomp0, hne⟩
        have := count_solutions_two hperm hg0 htwo (k := k)
        rw [hcnt] at this
        simp at this
        omega
      · rw [if_neg hsols]
        rw [setCell_zero_restore hg.1 hr hc]
        exact reduceAux_unique hperm sol target cells g cur k' hg hcomp huniq
          (fun p hp => hcells p (List.mem_cons_of_mem _ hp))

/-- Clue-count bookkeeping of the reducer: the clue count never drops
below the target, and reaching the break means it is exactly the target. -/
theorem reduceAux_counts (target : Nat) :
    ∀ (cells : List (Nat × Nat)) (g : Grid) (cur k : Nat),
      GridWF n g → cells.Nodup →
      (∀ p ∈ cells, p.1 < n ∧ p.2 < n) →
      (∀ p ∈ cells, getCell g p.1 p.2 ≠ 0) →
      cur = givensCount n g → target ≤ cur →
      GridWF n (reduceAux n σ regions target cells g cur k).1 ∧
      target ≤ givensCount n (reduceAux n σ regions target cells g cur k).1 ∧
      ((reduceAux n σ regions target cells g cur k).2.2 = true →
        givensCount n (reduceAux n σ regions target cells g cur k).1 = target)
  | [], g, cur, k, hwf, _, _, _, hcur, hle => by
    rw [reduceAux]
    dsimp only
    exact ⟨hwf, by omega, fun h => by cases h⟩
  | (r, c) :: cells, g, cur, k, hwf, hnd, hcells, hnz, hcur, hle => by
    rw [reduceAux]
    by_cases hbreak : cur ≤ target
    · rw [if_pos hbreak]
      dsimp only
      exact ⟨hwf, by omega, fun _ => by omega⟩
    · rw [if_neg hbreak]
      rcases hcnt : count_solutions n σ (setCell g r c 0) regions 2 k with ⟨sols, k'⟩
      obtain ⟨hr, hc⟩ := hcells (r, c) (List.mem_cons_self _ _)
      have hrc_nz : getCell g r c ≠ 0 := hnz (r, c) (List.mem_cons_self _ _)
      dsimp only
      by_cases hsols : sols = 1
      · rw [if_pos hsols]
        have hgiv : givensCount n (setCell g r c 0) + 1 = givensCount n g :=
          givensCount_setCell_zero hwf hr hc hrc_nz
        refine reduceAux_counts target cells _ (cur - 1) k'
          (gridWF_setCell hwf r c 0) (List.nodup_cons.1 hnd).2
          (fun p hp => hcells p (List.mem_cons_of_mem _ hp)) ?_ (by omega) (by omega)
        intro p hp
        have hpne : p ≠ (r, c) := fun h => (List.nodup_cons.1 hnd).1 (h ▸ hp)
        rw [show getCell (setCell g r c 0) p.1 p.2 = getCell g p.1 p.2 from
          getCell_setCell_ne _ (by
            intro hcontra
            exact hpne (by
              obtain ⟨h1, h2⟩ : p.1 = r ∧ p.2 = c := Prod.mk.injEq .. ▸ hcontra
              exact Prod.ext h1 h2))]
        exact hnz p (List.mem_cons_of_mem _ hp)
      · rw [if_neg hsols]
        rw [setCell_zero_restore hwf hr hc]
        exact reduceAux_counts target cells g cur k' hwf (List.nodup_cons.1 hnd).2
          (fun p hp => hcells p (List.mem_cons_of_mem _ hp))
          (fun p hp => hnz p (List.mem_cons_of_mem _ hp)) hcur hle

end Pipeline

section Mini6x6

/-!
Embedding of MiniSudokuGenerator6x6.py. The `Sudoku6x6` board constraints
(`number_is_valid`: row, column, and the 2×3 box given by
`row // 2 * 2`, `column // 3 * 3`) correspond to the region map `box6`
below, so the generic predicates (`Good`, `IsCompletion`, …) apply with
`n = 6` and `regions = box6`.
-/

/-- The region map induced by `number_is_valid`'s 2×3 boxes. -/
def box6 : Regions :=
  (List.range 6).map fun r => (List.range 6).map fun c => ((r / 2 * 2 + c / 3 : Nat) : Int)

/-- `number_is_valid` from MiniSudokuGenerator6x6.py: the symbol clashes
with no row, column, or 2×3-box entry. -/
def number_is_valid (b : Grid) (row column number : Nat) : Bool :=
  ((List.range 6).all fun i =>
    !(getCell b row i == number) && !(getCell b i column == number)) &&
  ((List.range 2).all fun i => (List.range 3).all fun j =>
    !(getCell b (i + row / 2 * 2) (j + column / 3 * 3) == number))

/-- The row-major scan for an empty cell used by `solve` and
`fill_solution`. -/
def firstEmpty (b : Grid) : Option (Nat × Nat) :=
  (allCells 6).find? fun p => getCell b p.1 p.2 == 0

/-- The digit loop of `Sudoku6x6.solve`: try every valid digit, recurse
(summing the yielded solutions), and reset the cell afterwards. -/
def s6Loop (child : Grid → Nat → Nat × Grid × Nat) (r c : Nat) :
    List Nat → Grid → Nat → Nat → Nat × Grid × Nat
  | [], b, acc, k => (acc, b, k)
  | d :: ds, b, acc, k =>
    if number_is_valid b r c d then
      match child (setCell b r c d) k with
      | (cnt, b', k') => s6Loop child r c ds (setCell b' r c 0) (acc + cnt) k'
    else s6Loop child r c ds b acc k

/-- `Sudoku6x6.solve` as consumed by `generate` (the full enumeration of
the generator): returns the number of yielded solutions and the final
board state (always restored). -/
def solve6 (σ : Shuffle) : Nat → Grid → Nat → Nat × Grid × Nat
  | 0, b, k => (0, b, k)
  | fuel + 1, b, k =>
    match firstEmpty b with
    | none => (1, b, k)
    | some (r, c) => s6Loop (solve6 σ fuel) r c (σ k (DIGITS 6)) b 0 (k + 1)

/-- The digit loop of `Sudoku6x6.fill_solution`. -/
def f6Loop (child : Grid → Nat → Bool × Grid × Nat) (r c : Nat) :
    List Nat → Grid → Nat → Bool × Grid × Nat
  | [], b, k => (false, b, k)
  | d :: ds, b, k =>
    if number_is_valid b r c d then
      match child (setCell b r c d) k with
      | (true, b', k') => (true, b', k')
      | (false, b', k') => f6Loop child r c ds (setCell b' r c 0) k'
    else f6Loop child r c ds b k

/-- `Sudoku6x6.fill_solution`: backtracking that fills the first empty
cell (row-major) with a valid digit and leaves the board filled on
success. -/
def fill_solution (σ : Shuffle) : Nat → Grid → Nat → Bool × Grid × Nat
  | 0, b, k => (false, b, k)
  | fuel + 1, b, k =>
    match firstEmpty b with
    | none => (true, b, k)
    | some (r, c) => f6Loop (fill_solution σ fuel) r c (σ k (DIGITS 6)) b (k + 1)

/-- The six cells of the 2×3 box at `(start_row, start_col)`. -/
def boxCells (start_row start_col : Nat) : List (Nat × Nat) :=
  (List.range 2).flatMap fun r => (List.range 3).map fun c =>
    (start_row + r, start_col + c)

/-- The candidate loop of `fill_box`'s `helper`: try each still-available
number (tried ones accumulate in `before`), recursing with
`avail[:i] + avail[i+1:]`, and reset the cell on failure. -/
def fbTry (child : List Nat → Grid → Nat → Bool × Grid × Nat) (r c : Nat) :
    List Nat → List Nat → Grid → Nat → Bool × Grid × Nat
  | _, [], b, k => (false, b, k)
  | before, x :: after, b, k =>
    if number_is_valid b r c x then
      match child (before ++ after) (setCell b r c x) k with
      | (true, b', k') => (true, b', k')
      | (false, b', k') => fbTry child r c (before ++ [x]) after (setCell b' r c 0) k'
    else fbTry child r c (before ++ [x]) after b k

/-- `helper` inside `Sudoku6x6.fill_box`: fill the box cells one by one,
shuffling the available numbers at each step. -/
def fbHelper (σ : Shuffle) : List (Nat × Nat) → List Nat → Grid → Nat → Bool × Grid × Nat
  | [], _, b, k => (true, b, k)
  | (r, c) :: cellsRest, avail, b, k =>
    fbTry (fbHelper σ cellsRest) r c [] (σ k avail) b (k + 1)

/-- `Sudoku6x6.fill_box`. -/
def fill_box (σ : Shuffle) (start_row start_col : Nat) (b : Grid) (k : Nat) :
    Bool × Grid × Nat :=
  fbHelper σ (boxCells start_row start_col) (DIGITS 6) b k

/-- The `empty_cells` difficulty table of `Sudoku6x6.evaluate`. -/
def empty_cells_table : List Int := [0, 10, 15, 20, 24, 26, 28]

/-- `Sudoku6x6.evaluate` with Python list-indexing semantics: in-range
(also negative) indices return the table entry, out-of-range indices
raise `IndexError` (modelled as `none`); the out-of-range warning is only
printed, never enforced. -/
def evaluate (difficulty : Int) : Option Int :=
  if 0 ≤ difficulty ∧ difficulty < 7 then
    some (empty_cells_table.getD difficulty.toNat 0)
  else if -7 ≤ difficulty ∧ difficulty < 0 then
    some (empty_cells_table.getD (difficulty + 7).toNat 0)
  else none

/-- The clue-removal loop of `Sudoku6x6.generate`. `unvisited.pop()` pops
from the end of the shuffled list, so the parameter `cells` is the
pop order (the reversed `unvisited` list). On each visited cell the full
enumeration `[s for s in self.solve()]` decides whether the removal is
kept (`len(solutions) > 1` restores the clue). -/
def removeLoop (σ : Shuffle) : List (Nat × Nat) → Grid → Nat → Nat → Grid × Nat × Nat
  | [], b, ec, k => (b, ec, k)
  | (r, c) :: cells, b, ec, k =>
    if ec = 0 then (b, ec, k)
    else
      match solve6 σ (zerosCount 6 (setCell b r c 0) + 1) (setCell b r c 0) k with
      | (cnt, b', k') =>
        if 1 < cnt then removeLoop σ cells (setCell b' r c (getCell b r c)) ec k'
        else removeLoop σ cells b' (ec - 1) k'

/-- `Sudoku6x6.generate`: prefill the three boxes at (0,0), (2,3), (4,0),
fill the rest with `fill_solution`, snapshot the solution, then remove
`evaluate difficulty` clues keeping the solution unique. Returns
`(puzzle, solution)` on success (`True`), `none` on failure (`False`; an
out-of-range `evaluate` lookup, which raises in Python, is also `none`). -/
def generate (σ : Shuffle) (difficulty : Int) (order : List (Nat × Nat)) (k : Nat) :
    Option (Grid × Grid) × Nat :=
  match fill_box σ 0 0 (empty_grid 6) k with
  | (false, _, k₁) => (none, k₁)
  | (true, b₁, k₁) =>
    match fill_box σ 2 3 b₁ k₁ with
    | (false, _, k₂) => (none, k₂)
    | (true, b₂, k₂) =>
      match fill_box σ 4 0 b₂ k₂ with
      | (false, _, k₃) => (none, k₃)
      | (true, b₃, k₃) =>
        match fill_solution σ (zerosCount 6 b₃ + 1) b₃ k₃ with
        | (false, _, k₄) => (none, k₄)
        | (true, sol, k₄) =>
          match evaluate difficulty with
          | none => (none, k₄)
          | some ec =>
            match removeLoop σ order sol ec.toNat k₄ with
            | (puzzle, ecFinal, k₅) =>
              if 0 < ecFinal then (none, k₅) else (some (puzzle, sol), k₅)

end Mini6x6

section Mini6x6Bridge

theorem getReg_box6 {r c : Nat} (hr : r < 6) (hc : c < 6) :
    getReg box6 r c = ((r / 2 * 2 + c / 3 : Nat) : Int) := by
  have hrow : box6.getD r [] = (List.range 6).map fun c => ((r / 2 * 2 + c / 3 : Nat) : Int) := by
    unfold box6
    rw [List.getD_eq_getElem _ _ (by simpa using hr), List.getElem_map, List.getElem_range]
  show (box6.getD r []).getD c (-1) = _
  rw [hrow, List.getD_eq_getElem _ _ (by simpa using hc), List.getElem_map, List.getElem_range]

theorem box6_eq_iff {r₁ c₁ r₂ c₂ : Nat} (h₁ : r₁ < 6) (h₂ : c₁ < 6)
    (h₃ : r₂ < 6) (h₄ : c₂ < 6) :
    getReg box6 r₁ c₁ = getReg box6 r₂ c₂ ↔ r₁ / 2 = r₂ / 2 ∧ c₁ / 3 = c₂ / 3 := by
  rw [getReg_box6 h₁ h₂, getReg_box6 h₃ h₄]
  rw [Nat.cast_inj]
  omega

theorem number_is_valid_iff {b : Grid} {r c d : Nat} :
    number_is_valid b r c d = true ↔
      (∀ i < 6, getCell b r i ≠ d) ∧ (∀ i < 6, getCell b i c ≠ d) ∧
      (∀ i < 2, ∀ j < 3, getCell b (i + r / 2 * 2) (j + c / 3 * 3) ≠ d) := by
  unfold number_is_valid
  simp only [List.all_eq_true, List.mem_range, Bool.and_eq_true, Bool.not_eq_true',
    beq_eq_false_iff_ne, ne_eq]
  constructor
  · rintro ⟨h₁, h₂⟩
    exact ⟨fun i hi => (h₁ i hi).1, fun i hi => (h₁ i hi).2, h₂⟩
  · rintro ⟨h₁, h₂, h₃⟩
    exact ⟨fun i hi => ⟨h₁ i hi, h₂ i hi⟩, h₃⟩

/-- `number_is_valid` agrees with the generic `compute_candidates` under
the `box6` region map. -/
theorem number_is_valid_iff_candidates {b : Grid} {r c d : Nat} (hwf : GridWF 6 b)
    (hr : r < 6) (hc : c < 6) (h0 : getCell b r c = 0) (hd1 : 1 ≤ d) (hd6 : d ≤ 6) :
    number_is_valid b r c d = true ↔ d ∈ compute_candidates 6 b box6 r c := by
  rw [number_is_valid_iff, mem_compute_candidates]
  constructor
  · rintro ⟨hrow, hcol, hbox⟩
    refine ⟨h0, by omega, by omega, ?_, hcol, ?_⟩
    · intro hmem
      obtain ⟨i, hi, hgi⟩ := (mem_row_iff hwf hr).1 hmem
      exact hrow i hi hgi
    · intro rr hrr cc hcc hreg heq
      obtain ⟨hb1, hb2⟩ := (box6_eq_iff hrr hcc hr hc).1 hreg
      have := hbox (rr - r / 2 * 2) (by omega) (cc - c / 3 * 3) (by omega)
      rw [show rr - r / 2 * 2 + r / 2 * 2 = rr by omega,
        show cc - c / 3 * 3 + c / 3 * 3 = cc by omega] at this
      exact this heq
  · rintro ⟨_, _, _, hrowlist, hcol, hreg⟩
    refine ⟨?_, hcol, ?_⟩
    · intro i hi heq
      exact hrowlist ((mem_row_iff hwf hr).2 ⟨i, hi, heq⟩)
    · intro i hi j hj heq
      refine hreg (i + r / 2 * 2) (by omega) (j + c / 3 * 3) (by omega) ?_ heq
      rw [box6_eq_iff (by omega) (by omega) hr hc]
      omega

theorem firstEmpty_none_iff {b : Grid} : firstEmpty b = none ↔ CompleteG 6 b := by
  unfold firstEmpty
  rw [List.find?_eq_none]
  constructor
  · intro h r hr c hc
    have := h (r, c) (mem_allCells.2 ⟨hr, hc⟩)
    simpa using this
  · intro h p hp
    obtain ⟨h1, h2⟩ := mem_allCells.1 hp
    simpa using h p.1 h1 p.2 h2

theorem firstEmpty_some {b : Grid} {r c : Nat} (h : firstEmpty b = some (r, c)) :
    r < 6 ∧ c < 6 ∧ getCell b r c = 0 := by
  have h1 := List.find?_some h
  have h2 := List.mem_of_find?_eq_some h
  obtain ⟨hb1, hb2⟩ := mem_allCells.1 h2
  exact ⟨hb1, hb2, by simpa using h1⟩

end Mini6x6Bridge

section Mini6x6Search

variable {σ : Shuffle}

theorem f6Loop_restore (child : Grid → Nat → Bool × Grid × Nat) (r c : Nat) {b : Grid}
    (hwf : GridWF 6 b) (hr : r < 6) (hc : c < 6) (h0 : getCell b r c = 0) :
    ∀ (ds : List Nat),
      (∀ d ∈ ds, ∀ k, (child (setCell b r c d) k).1 = false →
        (child (setCell b r c d) k).2.1 = setCell b r c d) →
      ∀ (k : Nat),
      (f6Loop child r c ds b k).1 = false → (f6Loop child r c ds b k).2.1 = b
  | [], _, k, _ => rfl
  | d :: ds, hchild, k, hfail => by
    by_cases hv : number_is_valid b r c d
    · rcases hres : child (setCell b r c d) k with ⟨ok, b', k'⟩
      rw [f6Loop, if_pos hv, hres] at hfail ⊢
      rcases ok with _ | _
      · dsimp only at hfail ⊢
        have hb' : b' = setCell b r c d := by
          have := hchild d (List.mem_cons_self _ _) k
          rw [hres] at this
          exact this rfl
        rw [hb', setCell_zero_cancel hwf hr hc h0 d] at hfail ⊢
        exact f6Loop_restore child r c hwf hr hc h0 ds
          (fun d' hd' => hchild d' (List.mem_cons_of_mem _ hd')) k' hfail
      · dsimp only at hfail
        cases hfail
    · rw [f6Loop, if_neg hv] at hfail ⊢
      exact f6Loop_restore child r c hwf hr hc h0 ds
        (fun d' hd' => hchild d' (List.mem_cons_of_mem _ hd')) k hfail

/-- `fill_solution` restores the board on failure. -/
theorem fill_solution_restore :
    ∀ (fuel : Nat) (b : Grid) (k : Nat), GridWF 6 b →
      (fill_solution σ fuel b k).1 = false → (fill_solution σ fuel b k).2.1 = b
  | 0, b, k, _, _ => rfl
  | fuel + 1, b, k, hwf, hfail => by
    rcases hm : firstEmpty b with _ | ⟨r, c⟩
    · rw [fill_solution, hm] at hfail
      cases hfail
    · have hEq : fill_solution σ (fuel + 1) b k
          = f6Loop (fill_solution σ fuel) r c (σ k (DIGITS 6)) b (k + 1) := by
        rw [fill_solution, hm]
      rw [hEq] at hfail ⊢
      obtain ⟨hr, hc, h0⟩ := firstEmpty_some hm
      exact f6Loop_restore (fill_solution σ fuel) r c hwf hr hc h0 (σ k (DIGITS 6))
        (fun d _ k'' => fill_solution_restore fuel _ k'' (gridWF_setCell hwf r c d))
        (k + 1) hfail

theorem f6Loop_sound (child : Grid → Nat → Bool × Grid × Nat) (r c : Nat) {b : Grid}
    (hwf : GridWF 6 b) (hr : r < 6) (hc : c < 6) (h0 : getCell b r c = 0) :
    ∀ (ds : List Nat),
      (∀ d ∈ ds, ∀ k, (child (setCell b r c d) k).1 = false →
        (child (setCell b r c d) k).2.1 = setCell b r c d) →
      (∀ d ∈ ds, number_is_valid b r c d = true → ∀ k,
        (child (setCell b r c d) k).1 = true →
        Good 6 box6 (child (setCell b r c d) k).2.1 ∧
          CompleteG 6 (child (setCell b r c d) k).2.1) →
      ∀ (k : Nat), (f6Loop child r c ds b k).1 = true →
        Good 6 box6 (f6Loop child r c ds b k).2.1 ∧
          CompleteG 6 (f6Loop child r c ds b k).2.1
  | [], _, _, k, hok => by cases hok
  | d :: ds, hrest, hsound, k, hok => by
    by_cases hv : number_is_valid b r c d
    · rcases hres : child (setCell b r c d) k with ⟨ok, b', k'⟩
      rw [f6Loop, if_pos hv, hres] at hok ⊢
      rcases ok with _ | _
      · dsimp only at hok ⊢
        have hb' : b' = setCell b r c d := by
          have := hrest d (List.mem_cons_self _ _) k
          rw [hres] at this
          exact this rfl
        rw [hb', setCell_zero_cancel hwf hr hc h0 d] at hok ⊢
        exact f6Loop_sound child r c hwf hr hc h0 ds
          (fun d' hd' => hrest d' (List.mem_cons_of_mem _ hd'))
          (fun d' hd' => hsound d' (List.mem_cons_of_mem _ hd')) k' hok
      · dsimp only
        have := hsound d (List.mem_cons_self _ _) hv k
        rw [hres] at this
        exact this rfl
    · rw [f6Loop, if_neg hv] at hok ⊢
      exact f6Loop_sound child r c hwf hr hc h0 ds
        (fun d' hd' => hrest d' (List.mem_cons_of_mem _ hd'))
        (fun d' hd' => hsound d' (List.mem_cons_of_mem _ hd')) k hok

/-- `fill_solution` soundness: from a conflict-free board, a `True` return
leaves a complete conflict-free board. -/
theorem fill_solution_sound (hperm : PermFam σ) :
    ∀ (fuel : Nat) (b : Grid) (k : Nat), Good 6 box6 b → zerosCount 6 b < fuel →
      (fill_solution σ fuel b k).1 = true →
      Good 6 box6 (fill_solution σ fuel b k).2.1 ∧
        CompleteG 6 (fill_solution σ fuel b k).2.1
  | 0, b, k, _, hfuel, hok => by cases hok
  | fuel + 1, b, k, hg, hfuel, hok => by
    rcases hm : firstEmpty b with _ | ⟨r, c⟩
    · rw [fill_solution, hm]
      dsimp only
      exact ⟨hg, firstEmpty_none_iff.1 hm⟩
    · have hEq : fill_solution σ (fuel + 1) b k
          = f6Loop (fill_solution σ fuel) r c (σ k (DIGITS 6)) b (k + 1) := by
        rw [fill_solution, hm]
      rw [hEq] at hok ⊢
      obtain ⟨hr, hc, h0⟩ := firstEmpty_some hm
      refine f6Loop_sound (fill_solution σ fuel) r c hg.1 hr hc h0 (σ k (DIGITS 6))
        ?_ ?_ (k + 1) hok
      · intro d _ k'' hfail
        exact fill_solution_restore fuel _ k'' (gridWF_setCell hg.1 r c d) hfail
      · intro d hd hv k'' hok'
        have hdig : d ∈ DIGITS 6 := (hperm k (DIGITS 6)).mem_iff.1 hd
        have hdb : 1 ≤ d ∧ d < 1 + 6 := by
          rw [DIGITS, List.mem_range'_1] at hdig
          exact hdig
        have hdc : d ∈ compute_candidates 6 b box6 r c :=
          (number_is_valid_iff_candidates hg.1 hr hc h0 hdb.1 (by omega)).1 hv
        refine fill_solution_sound hperm fuel _ k'' (good_setCell hg hr hc hdc) ?_ hok'
        have := zerosCount_setCell hg.1 hr hc h0 (show d ≠ 0 by omega)
        omega

theorem s6Loop_acc_le (child : Grid → Nat → Nat × Grid × Nat) (r c : Nat) :
    ∀ (ds : List Nat) (b : Grid) (acc k : Nat),
      acc ≤ (s6Loop child r c ds b acc k).1
  | [], b, acc, k => le_refl _
  | d :: ds, b, acc, k => by
    by_cases hv : number_is_valid b r c d
    · rcases hres : child (setCell b r c d) k with ⟨cnt, b', k'⟩
      rw [s6Loop, if_pos hv, hres]
      dsimp only
      have := s6Loop_acc_le child r c ds (setCell b' r c 0) (acc + cnt) k'
      omega
    · rw [s6Loop, if_neg hv]
      exact s6Loop_acc_le child r c ds b acc k

theorem s6Loop_found (child : Grid → Nat → Nat × Grid × Nat) (r c : Nat) {b : Grid}
    (hwf : GridWF 6 b) (hr : r < 6) (hc : c < 6) (h0 : getCell b r c = 0)
    (hrest : ∀ d k, (child (setCell b r c d) k).2.1 = setCell b r c d) :
    ∀ (ds : List Nat) (acc k : Nat),
      (∃ d ∈ ds, number_is_valid b r c d = true ∧
        ∀ k', 1 ≤ (child (setCell b r c d) k').1) →
      acc + 1 ≤ (s6Loop child r c ds b acc k).1
  | [], acc, k, hex => absurd hex (by simp)
  | d :: ds, acc, k, hex => by
    by_cases hv : number_is_valid b r c d
    · rcases hres : child (setCell b r c d) k with ⟨cnt, b', k'⟩
      rw [s6Loop, if_pos hv, hres]
      dsimp only
      have hb' : b' = setCell b r c d := by
        have := hrest d k
        rwa [hres] at this
      rw [hb', setCell_zero_cancel hwf hr hc h0 d]
      obtain ⟨d', hd', hv', hcnt'⟩ := hex
      rcases List.mem_cons.1 hd' with rfl | hd'mem
      · have h1 : 1 ≤ cnt := by
          have := hcnt' k
          rwa [hres] at this
        have := s6Loop_acc_le child r c ds b (acc + cnt) k'
        omega
      · have := s6Loop_found child r c hwf hr hc h0 hrest ds (acc + cnt) k'
          ⟨d', hd'mem, hv', hcnt'⟩
        omega
    · rw [s6Loop, if_neg hv]
      obtain ⟨d', hd', hv', hcnt'⟩ := hex
      rcases List.mem_cons.1 hd' with rfl | hd'mem
      · exact absurd hv' hv
      · exact s6Loop_found child r c hwf hr hc h0 hrest ds acc k ⟨d', hd'mem, hv', hcnt'⟩

theorem s6Loop_two (child : Grid → Nat → Nat × Grid × Nat) (r c : Nat) {b : Grid}
    (hwf : GridWF 6 b) (hr : r < 6) (hc : c < 6) (h0 : getCell b r c = 0)
    (hrest : ∀ d k, (child (setCell b r c d) k).2.1 = setCell b r c d) :
    ∀ (ds : List Nat) (acc k : Nat),
      ((∃ d ∈ ds, number_is_valid b r c d = true ∧
         ∀ k', 2 ≤ (child (setCell b r c d) k').1) ∨
       (∃ d₁ ∈ ds, ∃ d₂ ∈ ds, d₁ ≠ d₂ ∧
         number_is_valid b r c d₁ = true ∧ number_is_valid b r c d₂ = true ∧
         (∀ k', 1 ≤ (child (setCell b r c d₁) k').1) ∧
         (∀ k', 1 ≤ (child (setCell b r c d₂) k').1))) →
      acc + 2 ≤ (s6Loop child r c ds b acc k).1
  | [], acc, k, hex => by
    rcases hex with ⟨d, hd, _⟩ | ⟨d, hd, _⟩ <;> exact absurd hd (List.not_mem_nil d)
  | d :: ds, acc, k, hex => by
    by_cases hv : number_is_valid b r c d
    · rcases hres : child (setCell b r c d) k with ⟨cnt, b', k'⟩
      rw [s6Loop, if_pos hv, hres]
      dsimp only
      have hb' : b' = setCell b r c d := by
        have := hrest d k
        rwa [hres] at this
      rw [hb', setCell_zero_cancel hwf hr hc h0 d]
      rcases hex with ⟨d', hd', hv', hcnt'⟩ | ⟨d₁, hd₁, d₂, hd₂, hne, hv₁, hv₂, h₁, h₂⟩
      · rcases List.mem_cons.1 hd' with rfl | hd'mem
        · have h2 : 2 ≤ cnt := by
            have := hcnt' k
            rwa [hres] at this
          have := s6Loop_acc_le child r c ds b (acc + cnt) k'
          omega
        · have := s6Loop_two child r c hwf hr hc h0 hrest ds (acc + cnt) k'
            (Or.inl ⟨d', hd'mem, hv', hcnt'⟩)
          omega
      · rcases List.mem_cons.1 hd₁ with rfl | h₁mem
        · -- the head is the first witness; the second one is in the tail
          have hd₂ds : d₂ ∈ ds := by
            rcases List.mem_cons.1 hd₂ with rfl | h
            · exact absurd rfl hne
            · exact h
          have hcnt1 : 1 ≤ cnt := by
            have := h₁ k
            rwa [hres] at this
          have := s6Loop_found child r c hwf hr hc h0 hrest ds (acc + cnt) k'
            ⟨d₂, hd₂ds, hv₂, h₂⟩
          omega
        · rcases List.mem_cons.1 hd₂ with rfl | h₂mem
          · have hcnt1 : 1 ≤ cnt := by
              have := h₂ k
              rwa [hres] at this
            have := s6Loop_found child r c hwf hr hc h0 hrest ds (acc + cnt) k'
              ⟨d₁, h₁mem, hv₁, h₁⟩
            omega
          · have := s6Loop_two child r c hwf hr hc h0 hrest ds (acc + cnt) k'
              (Or.inr ⟨d₁, h₁mem, d₂, h₂mem, hne, hv₁, hv₂, h₁, h₂⟩)
            omega
    · rw [s6Loop, if_neg hv]
      rcases hex with ⟨d', hd', hv', hcnt'⟩ | ⟨d₁, hd₁, d₂, hd₂, hne, hv₁, hv₂, h₁, h₂⟩
      · rcases List.mem_cons.1 hd' with rfl | hd'mem
        · exact absurd hv' hv
        · exact s6Loop_two child r c hwf hr hc h0 hrest ds acc k
            (Or.inl ⟨d', hd'mem, hv', hcnt'⟩)
      · have h₁mem : d₁ ∈ ds := by
          rcases List.mem_cons.1 hd₁ with rfl | h
          · exact absurd hv₁ hv
          · exact h
        have h₂mem : d₂ ∈ ds := by
          rcases List.mem_cons.1 hd₂ with rfl | h
          · exact absurd hv₂ hv
          · exact h
        exact s6Loop_two child r c hwf hr hc h0 hrest ds acc k
          (Or.inr ⟨d₁, h₁mem, d₂, h₂mem, hne, hv₁, hv₂, h₁, h₂⟩)

theorem s6Loop_restore (child : Grid → Nat → Nat × Grid × Nat) (r c : Nat) {b : Grid}
    (hwf : GridWF 6 b) (hr : r < 6) (hc : c < 6) (h0 : getCell b r c = 0)
    (hrest : ∀ d k, (child (setCell b r c d) k).2.1 = setCell b r c d) :
    ∀ (ds : List Nat) (acc k : Nat), (s6Loop child r c ds b acc k).2.1 = b
  | [], acc, k => rfl
  | d :: ds, acc, k => by
    by_cases hv : number_is_valid b r c d
    · rcases hres : child (setCell b r c d) k with ⟨cnt, b', k'⟩
      rw [s6Loop, if_pos hv, hres]
      dsimp only
      have hb' : b' = setCell b r c d := by
        have := hrest d k
        rwa [hres] at this
      rw [hb', setCell_zero_cancel hwf hr hc h0 d]
      exact s6Loop_restore child r c hwf hr hc h0 hrest ds (acc + cnt) k'
    · rw [s6Loop, if_neg hv]
      exact s6Loop_restore child r c hwf hr hc h0 hrest ds acc k

/-- `Sudoku6x6.solve`, fully enumerated, always restores the board. -/
theorem solve6_restore :
    ∀ (fuel : Nat) (b : Grid) (k : Nat), GridWF 6 b →
      (solve6 σ fuel b k).2.1 = b
  | 0, b, k, _ => rfl
  | fuel + 1, b, k, hwf => by
    rcases hm : firstEmpty b with _ | ⟨r, c⟩
    · rw [solve6, hm]
    · have hEq : solve6 σ (fuel + 1) b k
          = s6Loop (solve6 σ fuel) r c (σ k (DIGITS 6)) b 0 (k + 1) := by
        rw [solve6, hm]
      rw [hEq]
      obtain ⟨hr, hc, h0⟩ := firstEmpty_some hm
      exact s6Loop_restore (solve6 σ fuel) r c hwf hr hc h0
        (fun d k'' => solve6_restore fuel _ k'' (gridWF_setCell hwf r c d))
        (σ k (DIGITS 6)) 0 (k + 1)

/-- A board with a completion yields at least one enumerated solution. -/
theorem solve6_found (hperm : PermFam σ) :
    ∀ (fuel : Nat) (b : Grid) (k : Nat), Good 6 box6 b → zerosCount 6 b < fuel →
      HasCompletion 6 box6 b → 1 ≤ (solve6 σ fuel b k).1
  | 0, b, k, _, hfuel, _ => by omega
  | fuel + 1, b, k, hg, hfuel, hhas => by
    rcases hm : firstEmpty b with _ | ⟨r, c⟩
    · rw [solve6, hm]
    · have hEq : solve6 σ (fuel + 1) b k
          = s6Loop (solve6 σ fuel) r c (σ k (DIGITS 6)) b 0 (k + 1) := by
        rw [solve6, hm]
      rw [hEq]
      obtain ⟨hr, hc, h0⟩ := firstEmpty_some hm
      obtain ⟨s, hs⟩ := hhas
      have hd0c : getCell s r c ∈ compute_candidates 6 b box6 r c :=
        completion_cand hg.1 hs hr hc h0
      have hd0b := mem_compute_candidates.1 hd0c
      have hfuel' : zerosCount 6 (setCell b r c (getCell s r c)) < fuel := by
        have := zerosCount_setCell hg.1 hr hc h0 (show getCell s r c ≠ 0 by omega)
        omega
      refine s6Loop_found (solve6 σ fuel) r c hg.1 hr hc h0
        (fun d k'' => solve6_restore fuel _ k'' (gridWF_setCell hg.1 r c d)) _ 0 (k + 1)
        ⟨getCell s r c, ?_, ?_, ?_⟩
      · refine (hperm k (DIGITS 6)).mem_iff.2 ?_
        rw [DIGITS, List.mem_range'_1]
        omega
      · exact (number_is_valid_iff_candidates hg.1 hr hc h0 (by omega) (by omega)).2 hd0c
      · intro k'
        refine solve6_found hperm fuel _ k'
          (good_setCell hg hr hc hd0c) hfuel' ?_
        exact ⟨s, (isCompletion_setCell_iff hg.1 hr hc h0 (by omega)).2 ⟨hs, rfl⟩⟩

/-- A board with two distinct completions yields at least two enumerated
solutions (the full enumeration has no cutoff). -/
theorem solve6_two (hperm : PermFam σ) :
    ∀ (fuel : Nat) (b : Grid) (k : Nat), Good 6 box6 b → zerosCount 6 b < fuel →
      TwoCompletions 6 box6 b → 2 ≤ (solve6 σ fuel b k).1
  | 0, b, k, _, hfuel, _ => by omega
  | fuel + 1, b, k, hg, hfuel, htwo => by
    obtain ⟨s₁, s₂, h₁, h₂, hne⟩ := htwo
    rcases hm : firstEmpty b with _ | ⟨r, c⟩
    · exact absurd ((completion_of_complete hg.1 (firstEmpty_none_iff.1 hm) h₁).trans
        (completion_of_complete hg.1 (firstEmpty_none_iff.1 hm) h₂).symm) hne
    · have hEq : solve6 σ (fuel + 1) b k
          = s6Loop (solve6 σ fuel) r c (σ k (DIGITS 6)) b 0 (k + 1) := by
        rw [solve6, hm]
      rw [hEq]
      obtain ⟨hr, hc, h0⟩ := firstEmpty_some hm
      have hc₁ : getCell s₁ r c ∈ compute_candidates 6 b box6 r c :=
        completion_cand hg.1 h₁ hr hc h0
      have hc₂ : getCell s₂ r c ∈ compute_candidates 6 b box6 r c :=
        completion_cand hg.1 h₂ hr hc h0
      have hb₁ := mem_compute_candidates.1 hc₁
      have hb₂ := mem_compute_candidates.1 hc₂
      have hmem₁ : getCell s₁ r c ∈ σ k (DIGITS 6) := by
        refine (hperm k (DIGITS 6)).mem_iff.2 ?_
        rw [DIGITS, List.mem_range'_1]
        omega
      have hmem₂ : getCell s₂ r c ∈ σ k (DIGITS 6) := by
        refine (hperm k (DIGITS 6)).mem_iff.2 ?_
        rw [DIGITS, List.mem_range'_1]
        omega
      have hv₁ : number_is_valid b r c (getCell s₁ r c) = true :=
        (number_is_valid_iff_candidates hg.1 hr hc h0 (by omega) (by omega)).2 hc₁
      have hv₂ : number_is_valid b r c (getCell s₂ r c) = true :=
        (number_is_valid_iff_candidates hg.1 hr hc h0 (by omega) (by omega)).2 hc₂
      have hrest : ∀ d k'', (solve6 σ fuel (setCell b r c d) k'').2.1 = setCell b r c d :=
        fun d k'' => solve6_restore fuel _ k'' (gridWF_setCell hg.1 r c d)
      by_cases hdd : getCell s₁ r c = getCell s₂ r c
      · refine s6Loop_two (solve6 σ fuel) r c hg.1 hr hc h0 hrest _ 0 (k + 1)
          (Or.inl ⟨getCell s₁ r c, hmem₁, hv₁, ?_⟩)
        intro k'
        refine solve6_two hperm fuel _ k' (good_setCell hg hr hc hc₁) ?_ ?_
        · have := zerosCount_setCell hg.1 hr hc h0 (show getCell s₁ r c ≠ 0 by omega)
          omega
        · exact ⟨s₁, s₂, (isCompletion_setCell_iff hg.1 hr hc h0 (by omega)).2 ⟨h₁, rfl⟩,
            (isCompletion_setCell_iff hg.1 hr hc h0 (by omega)).2 ⟨h₂, hdd.symm⟩, hne⟩
      · refine s6Loop_two (solve6 σ fuel) r c hg.1 hr hc h0 hrest _ 0 (k + 1)
          (Or.inr ⟨getCell s₁ r c, hmem₁, getCell s₂ r c, hmem₂, hdd, hv₁, hv₂, ?_, ?_⟩)
        · intro k'
          refine solve6_found hperm fuel _ k' (good_setCell hg hr hc hc₁) ?_ ?_
          · have := zerosCount_setCell hg.1 hr hc h0 (show getCell s₁ r c ≠ 0 by omega)
            omega
          · exact ⟨s₁, (isCompletion_setCell_iff hg.1 hr hc h0 (by omega)).2 ⟨h₁, rfl⟩⟩
        · intro k'
          refine solve6_found hperm fuel _ k' (good_setCell hg hr hc hc₂) ?_ ?_
          · have := zerosCount_setCell hg.1 hr hc h0 (show getCell s₂ r c ≠ 0 by omega)
            omega
          · exact ⟨s₂, (isCompletion_setCell_iff hg.1 hr hc h0 (by omega)).2 ⟨h₂, rfl⟩⟩

theorem fbTry_restore (child : List Nat → Grid → Nat → Bool × Grid × Nat) (r c : Nat)
    {b : Grid} (hwf : GridWF 6 b) (hr : r < 6) (hc : c < 6) (h0 : getCell b r c = 0)
    (hchild : ∀ av x k, (child av (setCell b r c x) k).1 = false →
      (child av (setCell b r c x) k).2.1 = setCell b r c x) :
    ∀ (before after : List Nat) (k : Nat),
      (fbTry child r c before after b k).1 = false →
      (fbTry child r c before after b k).2.1 = b
  | _, [], k, _ => rfl
  | before, x :: after, k, hfail => by
    by_cases hv : number_is_valid b r c x
    · rcases hres : child (before ++ after) (setCell b r c x) k with ⟨ok, b', k'⟩
      rw [fbTry, if_pos hv, hres] at hfail ⊢
      rcases ok with _ | _
      · dsimp only at hfail ⊢
        have hb' : b' = setCell b r c x := by
          have := hchild (before ++ after) x k
          rw [hres] at this
          exact this rfl
        rw [hb', setCell_zero_cancel hwf hr hc h0 x] at hfail ⊢
        exact fbTry_restore child r c hwf hr hc h0 hchild (before ++ [x]) after k' hfail
      · dsimp only at hfail
        cases hfail
    · rw [fbTry, if_neg hv] at hfail ⊢
      exact fbTry_restore child r c hwf hr hc h0 hchild (before ++ [x]) after k hfail

theorem fbTry_sound (child : List Nat → Grid → Nat → Bool × Grid × Nat) (r c : Nat)
    {b : Grid} (hg : Good 6 box6 b) (hr : r < 6) (hc : c < 6) (h0 : getCell b r c = 0)
    (hrest : ∀ av x k, (child av (setCell b r c x) k).1 = false →
      (child av (setCell b r c x) k).2.1 = setCell b r c x)
    (hsound : ∀ av x k, (∀ y ∈ av, y ∈ DIGITS 6) → 1 ≤ x → x ≤ 6 →
      number_is_valid b r c x = true → (child av (setCell b r c x) k).1 = true →
      Good 6 box6 (child av (setCell b r c x) k).2.1) :
    ∀ (before after : List Nat) (k : Nat),
      (∀ y ∈ before, y ∈ DIGITS 6) → (∀ y ∈ after, y ∈ DIGITS 6) →
      (fbTry child r c before after b k).1 = true →
      Good 6 box6 (fbTry child r c before after b k).2.1
  | _, [], k, _, _, hok => by cases hok
  | before, x :: after, k, hbef, haft, hok => by
    have hx : x ∈ DIGITS 6 := haft x (List.mem_cons_self _ _)
    have hxb : 1 ≤ x ∧ x < 1 + 6 := by
      rw [DIGITS, List.mem_range'_1] at hx
      exact hx
    have haft' : ∀ y ∈ after, y ∈ DIGITS 6 :=
      fun y hy => haft y (List.mem_cons_of_mem _ hy)
    have hbef' : ∀ y ∈ before ++ [x], y ∈ DIGITS 6 := by
      intro y hy
      rcases List.mem_append.1 hy with h | h
      · exact hbef y h
      · rw [List.mem_singleton.1 h]
        exact hx
    by_cases hv : number_is_valid b r c x
    · rcases hres : child (before ++ after) (setCell b r c x) k with ⟨ok, b', k'⟩
      rw [fbTry, if_pos hv, hres] at hok ⊢
      rcases ok with _ | _
      · dsimp only at hok ⊢
        have hb' : b' = setCell b r c x := by
          have := hrest (before ++ after) x k
          rw [hres] at this
          exact this rfl
        rw [hb', setCell_zero_cancel hg.1 hr hc h0 x] at hok ⊢
        exact fbTry_sound child r c hg hr hc h0 hrest hsound (before ++ [x]) after k'
          hbef' haft' hok
      · dsimp only
        have := hsound (before ++ after) x k
          (fun y hy => (List.mem_append.1 hy).elim (hbef y) (haft' y))
          hxb.1 (by omega) hv
        rw [hres] at this
        exact this rfl
    · rw [fbTry, if_neg hv] at hok ⊢
      exact fbTry_sound child r c hg hr hc h0 hrest hsound (before ++ [x]) after k
        hbef' haft' hok

theorem fbHelper_restore (σ : Shuffle) :
    ∀ (cells : List (Nat × Nat)) (avail : List Nat) (b : Grid) (k : Nat),
      GridWF 6 b → cells.Nodup →
      (∀ p ∈ cells, p.1 < 6 ∧ p.2 < 6 ∧ getCell b p.1 p.2 = 0) →
      (fbHelper σ cells avail b k).1 = false → (fbHelper σ cells avail b k).2.1 = b
  | [], avail, b, k, _, _, _, hfail => by cases hfail
  | (r, c) :: cellsRest, avail, b, k, hwf, hnd, hcells, hfail => by
    obtain ⟨hr, hc, h0⟩ := hcells (r, c) (List.mem_cons_self _ _)
    rw [fbHelper] at hfail ⊢
    refine fbTry_restore (fbHelper σ cellsRest) r c hwf hr hc h0 ?_ [] (σ k avail)
      (k + 1) hfail
    intro av x k'' hf
    refine fbHelper_restore σ cellsRest av _ k'' (gridWF_setCell hwf r c x)
      (List.nodup_cons.1 hnd).2 ?_ hf
    intro p hp
    obtain ⟨h1, h2, h3⟩ := hcells p (List.mem_cons_of_mem _ hp)
    have hpne : ¬((p.1, p.2) = (r, c)) := by
      intro hcontra
      obtain ⟨e1, e2⟩ : p.1 = r ∧ p.2 = c := Prod.mk.injEq .. ▸ hcontra
      exact (List.nodup_cons.1 hnd).1 ((Prod.ext e1 e2 : p = (r, c)) ▸ hp)
    exact ⟨h1, h2, by rw [getCell_setCell_ne _ hpne]; exact h3⟩

theorem fbHelper_sound (σ : Shuffle) (hperm : PermFam σ) :
    ∀ (cells : List (Nat × Nat)) (avail : List Nat) (b : Grid) (k : Nat),
      Good 6 box6 b → cells.Nodup →
      (∀ p ∈ cells, p.1 < 6 ∧ p.2 < 6 ∧ getCell b p.1 p.2 = 0) →
      (∀ y ∈ avail, y ∈ DIGITS 6) →
      (fbHelper σ cells avail b k).1 = true → Good 6 box6 (fbHelper σ cells avail b k).2.1
  | [], avail, b, k, hg, _, _, _, _ => hg
  | (r, c) :: cellsRest, avail, b, k, hg, hnd, hcells, havail, hok => by
    obtain ⟨hr, hc, h0⟩ := hcells (r, c) (List.mem_cons_self _ _)
    rw [fbHelper] at hok ⊢
    have hrestcells : ∀ p ∈ cellsRest, ∀ x : Nat,
        p.1 < 6 ∧ p.2 < 6 ∧ getCell (setCell b r c x) p.1 p.2 = 0 := by
      intro p hp x
      obtain ⟨h1, h2, h3⟩ := hcells p (List.mem_cons_of_mem _ hp)
      have hpne : ¬((p.1, p.2) = (r, c)) := by
        intro hcontra
        obtain ⟨e1, e2⟩ : p.1 = r ∧ p.2 = c := Prod.mk.injEq .. ▸ hcontra
        exact (List.nodup_cons.1 hnd).1 ((Prod.ext e1 e2 : p = (r, c)) ▸ hp)
      exact ⟨h1, h2, by rw [getCell_setCell_ne _ hpne]; exact h3⟩
    refine fbTry_sound (fbHelper σ cellsRest) r c hg hr hc h0 ?_ ?_ [] (σ k avail)
      (k + 1) (fun y hy => absurd hy (List.not_mem_nil y))
      (fun y hy => havail y ((hperm k avail).mem_iff.1 hy)) hok
    · intro av x k'' hf
      exact fbHelper_restore σ cellsRest av _ k'' (gridWF_setCell hg.1 r c x)
        (List.nodup_cons.1 hnd).2 (fun p hp => hrestcells p hp x) hf
    · intro av x k'' hav hx1 hx6 hv hok'
      have hdc : x ∈ compute_candidates 6 b box6 r c :=
        (number_is_valid_iff_candidates hg.1 hr hc h0 hx1 (by omega)).1 hv
      exact fbHelper_sound σ hperm cellsRest av _ k'' (good_setCell hg hr hc hdc)
        (List.nodup_cons.1 hnd).2 (fun p hp => hrestcells p hp x) hav hok'

theorem zerosCount_setCell_zero {n : Nat} {g : Grid} (hwf : GridWF n g) {r c : Nat}
    (hr : r < n) (hc : c < n) (hnz : getCell g r c ≠ 0) :
    zerosCount n g + 1 = zerosCount n (setCell g r c 0) := by
  unfold zerosCount
  apply countP_update_of_nodup _ _ _ (allCells_nodup n) (r, c) (mem_allCells.2 ⟨hr, hc⟩)
  · rintro ⟨r', c'⟩ _ hne
    simp only [getCell_setCell_ne _ hne]
  · simp [getCell_setCell_self hwf hr hc]
  · simpa using hnz

theorem zerosCount_complete {n : Nat} {g : Grid} (hcomp : CompleteG n g) :
    zerosCount n g = 0 := by
  unfold zerosCount
  rw [List.countP_eq_zero]
  intro p hp
  obtain ⟨h1, h2⟩ := mem_allCells.1 hp
  simpa using hcomp p.1 h1 p.2 h2

theorem fbTry_frame (child : List Nat → Grid → Nat → Bool × Grid × Nat) (r c : Nat)
    {b : Grid} (hwf : GridWF 6 b) (hr : r < 6) (hc : c < 6) (h0 : getCell b r c = 0)
    (hrest : ∀ av x k, (child av (setCell b r c x) k).1 = false →
      (child av (setCell b r c x) k).2.1 = setCell b r c x)
    {q : Nat × Nat} (hq : ¬((q.1, q.2) = (r, c)))
    (hchild : ∀ av x k, getCell (child av (setCell b r c x) k).2.1 q.1 q.2
      = getCell (setCell b r c x) q.1 q.2) :
    ∀ (before after : List Nat) (k : Nat),
      getCell (fbTry child r c before after b k).2.1 q.1 q.2 = getCell b q.1 q.2
  | _, [], k => rfl
  | before, x :: after, k => by
    by_cases hv : number_is_valid b r c x
    · rcases hres : child (before ++ after) (setCell b r c x) k with ⟨ok, b', k'⟩
      rw [fbTry, if_pos hv, hres]
      rcases ok with _ | _
      · dsimp only
        have hb' : b' = setCell b r c x := by
          have := hrest (before ++ after) x k
          rw [hres] at this
          exact this rfl
        rw [hb', setCell_zero_cancel hwf hr hc h0 x]
        exact fbTry_frame child r c hwf hr hc h0 hrest hq hchild (before ++ [x]) after k'
      · dsimp only
        have := hchild (before ++ after) x k
        rw [hres] at this
        rw [this]
        exact getCell_setCell_ne _ hq
    · rw [fbTry, if_neg hv]
      exact fbTry_frame child r c hwf hr hc h0 hrest hq hchild (before ++ [x]) after k

/-- `fill_box`'s helper touches only the cells of its list. -/
theorem fbHelper_frame (σ : Shuffle) :
    ∀ (cells : List (Nat × Nat)) (avail : List Nat) (b : Grid) (k : Nat),
      GridWF 6 b → cells.Nodup →
      (∀ p ∈ cells, p.1 < 6 ∧ p.2 < 6 ∧ getCell b p.1 p.2 = 0) →
      ∀ q : Nat × Nat, q ∉ cells →
        getCell (fbHelper σ cells avail b k).2.1 q.1 q.2 = getCell b q.1 q.2
  | [], avail, b, k, _, _, _, q, _ => rfl
  | (r, c) :: cellsRest, avail, b, k, hwf, hnd, hcells, q, hq => by
    obtain ⟨hr, hc, h0⟩ := hcells (r, c) (List.mem_cons_self _ _)
    rw [fbHelper]
    have hrestcells : ∀ p ∈ cellsRest, ∀ x : Nat,
        p.1 < 6 ∧ p.2 < 6 ∧ getCell (setCell b r c x) p.1 p.2 = 0 := by
      intro p hp x
      obtain ⟨h1, h2, h3⟩ := hcells p (List.mem_cons_of_mem _ hp)
      have hpne : ¬((p.1, p.2) = (r, c)) := by
        intro hcontra
        obtain ⟨e1, e2⟩ : p.1 = r ∧ p.2 = c := Prod.mk.injEq .. ▸ hcontra
        exact (List.nodup_cons.1 hnd).1 ((Prod.ext e1 e2 : p = (r, c)) ▸ hp)
      exact ⟨h1, h2, by rw [getCell_setCell_ne _ hpne]; exact h3⟩
    have hq1 : ¬((q.1, q.2) = (r, c)) := by
      intro hcontra
      obtain ⟨e1, e2⟩ : q.1 = r ∧ q.2 = c := Prod.mk.injEq .. ▸ hcontra
      exact hq (by rw [(Prod.ext e1 e2 : q = (r, c))]; exact List.mem_cons_self _ _)
    refine fbTry_frame (fbHelper σ cellsRest) r c hwf hr hc h0 ?_ hq1 ?_ [] (σ k avail)
      (k + 1)
    · intro av x k'' hf
      exact fbHelper_restore σ cellsRest av _ k'' (gridWF_setCell hwf r c x)
        (List.nodup_cons.1 hnd).2 (fun p hp => hrestcells p hp x) hf
    · intro av x k''
      exact fbHelper_frame σ cellsRest av _ k'' (gridWF_setCell hwf r c x)
        (List.nodup_cons.1 hnd).2 (fun p hp => hrestcells p hp x) q
        (fun hmem => hq (List.mem_cons_of_mem _ hmem))

/-- Main invariant of the 6x6 clue-removal loop: each kept board has the
original solution as its unique completion. -/
theorem removeLoop_unique {σ : Shuffle} (hperm : PermFam σ) (sol : Grid) :
    ∀ (cells : List (Nat × Nat)) (b : Grid) (ec k : Nat),
      Good 6 box6 b →
      IsCompletion 6 box6 b sol →
      (∀ t, IsCompletion 6 box6 b t → t = sol) →
      (∀ p ∈ cells, p.1 < 6 ∧ p.2 < 6) →
      Good 6 box6 (removeLoop σ cells b ec k).1 ∧
      IsCompletion 6 box6 (removeLoop σ cells b ec k).1 sol ∧
      (∀ t, IsCompletion 6 box6 (removeLoop σ cells b ec k).1 t → t = sol)
  | [], b, ec, k, hg, hcomp, huniq, _ => ⟨hg, hcomp, huniq⟩
  | (r, c) :: cells, b, ec, k, hg, hcomp, huniq, hcells => by
    rw [removeLoop]
    by_cases hec : ec = 0
    · rw [if_pos hec]
      exact ⟨hg, hcomp, huniq⟩
    · rw [if_neg hec]
      obtain ⟨hr, hc⟩ := hcells (r, c) (List.mem_cons_self _ _)
      rcases hcnt : solve6 σ (zerosCount 6 (setCell b r c 0) + 1) (setCell b r c 0) k
        with ⟨cnt, b', k'⟩
      have hg0 : Good 6 box6 (setCell b r c 0) := good_setCell_zero hg r c
      have hb' : b' = setCell b r c 0 := by
        have := @solve6_restore σ (zerosCount 6 (setCell b r c 0) + 1) (setCell b r c 0)
          k hg0.1
        rwa [hcnt] at this
      have hcomp0 : IsCompletion 6 box6 (setCell b r c 0) sol :=
        ⟨hcomp.1, extendsTo_setCell_zero hcomp.2 r c⟩
      dsimp only
      by_cases hmany : 1 < cnt
      · rw [if_pos hmany, hb', setCell_zero_restore hg.1 hr hc]
        exact removeLoop_unique hperm sol cells b ec k' hg hcomp huniq
          (fun p hp => hcells p (List.mem_cons_of_mem _ hp))
      · rw [if_neg hmany, hb']
        refine removeLoop_unique hperm sol cells _ (ec - 1) k' hg0 hcomp0 ?_
          (fun p hp => hcells p (List.mem_cons_of_mem _ hp))
        intro t ht
        by_contra hne
        have htwo : TwoCompletions 6 box6 (setCell b r c 0) := ⟨t, sol, ht, hcomp0, hne⟩
        have := solve6_two hperm (zerosCount 6 (setCell b r c 0) + 1) (setCell b r c 0) k
          hg0 (by omega) htwo
        rw [hcnt] at this
        omega

/-- Bookkeeping of the 6x6 removal loop: every kept removal zeroes exactly
one clue and decrements the budget, so zeros + budget is invariant. -/
theorem removeLoop_counts {σ : Shuffle} :
    ∀ (cells : List (Nat × Nat)) (b : Grid) (ec k : Nat),
      GridWF 6 b → cells.Nodup →
      (∀ p ∈ cells, p.1 < 6 ∧ p.2 < 6) →
      (∀ p ∈ cells, getCell b p.1 p.2 ≠ 0) →
      GridWF 6 (removeLoop σ cells b ec k).1 ∧
      zerosCount 6 (removeLoop σ cells b ec k).1 + (removeLoop σ cells b ec k).2.1
        = zerosCount 6 b + ec
  | [], b, ec, k, hwf, _, _, _ => ⟨hwf, rfl⟩
  | (r, c) :: cells, b, ec, k, hwf, hnd, hcells, hnz => by
    rw [removeLoop]
    by_cases hec : ec = 0
    · rw [if_pos hec]
      exact ⟨hwf, rfl⟩
    · rw [if_neg hec]
      obtain ⟨hr, hc⟩ := hcells (r, c) (List.mem_cons_self _ _)
      have hrc_nz : getCell b r c ≠ 0 := hnz (r, c) (List.mem_cons_self _ _)
      rcases hcnt : solve6 σ (zerosCount 6 (setCell b r c 0) + 1) (setCell b r c 0) k
        with ⟨cnt, b', k'⟩
      have hb' : b' = setCell b r c 0 := by
        have := @solve6_restore σ (zerosCount 6 (setCell b r c 0) + 1) (setCell b r c 0)
          k (gridWF_setCell hwf r c 0)
        rwa [hcnt] at this
      dsimp only
      have hrestcells : ∀ p ∈ cells, getCell (setCell b r c 0) p.1 p.2 ≠ 0 := by
        intro p hp
        have hpne : ¬((p.1, p.2) = (r, c)) := by
          intro hcontra
          obtain ⟨e1, e2⟩ : p.1 = r ∧ p.2 = c := Prod.mk.injEq .. ▸ hcontra
          exact (List.nodup_cons.1 hnd).1 ((Prod.ext e1 e2 : p = (r, c)) ▸ hp)
        rw [getCell_setCell_ne _ hpne]
        exact hnz p (List.mem_cons_of_mem _ hp)
      by_cases hmany : 1 < cnt
      · rw [if_pos hmany, hb', setCell_zero_restore hwf hr hc]
        exact removeLoop_counts cells b ec k' hwf (List.nodup_cons.1 hnd).2
          (fun p hp => hcells p (List.mem_cons_of_mem _ hp))
          (fun p hp => hnz p (List.mem_cons_of_mem _ hp))
      · rw [if_neg hmany, hb']
        have hzeros := zerosCount_setCell_zero hwf hr hc hrc_nz
        dsimp only at hzeros
        have := @removeLoop_counts σ cells (setCell b r c 0) (ec - 1) k'
          (gridWF_setCell hwf r c 0) (List.nodup_cons.1 hnd).2
          (fun p hp => hcells p (List.mem_cons_of_mem _ hp)) hrestcells
        exact ⟨this.1, by omega⟩

theorem fill_box_def (σ : Shuffle) (sr sc : Nat) (b : Grid) (k : Nat) :
    fill_box σ sr sc b k = fbHelper σ (boxCells sr sc) (DIGITS 6) b k := rfl

/-- End-to-end soundness of `Sudoku6x6.generate`: a successful run returns a
valid full solution together with a puzzle that is conflict-free, extends to
that solution, has it as unique completion, and has exactly the number of
empty cells dictated by the difficulty table. -/
theorem generate_spec {σ : Shuffle} (hperm : PermFam σ) (difficulty : Int)
    (order : List (Nat × Nat)) (k : Nat)
    (horder : ∀ p ∈ order, p.1 < 6 ∧ p.2 < 6) (hnd : order.Nodup)
    {puzzle sol : Grid} (h : (generate σ difficulty order k).1 = some (puzzle, sol)) :
    IsSolution 6 box6 sol ∧ Good 6 box6 puzzle ∧
      IsCompletion 6 box6 puzzle sol ∧
      (∀ t, IsCompletion 6 box6 puzzle t → t = sol) ∧
      ∃ ec : Int, evaluate difficulty = some ec ∧ zerosCount 6 puzzle = ec.toNat := by
  unfold generate at h
  rcases h₁ : fill_box σ 0 0 (empty_grid 6) k with ⟨ok₁, b₁, k₁⟩
  rw [h₁] at h
  rcases ok₁ with _ | _
  · simp at h
  rw [fill_box_def] at h₁
  have hnd1 : (boxCells 0 0).Nodup := by decide
  have hbox1cond : ∀ p ∈ boxCells 0 0, p.1 < 6 ∧ p.2 < 6 ∧
      getCell (empty_grid 6) p.1 p.2 = 0 := by
    have hpr : ∀ p ∈ boxCells 0 0, p.1 < 6 ∧ p.2 < 6 := by decide
    intro p hp
    exact ⟨(hpr p hp).1, (hpr p hp).2, getCell_empty_grid p.1 p.2⟩
  have hG1 : Good 6 box6 b₁ := by
    have := fbHelper_sound σ hperm (boxCells 0 0) (DIGITS 6) (empty_grid 6) k
      empty_grid_good hnd1 hbox1cond (fun y hy => hy)
    rw [h₁] at this
    exact this rfl
  have hF1 : ∀ q : Nat × Nat, q ∉ boxCells 0 0 →
      getCell b₁ q.1 q.2 = getCell (empty_grid 6) q.1 q.2 := by
    intro q hq
    have := fbHelper_frame σ (boxCells 0 0) (DIGITS 6) (empty_grid 6) k
      (@empty_grid_good 6 box6).1 hnd1 hbox1cond q hq
    rw [h₁] at this
    exact this
  dsimp only at h
  rcases h₂ : fill_box σ 2 3 b₁ k₁ with ⟨ok₂, b₂, k₂⟩
  rw [h₂] at h
  rcases ok₂ with _ | _
  · simp at h
  rw [fill_box_def] at h₂
  have hnd2 : (boxCells 2 3).Nodup := by decide
  have hbox2cond : ∀ p ∈ boxCells 2 3, p.1 < 6 ∧ p.2 < 6 ∧ getCell b₁ p.1 p.2 = 0 := by
    have hpr : ∀ p ∈ boxCells 2 3, (p.1 < 6 ∧ p.2 < 6) ∧ p ∉ boxCells 0 0 := by decide
    intro p hp
    refine ⟨(hpr p hp).1.1, (hpr p hp).1.2, ?_⟩
    rw [hF1 p (hpr p hp).2]
    exact getCell_empty_grid p.1 p.2
  have hG2 : Good 6 box6 b₂ := by
    have := fbHelper_sound σ hperm (boxCells 2 3) (DIGITS 6) b₁ k₁
      hG1 hnd2 hbox2cond (fun y hy => hy)
    rw [h₂] at this
    exact this rfl
  have hF2 : ∀ q : Nat × Nat, q ∉ boxCells 2 3 →
      getCell b₂ q.1 q.2 = getCell b₁ q.1 q.2 := by
    intro q hq
    have := fbHelper_frame σ (boxCells 2 3) (DIGITS 6) b₁ k₁ hG1.1 hnd2 hbox2cond q hq
    rw [h₂] at this
    exact this
  dsimp only at h
  rcases h₃ : fill_box σ 4 0 b₂ k₂ with ⟨ok₃, b₃, k₃⟩
  rw [h₃] at h
  rcases ok₃ with _ | _
  · simp at h
  rw [fill_box_def] at h₃
  have hnd3 : (boxCells 4 0).Nodup := by decide
  have hbox3cond : ∀ p ∈ boxCells 4 0, p.1 < 6 ∧ p.2 < 6 ∧ getCell b₂ p.1 p.2 = 0 := by
    have hpr : ∀ p ∈ boxCells 4 0, (p.1 < 6 ∧ p.2 < 6) ∧
        p ∉ boxCells 0 0 ∧ p ∉ boxCells 2 3 := by decide
    intro p hp
    refine ⟨(hpr p hp).1.1, (hpr p hp).1.2, ?_⟩
    rw [hF2 p (hpr p hp).2.2, hF1 p (hpr p hp).2.1]
    exact getCell_empty_grid p.1 p.2
  have hG3 : Good 6 box6 b₃ := by
    have := fbHelper_sound σ hperm (boxCells 4 0) (DIGITS 6) b₂ k₂
      hG2 hnd3 hbox3cond (fun y hy => hy)
    rw [h₃] at this
    exact this rfl
  dsimp only at h
  rcases h₄ : fill_solution σ (zerosCount 6 b₃ + 1) b₃ k₃ with ⟨ok₄, solB, k₄⟩
  rw [h₄] at h
  rcases ok₄ with _ | _
  · simp at h
  have hsolB : Good 6 box6 solB ∧ CompleteG 6 solB := by
    have := fill_solution_sound hperm (zerosCount 6 b₃ + 1) b₃ k₃ hG3 (by omega)
    rw [h₄] at this
    exact this rfl
  have hIsSol : IsSolution 6 box6 solB := good_complete_isSolution hsolB.1 hsolB.2
  dsimp only at h
  rcases h₅ : evaluate difficulty with _ | ec
  · rw [h₅] at h
    simp at h
  rw [h₅] at h
  dsimp only at h
  rcases h₆ : removeLoop σ order solB ec.toNat k₄ with ⟨pz, ecFinal, k₅⟩
  rw [h₆] at h
  dsimp only at h
  by_cases hfin : 0 < ecFinal
  · rw [if_pos hfin] at h
    simp at h
  rw [if_neg hfin] at h
  rw [Option.some.injEq, Prod.mk.injEq] at h
  obtain ⟨rfl, rfl⟩ : pz = puzzle ∧ solB = sol := h
  have hrem := removeLoop_unique hperm solB order solB ec.toNat k₄ hsolB.1
    (isCompletion_self hIsSol)
    (fun t ht => completion_of_complete hsolB.1.1 hsolB.2 ht) horder
  rw [h₆] at hrem
  have hnz : ∀ p ∈ order, getCell solB p.1 p.2 ≠ 0 := by
    intro p hp
    obtain ⟨h1, h2⟩ := horder p hp
    exact hsolB.2 p.1 h1 p.2 h2
  have hcount := @removeLoop_counts σ order solB ec.toNat k₄ hsolB.1.1 hnd horder hnz
  rw [h₆] at hcount
  have hz0 : zerosCount 6 solB = 0 := zerosCount_complete hsolB.2
  refine ⟨hIsSol, hrem.1, hrem.2.1, hrem.2.2, ec, rfl, ?_⟩
  have := hcount.2
  dsimp only at this
  omega

end Mini6x6Search

section Decidability

instance (n : Nat) (g : Grid) : Decidable (GridWF n g) := by
  unfold GridWF
  infer_instance

instance (n : Nat) (g : Grid) : Decidable (CompleteG n g) := by
  unfold CompleteG
  infer_instance

instance (n : Nat) (g : Grid) : Decidable (InRangeVals n g) := by
  unfold InRangeVals
  infer_instance

instance (n : Nat) (regions : Regions) (g : Grid) : Decidable (ConflictFree n regions g) := by
  unfold ConflictFree
  exact @Nat.decidableBallLT n _ fun r₁ h₁ =>
    @Nat.decidableBallLT n _ fun c₁ h₂ =>
      @Nat.decidableBallLT n _ fun r₂ h₃ =>
        @Nat.decidableBallLT n _ fun c₂ h₄ => inferInstance

instance (n : Nat) (regions : Regions) (g : Grid) : Decidable (IsSolution n regions g) := by
  unfold IsSolution
  infer_instance

instance (n : Nat) (g s : Grid) : Decidable (ExtendsTo n g s) := by
  unfold ExtendsTo
  infer_instance

instance (n : Nat) (regions : Regions) (g s : Grid) :
    Decidable (IsCompletion n regions g s) := by
  unfold IsCompletion
  infer_instance

instance (n : Nat) (regions : Regions) (g : Grid) : Decidable (Good n regions g) := by
  unfold Good
  infer_instance

instance (n : Nat) (regions : Regions) : Decidable (RegionUnitsWF n regions) := by
  unfold RegionUnitsWF
  infer_instance

instance (n : Nat) (regions : Regions) (g : Grid) :
    Decidable (ExactlyOnceUnits n regions g) := by
  unfold ExactlyOnceUnits
  infer_instance

end Decidability

section Regions9

/-!
Embedding of `generate_regions` from jigsaw_sudoku.py. The state of one
growth attempt is the pair of the Python structures `regions` (a list of
cell lists) and `region_of` (a 9x9 matrix of region indices, -1 for
unclaimed). `random.shuffle` calls are the oracle `σ` as elsewhere; the
per-candidate `random.random() * 0.1` jitter added to the neighbor score is
a second oracle `j : Nat → ℚ` (a real run has `0 ≤ j m < 1`), threaded
through the same call counter. The pre-sort `random.shuffle(order)` of the
index list is dropped: Python sorts the pairs `(len(regions[i]), i)` whose
keys are pairwise distinct, so the sorted result does not depend on that
shuffle (the call only advances the random stream, which the oracle
families already absorb).
-/

def RegState : Type := List (List (Nat × Nat)) × Regions

/-- The shuffle oracle for cell lists (`random.shuffle` on lists of
coordinate pairs). -/
def CellShuffle : Type := Nat → List (Nat × Nat) → List (Nat × Nat)

def FOUR_NEIGHBORS : List (Int × Int) := [(1, 0), (-1, 0), (0, 1), (0, -1)]

def in_bounds (r c : Int) : Bool := 0 ≤ r && r < 9 && 0 ≤ c && c < 9

/-- The in-bounds 4-neighbors of a cell, in `FOUR_NEIGHBORS` order. -/
def nbrs (p : Nat × Nat) : List (Nat × Nat) :=
  FOUR_NEIGHBORS.filterMap fun d =>
    if in_bounds ((p.1 : Int) + d.1) ((p.2 : Int) + d.2)
    then some (((p.1 : Int) + d.1).toNat, ((p.2 : Int) + d.2).toNat) else none

def setReg (m : Regions) (r c : Nat) (v : Int) : Regions :=
  m.set r ((m.getD r []).set c v)

/-- The accumulation loop of `frontier`: the accumulated list doubles as
Python's `seen` set, giving first-occurrence deduplication. -/
def fLoop (reg_of : Regions) : List (Nat × Nat) → List (Nat × Nat) → List (Nat × Nat)
  | [], f => f
  | p :: rest, f =>
    fLoop reg_of rest
      (f ++ (nbrs p).filter fun q => (getReg reg_of q.1 q.2 == -1) && !(f.elem q))

/-- `frontier(idx, regs, reg_of)` before its final shuffle (the caller
applies `σ`). -/
def frontier (reg_of : Regions) (cells : List (Nat × Nat)) : List (Nat × Nat) :=
  fLoop reg_of cells []

def standard_box_mapping (r c : Nat) : Int := ((r / 3) * 3 + (c / 3) : Nat)

def not_standard (mat : Regions) : Bool :=
  (List.range 9).any fun r => (List.range 9).any fun c =>
    !(getReg mat r c == standard_box_mapping r c)

/-- The set (deduplicated list) of canonical boxes occupied by region
`ridx`, Python's `boxsets[ridx]`. -/
def boxList (mat : Regions) (ridx : Nat) : List Int :=
  (((allCells 9).filter fun p => getReg mat p.1 p.2 == (ridx : Int)).map
    fun p => standard_box_mapping p.1 p.2).dedup

def regions_cross_boxes (mat : Regions) (min_cross : Nat) : Bool :=
  decide (min_cross ≤ (List.range 9).countP fun i => 2 ≤ (boxList mat i).length)

/-- Number of unclaimed in-bounds neighbors of a candidate cell, the base
score of the best-cell selection. -/
def freeNbrs (reg_of : Regions) (q : Nat × Nat) : Nat :=
  ((nbrs q).filter fun t => getReg reg_of t.1 t.2 == -1).length

/-- The best-cell selection loop: strict `>` comparison against the running
best score (initially -1), with the jitter oracle consumed per candidate. -/
def pbLoop (j : Nat → ℚ) (reg_of : Regions) :
    List (Nat × Nat) → Option (Nat × Nat) → ℚ → Nat → Option (Nat × Nat) × Nat
  | [], best, _, k => (best, k)
  | q :: rest, best, bestScore, k =>
    if bestScore < (freeNbrs reg_of q : ℚ) + j k * (1 / 10) then
      pbLoop j reg_of rest (some q) ((freeNbrs reg_of q : ℚ) + j k * (1 / 10)) (k + 1)
    else pbLoop j reg_of rest best bestScore (k + 1)

/-- One index of the growth pass: skip full regions, build and shuffle the
frontier, pick the best candidate, claim it. A `none` pick cannot happen in
a real run (the first candidate's score `≥ 0 > -1` always wins when the
jitter is nonnegative, see `pbLoop_ne_none`); it is modelled as a skip. -/
def growIdx (σ : CellShuffle) (j : Nat → ℚ) (idx : Nat) (st : RegState) (k : Nat) :
    RegState × Bool × Nat :=
  if 9 ≤ (st.1.getD idx []).length then (st, false, k)
  else
    match σ k (frontier st.2 (st.1.getD idx [])), k + 1 with
    | [], k₁ => (st, false, k₁)
    | f@(_ :: _), k₁ =>
      match pbLoop j st.2 f none (-1) k₁ with
      | (none, k₂) => (st, false, k₂)
      | (some p, k₂) =>
        ((st.1.set idx (st.1.getD idx [] ++ [p]), setReg st.2 p.1 p.2 (idx : Int)),
          true, k₂)

def passLoop (σ : CellShuffle) (j : Nat → ℚ) :
    List Nat → RegState → Bool → Nat → RegState × Bool × Nat
  | [], st, prog, k => (st, prog, k)
  | idx :: rest, st, prog, k =>
    match growIdx σ j idx st k with
    | (st', prog', k') => passLoop σ j rest st' (prog || prog') k'

/-- Insertion into a list sorted by the pair order used by Python's
`sorted` on `(len(regions[i]), i)` tuples. -/
def insertLE (x : Nat × Nat) : List (Nat × Nat) → List (Nat × Nat)
  | [] => [x]
  | y :: ys =>
    if x.1 < y.1 ∨ (x.1 = y.1 ∧ x.2 ≤ y.2) then x :: y :: ys else y :: insertLE x ys

def sortPairs (l : List (Nat × Nat)) : List (Nat × Nat) := l.foldr insertLE []

/-- The pass order: indices 0..8 sorted by `(len(regions[i]), i)`. -/
def sortOrder (regs : List (List (Nat × Nat))) : List Nat :=
  (sortPairs ((List.range 9).map fun i => ((regs.getD i []).length, i))).map
    fun e => e.2

def allSized (regs : List (List (Nat × Nat))) : Bool :=
  (List.range 9).all fun i => (regs.getD i []).length == 9

def emptyMat : Regions := List.replicate 9 (List.replicate 9 (-1))

/-- The `mat` built from `regions` at the completion check. -/
def buildMat (regs : List (List (Nat × Nat))) : Regions :=
  ((List.range 9).flatMap fun i => (regs.getD i []).map fun p => (p, (i : Int))).foldl
    (fun m w => setReg m w.1.1 w.1.2 w.2) emptyMat

def unclaimedCount (m : Regions) : Nat :=
  (allCells 9).countP fun p => getReg m p.1 p.2 == -1

/-- The `while made_progress` growth loop: run one pass, return the built
`mat` at completion when it validates (`not_standard` and
`regions_cross_boxes` with `min_cross = 4`), otherwise signal a restart;
recurse only when the pass claimed a cell. Fueled; each productive pass
claims at least one of the 81 cells, so fuel `unclaimedCount + 1` is exact
(see `growLoop_fuel_stable`). -/
def growLoop (σ : CellShuffle) (j : Nat → ℚ) : Nat → RegState → Nat → Option Regions × Nat
  | 0, _, k => (none, k)
  | fuel + 1, st, k =>
    match passLoop σ j (sortOrder st.1) st false k with
    | (st', prog, k') =>
      if allSized st'.1 then
        if not_standard (buildMat st'.1) && regions_cross_boxes (buildMat st'.1) 4
        then (some (buildMat st'.1), k')
        else (none, k')
      else if prog then growLoop σ j fuel st' k'
      else (none, k')

/-- Seeding: `regions[idx].append(seed); region_of[sr][sc] = idx` for the
first 9 cells of the shuffled cell list. -/
def seedState : List (Nat × Nat) → Nat → RegState → RegState
  | [], _, st => st
  | p :: rest, idx, st =>
    seedState rest (idx + 1)
      (st.1.set idx (st.1.getD idx [] ++ [p]), setReg st.2 p.1 p.2 (idx : Int))

def initState : RegState := (List.replicate 9 [], emptyMat)

/-- The attempt loop of `generate_regions`: shuffle the (persistent) cell
list, seed 9 regions, grow; restart on failure, `none` after the budget
(Python raises `RuntimeError` there). -/
def genAux (σ : CellShuffle) (j : Nat → ℚ) :
    Nat → List (Nat × Nat) → Nat → Option Regions × Nat
  | 0, _, k => (none, k)
  | t + 1, cells, k =>
    match growLoop σ j 82 (seedState ((σ k cells).take 9) 0 initState) (k + 1) with
    | (some mat, k') => (some mat, k')
    | (none, k') => genAux σ j t (σ k cells) k'

def generate_regions (σ : CellShuffle) (j : Nat → ℚ) (max_restarts : Nat) (k : Nat) :
    Option Regions × Nat :=
  genAux σ j max_restarts (allCells 9) k

/-- 4-adjacency of cells. -/
def adj (p q : Nat × Nat) : Prop :=
  (p.1 = q.1 ∧ (p.2 = q.2 + 1 ∨ q.2 = p.2 + 1)) ∨
  (p.2 = q.2 ∧ (p.1 = q.1 + 1 ∨ q.1 = p.1 + 1))

/-- Connectivity within a cell list: a path of 4-adjacent steps staying in
`S`. -/
def ConnIn (S : List (Nat × Nat)) (p q : Nat × Nat) : Prop :=
  Relation.ReflTransGen (fun a b => b ∈ S ∧ adj a b) p q

/-- Shape of a 9x9 region matrix. -/
def RegWF (m : Regions) : Prop :=
  m.length = 9 ∧ ∀ row ∈ m, row.length = 9

theorem setReg_oob {m : Regions} {r : Nat} (c : Nat) (v : Int) (hge : m.length ≤ r) :
    setReg m r c v = m := List.set_eq_of_length_le hge

theorem row_setReg_ne {m : Regions} {r r' : Nat} (c : Nat) (v : Int) (h : r' ≠ r) :
    (setReg m r c v).getD r' [] = m.getD r' [] := getD_set_ne' _ _ _ (Ne.symm h)

theorem row_setReg_self {m : Regions} {r : Nat} (c : Nat) (v : Int) (hr : r < m.length) :
    (setReg m r c v).getD r [] = (m.getD r []).set c v := getD_set_self' _ _ _ hr

theorem getReg_setReg_ne {m : Regions} {r c r' c' : Nat} (v : Int)
    (h : (r', c') ≠ (r, c)) :
    getReg (setReg m r c v) r' c' = getReg m r' c' := by
  rcases eq_or_ne r' r with rfl | hr
  · have hc : c' ≠ c := fun hc => h (by rw [hc])
    rcases Nat.lt_or_ge r' m.length with hlt | hge
    · show ((setReg m r' c v).getD r' []).getD c' (-1) = _
      rw [row_setReg_self _ _ hlt, getD_set_ne' _ _ _ (Ne.symm hc)]
      rfl
    · rw [setReg_oob _ _ hge]
  · show ((setReg m r c v).getD r' []).getD c' (-1) = _
    rw [row_setReg_ne _ _ hr]
    rfl

theorem getD_rowR_mem {m : Regions} (hwf : RegWF m) {r : Nat} (hr : r < m.length) :
    (m.getD r []).length = 9 := by
  rw [List.getD_eq_getElem _ _ hr]
  exact hwf.2 _ (List.getElem_mem hr)

theorem getReg_setReg_self {m : Regions} (hwf : RegWF m) {r c : Nat}
    (hr : r < 9) (hc : c < 9) (v : Int) : getReg (setReg m r c v) r c = v := by
  have hrl : r < m.length := by rw [hwf.1]; omega
  have hrow : (m.getD r []).length = 9 := getD_rowR_mem hwf hrl
  show ((setReg m r c v).getD r []).getD c (-1) = v
  rw [row_setReg_self _ _ hrl, getD_set_self' _ _ _ (by omega)]

theorem regWF_setReg {m : Regions} (hwf : RegWF m) (r c : Nat) (v : Int) :
    RegWF (setReg m r c v) := by
  rcases Nat.lt_or_ge r m.length with hlt | hge
  · obtain ⟨hlen, hrows⟩ := hwf
    refine ⟨by simp [setReg, hlen], ?_⟩
    intro row hrow
    rcases List.mem_or_eq_of_mem_set hrow with h | rfl
    · exact hrows _ h
    · rw [List.length_set]
      exact getD_rowR_mem ⟨hlen, hrows⟩ hlt
  · rw [setReg_oob _ _ hge]
    exact hwf

theorem regions_ext {m₁ m₂ : Regions} (h₁ : RegWF m₁) (h₂ : RegWF m₂)
    (h : ∀ r < 9, ∀ c < 9, getReg m₁ r c = getReg m₂ r c) : m₁ = m₂ := by
  obtain ⟨hl₁, hr₁⟩ := h₁
  obtain ⟨hl₂, hr₂⟩ := h₂
  apply List.ext_getElem (by omega)
  intro r hra hrb
  have hrow₁ : m₁[r].length = 9 := hr₁ _ (List.getElem_mem hra)
  have hrow₂ : m₂[r].length = 9 := hr₂ _ (List.getElem_mem hrb)
  apply List.ext_getElem (by omega)
  intro c hca hcb
  have := h r (by omega) c (by omega)
  unfold getReg at this
  rwa [List.getD_eq_getElem _ _ hra, List.getD_eq_getElem _ _ hrb,
    List.getD_eq_getElem _ _ hca, List.getD_eq_getElem _ _ hcb] at this

theorem in_bounds_eq {r c : Int} (h : in_bounds r c = true) :
    0 ≤ r ∧ r < 9 ∧ 0 ≤ c ∧ c < 9 := by
  unfold in_bounds at h
  simp only [Bool.and_eq_true, decide_eq_true_eq] at h
  exact ⟨h.1.1.1, h.1.1.2, h.1.2, h.2⟩

theorem mem_nbrs {p q : Nat × Nat} (hq : q ∈ nbrs p) : adj p q ∧ q.1 < 9 ∧ q.2 < 9 := by
  rw [nbrs, List.mem_filterMap] at hq
  obtain ⟨d, hd, hsome⟩ := hq
  split at hsome
  case isTrue hb =>
    cases hsome
    have hb' := in_bounds_eq hb
    fin_cases hd <;>
      · dsimp only at hb' ⊢
        refine ⟨?_, ?_, ?_⟩ <;> (dsimp only [adj]; omega)
  case isFalse hb => cases hsome

theorem fLoop_mem {reg_of : Regions} {q : Nat × Nat} :
    ∀ (cells f : List (Nat × Nat)), q ∈ fLoop reg_of cells f →
      q ∈ f ∨ ∃ p ∈ cells, q ∈ nbrs p ∧ getReg reg_of q.1 q.2 = -1
  | [], f, hq => Or.inl hq
  | p :: rest, f, hq => by
    rw [fLoop] at hq
    rcases fLoop_mem rest _ hq with hf | ⟨a, ha, hn⟩
    · rcases List.mem_append.1 hf with h | h
      · exact Or.inl h
      · obtain ⟨hnb, hcond⟩ := List.mem_filter.1 h
        simp only [Bool.and_eq_true, beq_iff_eq] at hcond
        exact Or.inr ⟨p, List.mem_cons_self _ _, hnb, hcond.1⟩
    · exact Or.inr ⟨a, List.mem_cons_of_mem _ ha, hn⟩

/-- Everything the growth step needs about a frontier cell: it is adjacent
to a region cell, in bounds, and unclaimed. -/
theorem frontier_mem {reg_of : Regions} {cells : List (Nat × Nat)} {q : Nat × Nat}
    (hq : q ∈ frontier reg_of cells) :
    ∃ p ∈ cells, adj p q ∧ q.1 < 9 ∧ q.2 < 9 ∧ getReg reg_of q.1 q.2 = -1 := by
  rcases fLoop_mem cells [] hq with h | ⟨p, hp, hn, hval⟩
  · cases h
  · obtain ⟨hadj, h1, h2⟩ := mem_nbrs hn
    exact ⟨p, hp, hadj, h1, h2, hval⟩

theorem pbLoop_mem {j : Nat → ℚ} {reg_of : Regions} :
    ∀ (f : List (Nat × Nat)) (best : Option (Nat × Nat)) (s : ℚ) (k : Nat)
      {q : Nat × Nat} {k' : Nat},
      pbLoop j reg_of f best s k = (some q, k') → q ∈ f ∨ best = some q
  | [], best, s, k, q, k', h => by
    rw [pbLoop] at h
    exact Or.inr (Prod.mk.injEq .. ▸ h).1
  | c :: rest, best, s, k, q, k', h => by
    rw [pbLoop] at h
    split at h
    · rcases pbLoop_mem rest (some c) _ (k + 1) h with hm | hc
      · exact Or.inl (List.mem_cons_of_mem _ hm)
      · cases Option.some.inj hc
        exact Or.inl (List.mem_cons_self _ _)
    · rcases pbLoop_mem rest best s (k + 1) h with hm | hb
      · exact Or.inl (List.mem_cons_of_mem _ hm)
      · exact Or.inr hb

/-- With nonnegative jitter, the selection loop never comes back empty from
a nonempty frontier (the first candidate scores `≥ 0 > -1`); Python would
otherwise crash unpacking `best_cell = None`. -/
theorem pbLoop_ne_none {j : Nat → ℚ} {reg_of : Regions} (hj : ∀ m, 0 ≤ j m) :
    ∀ (f : List (Nat × Nat)) (best : Option (Nat × Nat)) (s : ℚ) (k : Nat),
      (f ≠ [] ∧ s < 0) ∨ best.isSome = true →
      (pbLoop j reg_of f best s k).1.isSome = true
  | [], best, s, k, h => by
    rw [pbLoop]
    rcases h with ⟨hne, _⟩ | hb
    · exact absurd rfl hne
    · exact hb
  | c :: rest, best, s, k, h => by
    rw [pbLoop]
    split
    · exact pbLoop_ne_none hj rest (some c) _ (k + 1) (Or.inr rfl)
    · rename_i hlt
      rcases h with ⟨_, hs⟩ | hb
      · exfalso
        apply hlt
        have h1 : (0 : ℚ) ≤ (freeNbrs reg_of c : ℚ) := Nat.cast_nonneg _
        have h2 : (0 : ℚ) ≤ j k * (1 / 10) := mul_nonneg (hj k) (by norm_num)
        linarith
      · exact pbLoop_ne_none hj rest best s (k + 1) (Or.inr hb)

theorem insertLE_perm (x : Nat × Nat) : ∀ l, (insertLE x l).Perm (x :: l)
  | [] => List.Perm.refl _
  | y :: ys => by
    rw [insertLE]
    split
    · exact List.Perm.refl _
    · exact ((insertLE_perm x ys).cons y).trans (List.Perm.swap x y ys)

theorem sortPairs_perm : ∀ l : List (Nat × Nat), (sortPairs l).Perm l
  | [] => List.Perm.refl _
  | x :: xs => (insertLE_perm x (sortPairs xs)).trans ((sortPairs_perm xs).cons x)

theorem sortOrder_mem {regs : List (List (Nat × Nat))} {i : Nat}
    (h : i ∈ sortOrder regs) : i < 9 := by
  unfold sortOrder at h
  obtain ⟨e, he, rfl⟩ := List.mem_map.1 h
  have hmem := (sortPairs_perm _).mem_iff.1 he
  obtain ⟨a, ha, rfl⟩ := List.mem_map.1 hmem
  simpa using List.mem_range.1 ha

theorem regWF_emptyMat : RegWF emptyMat := by
  constructor
  · simp [emptyMat]
  · intro row hrow
    rw [List.eq_of_mem_replicate hrow]
    simp

theorem getReg_emptyMat (r c : Nat) : getReg emptyMat r c = -1 := by
  show ((emptyMat).getD r []).getD c (-1) = -1
  have hrow : (emptyMat).getD r [] = [] ∨ (emptyMat).getD r [] = List.replicate 9 (-1) := by
    unfold emptyMat
    rcases Nat.lt_or_ge r 9 with hr | hr
    · right
      rw [List.getD_eq_getElem _ _ (by simpa using hr)]
      exact List.getElem_replicate _ _
    · left
      exact List.getD_eq_default _ _ (by simpa using hr)
  rcases hrow with h | h <;> rw [h]
  · rfl
  · rcases Nat.lt_or_ge c 9 with hc | hc
    · rw [List.getD_eq_getElem _ _ (by simpa using hc)]
      exact List.getElem_replicate _ _
    · exact List.getD_eq_default _ _ (by simpa using hc)

/-- A region cell list is empty or has an anchor cell from which every cell
is reachable inside the list. -/
def ConnAnchored (l : List (Nat × Nat)) : Prop :=
  l = [] ∨ ∃ s ∈ l, ∀ p ∈ l, ConnIn l s p

/-- Invariant of a growth attempt relating `regions` and `region_of`:
shapes, mutual consistency, index range, no duplicate cells, and anchored
connectivity of every region list. -/
def RegInv (st : RegState) : Prop :=
  st.1.length = 9 ∧ RegWF st.2 ∧
  (∀ i, i < 9 → ∀ p ∈ st.1.getD i [],
    p.1 < 9 ∧ p.2 < 9 ∧ getReg st.2 p.1 p.2 = (i : Int)) ∧
  (∀ r, r < 9 → ∀ c, c < 9 → ∀ i : Nat, i < 9 →
    getReg st.2 r c = (i : Int) → (r, c) ∈ st.1.getD i []) ∧
  (∀ r, r < 9 → ∀ c, c < 9 →
    getReg st.2 r c = -1 ∨ ∃ i : Nat, i < 9 ∧ getReg st.2 r c = (i : Int)) ∧
  (∀ i, i < 9 → (st.1.getD i []).Nodup) ∧
  (∀ i, i < 9 → ConnAnchored (st.1.getD i []))

theorem connIn_mono {S T : List (Nat × Nat)} (hST : ∀ x, x ∈ S → x ∈ T)
    {p q : Nat × Nat} (h : ConnIn S p q) : ConnIn T p q :=
  Relation.ReflTransGen.mono (fun a b hab => ⟨hST b hab.1, hab.2⟩) h

theorem unclaimed_setReg {m : Regions} (hwf : RegWF m) {r c : Nat}
    (hr : r < 9) (hc : c < 9) (hold : getReg m r c = -1) {v : Int} (hv : v ≠ -1) :
    unclaimedCount (setReg m r c v) + 1 = unclaimedCount m := by
  unfold unclaimedCount
  apply countP_update_of_nodup _ _ _ (allCells_nodup 9) (r, c) (mem_allCells.2 ⟨hr, hc⟩)
  · rintro ⟨r', c'⟩ _ hne
    simp only [getReg_setReg_ne _ hne]
  · simpa using hold
  · simp [getReg_setReg_self hwf hr hc, hv]

/-- Case analysis of one growth step: either nothing happens, or a frontier
cell (in bounds, unclaimed, adjacent to a region cell) is claimed. -/
theorem growIdx_cases {σ : CellShuffle} (hσ : PermFam σ) (j : Nat → ℚ)
    (idx : Nat) (st : RegState) (k : Nat) :
    ((growIdx σ j idx st k).2.1 = false ∧ (growIdx σ j idx st k).1 = st) ∨
    ∃ p a, a ∈ st.1.getD idx [] ∧ adj a p ∧ p.1 < 9 ∧ p.2 < 9 ∧
      getReg st.2 p.1 p.2 = -1 ∧
      (growIdx σ j idx st k).2.1 = true ∧
      (growIdx σ j idx st k).1 =
        (st.1.set idx (st.1.getD idx [] ++ [p]), setReg st.2 p.1 p.2 (idx : Int)) := by
  unfold growIdx
  by_cases hfull : 9 ≤ (st.1.getD idx []).length
  · rw [if_pos hfull]
    exact Or.inl ⟨rfl, rfl⟩
  · rw [if_neg hfull]
    rcases hf : σ k (frontier st.2 (st.1.getD idx [])) with _ | ⟨c0, rest⟩
    · exact Or.inl ⟨rfl, rfl⟩
    · dsimp only
      rcases hpb : pbLoop j st.2 (c0 :: rest) none (-1) (k + 1) with ⟨pick, k₂⟩
      rcases pick with _ | p
      · exact Or.inl ⟨rfl, rfl⟩
      · have hpmem : p ∈ c0 :: rest := by
          rcases pbLoop_mem (c0 :: rest) none (-1) (k + 1) hpb with hm | hn
          · exact hm
          · cases hn
        have hpfr : p ∈ frontier st.2 (st.1.getD idx []) :=
          (hσ k _).mem_iff.1 (hf ▸ hpmem)
        obtain ⟨a, ha, hadj, h1, h2, hval⟩ := frontier_mem hpfr
        exact Or.inr ⟨p, a, ha, hadj, h1, h2, hval, rfl, rfl⟩

/-- Claiming an unclaimed in-bounds cell for region `idx` preserves the
invariant, provided the cell is adjacent to a region cell (or the region is
still empty, as during seeding). -/
theorem claim_inv {st : RegState} (hinv : RegInv st) {p : Nat × Nat} {idx : Nat}
    (hidx : idx < 9) (hp1 : p.1 < 9) (hp2 : p.2 < 9)
    (hpv : getReg st.2 p.1 p.2 = -1)
    (hstep : st.1.getD idx [] = [] ∨ ∃ a ∈ st.1.getD idx [], adj a p) :
    RegInv (st.1.set idx (st.1.getD idx [] ++ [p]), setReg st.2 p.1 p.2 (idx : Int)) := by
  obtain ⟨hlen, hwf, hcons, hconv, hrange, hnd, hconn⟩ := hinv
  have hidxlen : idx < st.1.length := by omega
  have hpnotl : p ∉ st.1.getD idx [] := by
    intro hmem
    have := (hcons idx hidx p hmem).2.2
    rw [hpv] at this
    omega
  have hrow_idx : (st.1.set idx (st.1.getD idx [] ++ [p])).getD idx []
      = st.1.getD idx [] ++ [p] := getD_set_self' _ _ _ hidxlen
  have hrow_ne : ∀ i, i ≠ idx → (st.1.set idx (st.1.getD idx [] ++ [p])).getD i []
      = st.1.getD i [] := fun i hi => getD_set_ne' _ _ _ (Ne.symm hi)
  refine ⟨?_, regWF_setReg hwf p.1 p.2 _, ?_, ?_, ?_, ?_, ?_⟩
  · simpa using hlen
  · -- consistency
    intro i hi q hq
    dsimp only at hq ⊢
    by_cases hieq : i = idx
    · subst hieq
      rw [hrow_idx] at hq
      rcases List.mem_append.1 hq with hql | hqp
      · obtain ⟨hq1, hq2, hq3⟩ := hcons i hi q hql
        have hqne : ¬((q.1, q.2) = (p.1, p.2)) := by
          intro hcontra
          obtain ⟨e1, e2⟩ : q.1 = p.1 ∧ q.2 = p.2 := Prod.mk.injEq .. ▸ hcontra
          have : q = p := Prod.ext e1 e2
          exact hpnotl (this ▸ hql)
        exact ⟨hq1, hq2, by rw [getReg_setReg_ne _ hqne]; exact hq3⟩
      · have hqp' : q = p := List.mem_singleton.1 hqp
        subst hqp'
        exact ⟨hp1, hp2, getReg_setReg_self hwf hp1 hp2 _⟩
    · rw [hrow_ne i hieq] at hq
      obtain ⟨hq1, hq2, hq3⟩ := hcons i hi q hq
      have hqne : ¬((q.1, q.2) = (p.1, p.2)) := by
        intro hcontra
        obtain ⟨e1, e2⟩ : q.1 = p.1 ∧ q.2 = p.2 := Prod.mk.injEq .. ▸ hcontra
        rw [e1, e2, hpv] at hq3
        omega
      exact ⟨hq1, hq2, by rw [getReg_setReg_ne _ hqne]; exact hq3⟩
  · -- converse
    intro r hr c hc i hi hval
    dsimp only at hval ⊢
    by_cases hrc : ((r, c) : Nat × Nat) = (p.1, p.2)
    · obtain ⟨e1, e2⟩ : r = p.1 ∧ c = p.2 := Prod.mk.injEq .. ▸ hrc
      subst e1; subst e2
      rw [getReg_setReg_self hwf hp1 hp2] at hval
      have hieq : i = idx := by
        have := Nat.cast_inj.1 hval.symm
        omega
      subst hieq
      rw [hrow_idx]
      refine List.mem_append.2 (Or.inr ?_)
      have : (p.1, p.2) = p := rfl
      rw [this]
      exact List.mem_singleton.2 rfl
    · rw [getReg_setReg_ne _ hrc] at hval
      have hold := hconv r hr c hc i hi hval
      by_cases hieq : i = idx
      · subst hieq
        rw [hrow_idx]
        exact List.mem_append.2 (Or.inl hold)
      · rw [hrow_ne i hieq]
        exact hold
  · -- range of values
    intro r hr c hc
    dsimp only
    by_cases hrc : ((r, c) : Nat × Nat) = (p.1, p.2)
    · obtain ⟨e1, e2⟩ : r = p.1 ∧ c = p.2 := Prod.mk.injEq .. ▸ hrc
      subst e1; subst e2
      rw [getReg_setReg_self hwf hp1 hp2]
      exact Or.inr ⟨idx, hidx, rfl⟩
    · rw [getReg_setReg_ne _ hrc]
      exact hrange r hr c hc
  · -- nodup
    intro i hi
    dsimp only
    by_cases hieq : i = idx
    · subst hieq
      rw [hrow_idx, List.nodup_append]
      refine ⟨hnd i hi, List.nodup_singleton p, ?_⟩
      intro x hx hx'
      rw [List.mem_singleton.1 hx'] at hx
      exact hpnotl hx
    · rw [hrow_ne i hieq]
      exact hnd i hi
  · -- connectivity
    intro i hi
    dsimp only
    by_cases hieq : i = idx
    · subst hieq
      rw [hrow_idx]
      rcases hstep with hnil | ⟨a, ha, hadj⟩
      · rw [hnil]
        refine Or.inr ⟨p, List.mem_singleton.2 rfl, ?_⟩
        intro q hq
        rw [List.mem_singleton.1 hq]
        exact Relation.ReflTransGen.refl
      · rcases hconn i hi with hnil | ⟨s, hs, hcon⟩
        · rw [hnil] at ha
          cases ha
        · refine Or.inr ⟨s, List.mem_append.2 (Or.inl hs), ?_⟩
          intro q hq
          have hsub : ∀ x, x ∈ st.1.getD i [] → x ∈ st.1.getD i [] ++ [p] :=
            fun x hx => List.mem_append.2 (Or.inl hx)
          rcases List.mem_append.1 hq with hql | hqp
          · exact connIn_mono hsub (hcon q hql)
          · rw [List.mem_singleton.1 hqp]
            refine Relation.ReflTransGen.tail (connIn_mono hsub (hcon a ha)) ?_
            exact ⟨List.mem_append.2 (Or.inr (List.mem_singleton.2 rfl)), hadj⟩
    · rw [hrow_ne i hieq]
      exact hconn i hi

/-- One growth step preserves the invariant; a no-progress step is the
identity and a progress step claims exactly one cell. -/
theorem growIdx_facts {σ : CellShuffle} (hσ : PermFam σ) {j : Nat → ℚ}
    {idx : Nat} {st : RegState} {k : Nat} (hinv : RegInv st) (hidx : idx < 9) :
    RegInv (growIdx σ j idx st k).1 ∧
    ((growIdx σ j idx st k).2.1 = false → (growIdx σ j idx st k).1 = st) ∧
    ((growIdx σ j idx st k).2.1 = true →
      unclaimedCount (growIdx σ j idx st k).1.2 + 1 = unclaimedCount st.2) := by
  rcases growIdx_cases hσ j idx st k with ⟨hfalse, hid⟩ |
    ⟨p, a, ha, hadj, hp1, hp2, hpv, htrue, hupd⟩
  · rw [hid]
    exact ⟨hinv, fun _ => rfl,
      fun h => absurd (hfalse.symm.trans h) (by simp)⟩
  · rw [hupd]
    refine ⟨claim_inv hinv hidx hp1 hp2 hpv (Or.inr ⟨a, ha, hadj⟩), ?_, ?_⟩
    · intro h
      rw [htrue] at h
      cases h
    · intro _
      dsimp only
      exact unclaimed_setReg hinv.2.1 hp1 hp2 hpv (by omega)

/-- One pass: invariant preserved, the unclaimed count never grows, a
progress flag means a cell was claimed, and a pass with no progress leaves
the state untouched. -/
theorem passLoop_facts {σ : CellShuffle} (hσ : PermFam σ) {j : Nat → ℚ} :
    ∀ (idxs : List Nat) (st : RegState) (prog : Bool) (k : Nat),
      (∀ i ∈ idxs, i < 9) → RegInv st →
      RegInv (passLoop σ j idxs st prog k).1 ∧
      unclaimedCount (passLoop σ j idxs st prog k).1.2 ≤ unclaimedCount st.2 ∧
      ((passLoop σ j idxs st prog k).2.1 = true →
        prog = true ∨
        unclaimedCount (passLoop σ j idxs st prog k).1.2 < unclaimedCount st.2) ∧
      ((passLoop σ j idxs st prog k).2.1 = false →
        (passLoop σ j idxs st prog k).1 = st ∧ prog = false)
  | [], st, prog, k, _, hinv =>
    ⟨hinv, le_refl _, fun h => Or.inl h, fun h => ⟨rfl, h⟩⟩
  | idx :: rest, st, prog, k, hidxs, hinv => by
    rw [passLoop]
    rcases hgi : growIdx σ j idx st k with ⟨st', prog', k'⟩
    obtain ⟨hinv', hfid, hdec⟩ := growIdx_facts hσ hinv (hidxs idx (List.mem_cons_self _ _))
    rw [hgi] at hinv' hfid hdec
    dsimp only at hinv' hfid hdec ⊢
    have hrest := @passLoop_facts σ hσ j rest st' (prog || prog') k'
      (fun i hi => hidxs i (List.mem_cons_of_mem _ hi)) hinv'
    rcases prog' with _ | _
    · have hid : st' = st := hfid rfl
      subst hid
      simpa using hrest
    · have hlt : unclaimedCount st'.2 + 1 = unclaimedCount st.2 := hdec rfl
      refine ⟨hrest.1, by omega, fun _ => Or.inr (by omega), fun h => ?_⟩
      have := (hrest.2.2.2 h).2
      simp at this
  termination_by idxs => idxs.length

/-- A returned region matrix always comes from a completed state that
passed both validity checks. -/
theorem growLoop_some {σ : CellShuffle} (hσ : PermFam σ) {j : Nat → ℚ} :
    ∀ (fuel : Nat) (st : RegState) (k : Nat), RegInv st →
      ∀ {mat : Regions} {k' : Nat}, growLoop σ j fuel st k = (some mat, k') →
      ∃ st₂ : RegState, RegInv st₂ ∧ allSized st₂.1 = true ∧ mat = buildMat st₂.1 ∧
        not_standard mat = true ∧ regions_cross_boxes mat 4 = true
  | 0, st, k, _, mat, k', h => by cases h
  | fuel + 1, st, k, hinv, mat, k', h => by
    rw [growLoop] at h
    rcases hps : passLoop σ j (sortOrder st.1) st false k with ⟨st', prog, k''⟩
    rw [hps] at h
    obtain ⟨hinv', _, _, _⟩ :=
      passLoop_facts hσ (sortOrder st.1) st false k (fun i hi => sortOrder_mem hi) hinv
    rw [hps] at hinv'
    dsimp only at hinv' h
    by_cases hsz : allSized st'.1 = true
    · rw [if_pos hsz] at h
      by_cases hval : (not_standard (buildMat st'.1) &&
          regions_cross_boxes (buildMat st'.1) 4) = true
      · rw [if_pos hval] at h
        rw [Prod.mk.injEq, Option.some.injEq] at h
        obtain ⟨hv1, hv2⟩ := Bool.and_eq_true_iff.1 hval
        exact ⟨st', hinv', hsz, h.1.symm, h.1 ▸ hv1, h.1 ▸ hv2⟩
      · rw [if_neg hval] at h
        simp at h
    · rw [if_neg hsz] at h
      by_cases hprog : prog = true
      · rw [hprog, if_pos rfl] at h
        exact growLoop_some hσ fuel st' k'' hinv' h
      · rw [Bool.not_eq_true] at hprog
        rw [hprog] at h
        rw [if_neg (by simp)] at h
        simp at h

theorem unclaimed_le (m : Regions) : unclaimedCount m ≤ 81 := by
  have h := List.countP_le_length (l := allCells 9)
    (p := fun p : Nat × Nat => getReg m p.1 p.2 == -1)
  have h81 : (allCells 9).length = 81 := by rw [length_allCells]
  unfold unclaimedCount
  omega

/-- Each productive pass claims at least one of the 81 cells, so the growth
loop's result is independent of the fuel once the fuel exceeds the number
of unclaimed cells: every attempt finishes within `unclaimedCount + 1`
passes. -/
theorem growLoop_fuel_stable {σ : CellShuffle} (hσ : PermFam σ) {j : Nat → ℚ} :
    ∀ (f₁ f₂ : Nat) (st : RegState) (k : Nat), RegInv st →
      unclaimedCount st.2 < f₁ → unclaimedCount st.2 < f₂ →
      growLoop σ j f₁ st k = growLoop σ j f₂ st k
  | 0, f₂, st, k, _, h₁, _ => by omega
  | f₁ + 1, 0, st, k, _, _, h₂ => by omega
  | f₁ + 1, f₂ + 1, st, k, hinv, h₁, h₂ => by
    rw [growLoop, growLoop]
    rcases hps : passLoop σ j (sortOrder st.1) st false k with ⟨st', prog, k''⟩
    obtain ⟨hinv', hle, hdec, _⟩ :=
      passLoop_facts hσ (sortOrder st.1) st false k (fun i hi => sortOrder_mem hi) hinv
    rw [hps] at hinv' hle hdec
    dsimp only at hinv' hle hdec ⊢
    by_cases hsz : allSized st'.1 = true
    · rw [if_pos hsz, if_pos hsz]
    · rw [if_neg hsz, if_neg hsz]
      rcases prog with _ | _
      · rw [if_neg (by simp), if_neg (by simp)]
      · have hlt : unclaimedCount st'.2 < unclaimedCount st.2 := by
          rcases hdec rfl with h | h
          · cases h
          · exact h
        rw [if_pos rfl, if_pos rfl]
        exact growLoop_fuel_stable hσ f₁ f₂ st' k'' hinv' (by omega) (by omega)

theorem perm_of_nodup_same_mem {α : Type} {l₁ l₂ : List α}
    (h₁ : l₁.Nodup) (h₂ : l₂.Nodup) (h : ∀ x, x ∈ l₁ ↔ x ∈ l₂) : l₁.Perm l₂ := by
  have s₁ : l₁.Subperm l₂ := h₁.subperm (fun x hx => (h x).1 hx)
  have s₂ : l₂.Subperm l₁ := h₂.subperm (fun x hx => (h x).2 hx)
  exact s₁.perm_of_length_le s₂.length_le

theorem regWF_foldCells (v : Int) :
    ∀ (cells : List (Nat × Nat)) (m : Regions), RegWF m →
      RegWF (cells.foldl (fun m p => setReg m p.1 p.2 v) m)
  | [], m, hwf => hwf
  | p :: rest, m, hwf => by
    rw [List.foldl_cons]
    exact regWF_foldCells v rest _ (regWF_setReg hwf p.1 p.2 v)

theorem foldCells_getReg (v : Int) :
    ∀ (cells : List (Nat × Nat)) (m : Regions) {r c : Nat}, RegWF m →
      r < 9 → c < 9 →
      getReg (cells.foldl (fun m p => setReg m p.1 p.2 v) m) r c
        = if (r, c) ∈ cells then v else getReg m r c
  | [], m, r, c, _, _, _ => by simp
  | p :: rest, m, r, c, hwf, hr, hc => by
    rw [List.foldl_cons,
      foldCells_getReg v rest (setReg m p.1 p.2 v) (regWF_setReg hwf p.1 p.2 v) hr hc]
    by_cases hmem : ((r, c) : Nat × Nat) ∈ rest
    · rw [if_pos hmem, if_pos (List.mem_cons_of_mem _ hmem)]
    · rw [if_neg hmem]
      by_cases hp : ((r, c) : Nat × Nat) = p
      · rw [if_pos (by rw [hp]; exact List.mem_cons_self _ _)]
        obtain ⟨e1, e2⟩ : r = p.1 ∧ c = p.2 := by
          constructor <;> rw [← hp]
        subst e1; subst e2
        exact getReg_setReg_self hwf hr hc v
      · rw [if_neg (by
          intro hcontra
          rcases List.mem_cons.1 hcontra with h | h
          · exact hp h
          · exact hmem h)]
        refine getReg_setReg_ne _ ?_
        intro hcontra
        obtain ⟨e1, e2⟩ : r = p.1 ∧ c = p.2 := Prod.mk.injEq .. ▸ hcontra
        exact hp (Prod.ext e1 e2)

theorem buildMat_eq (regs : List (List (Nat × Nat))) :
    buildMat regs = (List.range 9).foldl
      (fun m i => (regs.getD i []).foldl (fun m p => setReg m p.1 p.2 (i : Int)) m)
      emptyMat := by
  unfold buildMat
  generalize emptyMat = m₀
  induction (List.range 9) generalizing m₀ with
  | nil => rfl
  | cons i rest ih =>
    rw [List.flatMap_cons, List.foldl_append, List.foldl_cons, List.foldl_map]
    exact ih _

theorem regWF_foldRegions (regs : List (List (Nat × Nat))) :
    ∀ (idxs : List Nat) (m : Regions), RegWF m →
      RegWF (idxs.foldl
        (fun m i => (regs.getD i []).foldl (fun m p => setReg m p.1 p.2 (i : Int)) m) m)
  | [], m, hwf => hwf
  | i :: rest, m, hwf => by
    rw [List.foldl_cons]
    exact regWF_foldRegions regs rest _ (regWF_foldCells _ _ _ hwf)

theorem foldRegions_getReg {regs : List (List (Nat × Nat))}
    (hcells : ∀ i, i < 9 → ∀ p ∈ regs.getD i [], p.1 < 9 ∧ p.2 < 9)
    (hdisj : ∀ i₁ i₂, i₁ < 9 → i₂ < 9 → ∀ p, p ∈ regs.getD i₁ [] →
      p ∈ regs.getD i₂ [] → i₁ = i₂) :
    ∀ (idxs : List Nat), (∀ i ∈ idxs, i < 9) → idxs.Nodup →
    ∀ (m : Regions), RegWF m → ∀ {r c : Nat}, r < 9 → c < 9 →
      ((∀ i ∈ idxs, ((r, c) : Nat × Nat) ∉ regs.getD i []) →
        getReg (idxs.foldl
          (fun m i => (regs.getD i []).foldl (fun m p => setReg m p.1 p.2 (i : Int)) m)
          m) r c = getReg m r c) ∧
      (∀ i ∈ idxs, ((r, c) : Nat × Nat) ∈ regs.getD i [] →
        getReg (idxs.foldl
          (fun m i => (regs.getD i []).foldl (fun m p => setReg m p.1 p.2 (i : Int)) m)
          m) r c = (i : Int))
  | [], _, _, m, hwf, r, c, hr, hc => ⟨fun _ => rfl, fun i hi => absurd hi (by simp)⟩
  | i₀ :: rest, hlt, hnd, m, hwf, r, c, hr, hc => by
    rw [List.foldl_cons]
    have hwf' : RegWF ((regs.getD i₀ []).foldl
        (fun m p => setReg m p.1 p.2 (i₀ : Int)) m) := regWF_foldCells _ _ _ hwf
    have hrec := foldRegions_getReg hcells hdisj rest
      (fun i hi => hlt i (List.mem_cons_of_mem _ hi)) (List.nodup_cons.1 hnd).2 _ hwf'
      hr hc
    have hhead := foldCells_getReg (i₀ : Int) (regs.getD i₀ []) m hwf hr hc
    constructor
    · intro hnone
      rw [hrec.1 (fun i hi => hnone i (List.mem_cons_of_mem _ hi)), hhead,
        if_neg (hnone i₀ (List.mem_cons_self _ _))]
    · intro i hi hmem
      rcases List.mem_cons.1 hi with rfl | hirest
      · have hnot_rest : ∀ i' ∈ rest, ((r, c) : Nat × Nat) ∉ regs.getD i' [] := by
          intro i' hi' hmem'
          have : i' = i := hdisj i' i (hlt i' (List.mem_cons_of_mem _ hi'))
            (hlt i (List.mem_cons_self _ _)) _ hmem' hmem
          exact (List.nodup_cons.1 hnd).1 (this ▸ hi')
        rw [hrec.1 hnot_rest, hhead, if_pos hmem]
      · have hnoti₀ : ((r, c) : Nat × Nat) ∉ regs.getD i₀ [] := by
          intro hmem'
          have : i₀ = i := hdisj i₀ i (hlt i₀ (List.mem_cons_self _ _))
            (hlt i (List.mem_cons_of_mem _ hirest)) _ hmem' hmem
          exact (List.nodup_cons.1 hnd).1 (this ▸ hirest)
        rw [hrec.2 i hirest hmem]

theorem regInv_disj {st : RegState} (hinv : RegInv st) :
    ∀ i₁ i₂, i₁ < 9 → i₂ < 9 → ∀ p, p ∈ st.1.getD i₁ [] → p ∈ st.1.getD i₂ [] →
      i₁ = i₂ := by
  intro i₁ i₂ h₁ h₂ p hp₁ hp₂
  have e₁ := (hinv.2.2.1 i₁ h₁ p hp₁).2.2
  have e₂ := (hinv.2.2.1 i₂ h₂ p hp₂).2.2
  rw [e₁] at e₂
  exact Nat.cast_inj.1 e₂

theorem regWF_buildMat (regs : List (List (Nat × Nat))) : RegWF (buildMat regs) := by
  rw [buildMat_eq]
  exact regWF_foldRegions regs (List.range 9) emptyMat regWF_emptyMat

/-- Under the invariant, the matrix assembled from `regions` at the
completion check is exactly `region_of`. -/
theorem buildMat_eq_reg_of {st : RegState} (hinv : RegInv st) :
    buildMat st.1 = st.2 := by
  refine regions_ext (regWF_buildMat st.1) hinv.2.1 ?_
  intro r hr c hc
  have hfold := foldRegions_getReg (fun i hi p hp => ⟨(hinv.2.2.1 i hi p hp).1,
      (hinv.2.2.1 i hi p hp).2.1⟩) (regInv_disj hinv) (List.range 9)
    (fun i hi => List.mem_range.1 hi) (List.nodup_range 9) emptyMat regWF_emptyMat
    hr hc
  rw [buildMat_eq]
  rcases hinv.2.2.2.2.1 r hr c hc with hneg | ⟨i, hi, hval⟩
  · rw [hfold.1 ?_, getReg_emptyMat, hneg]
    intro i hi hmem
    have := (hinv.2.2.1 i (List.mem_range.1 hi) _ hmem).2.2
    dsimp only at this
    rw [hneg] at this
    omega
  · rw [hfold.2 i (List.mem_range.2 hi) ?_, hval]
    exact hinv.2.2.2.1 r hr c hc i hi hval

/-- The cells of region `i` in a matrix, row-major. -/
def regionCells9 (mat : Regions) (i : Nat) : List (Nat × Nat) :=
  (allCells 9).filter fun p => getReg mat p.1 p.2 == (i : Int)

/-- What C3 asserts of a returned region map: well-formed 9x9 shape, every
cell claimed by one of 9 regions, every region of size exactly 9 and
4-connected, not the canonical box mapping, and at least 4 regions crossing
canonical box boundaries. -/
def ValidRegionMap (mat : Regions) : Prop :=
  RegWF mat ∧
  (∀ r, r < 9 → ∀ c, c < 9 → ∃ i : Nat, i < 9 ∧ getReg mat r c = (i : Int)) ∧
  (∀ i, i < 9 → (regionCells9 mat i).length = 9) ∧
  (∀ i, i < 9 → ∃ s ∈ regionCells9 mat i, ∀ p ∈ regionCells9 mat i,
    ConnIn (regionCells9 mat i) s p) ∧
  (∃ r, r < 9 ∧ ∃ c, c < 9 ∧ getReg mat r c ≠ standard_box_mapping r c) ∧
  4 ≤ (List.range 9).countP fun i => 2 ≤ (boxList mat i).length

theorem not_standard_spec {mat : Regions} (h : not_standard mat = true) :
    ∃ r, r < 9 ∧ ∃ c, c < 9 ∧ getReg mat r c ≠ standard_box_mapping r c := by
  unfold not_standard at h
  simp only [List.any_eq_true, List.mem_range, Bool.not_eq_true', beq_eq_false_iff_ne,
    ne_eq] at h
  obtain ⟨r, hr, c, hc, hne⟩ := h
  exact ⟨r, hr, c, hc, hne⟩

theorem cross_spec {mat : Regions} (h : regions_cross_boxes mat 4 = true) :
    4 ≤ (List.range 9).countP fun i => 2 ≤ (boxList mat i).length := by
  unfold regions_cross_boxes at h
  exact of_decide_eq_true h

/-- At completion every cell is claimed: nine disjoint duplicate-free
regions of nine in-bounds cells each must cover all 81 cells. -/
theorem complete_coverage {st : RegState} (hinv : RegInv st)
    (hsz : ∀ i, i < 9 → (st.1.getD i []).length = 9) :
    ∀ r, r < 9 → ∀ c, c < 9 → ∃ i : Nat, i < 9 ∧ getReg st.2 r c = (i : Int) := by
  have hdisj' : ∀ i₁ i₂ : Nat, ∀ p : Nat × Nat,
      p ∈ st.1.getD i₁ [] → p ∈ st.1.getD i₂ [] → i₁ = i₂ := by
    intro i₁ i₂ p hp₁ hp₂
    by_cases h₁ : i₁ < 9
    · by_cases h₂ : i₂ < 9
      · exact regInv_disj hinv i₁ i₂ h₁ h₂ p hp₁ hp₂
      · rw [List.getD_eq_default _ _ (by rw [hinv.1]; omega)] at hp₂
        cases hp₂
    · rw [List.getD_eq_default _ _ (by rw [hinv.1]; omega)] at hp₁
      cases hp₁
  have hconcat_nd : ((List.range 9).flatMap fun i => st.1.getD i []).Nodup := by
    apply List.nodup_flatMap.2
    constructor
    · intro i hi
      exact hinv.2.2.2.2.2.1 i (List.mem_range.1 hi)
    · apply (List.nodup_range 9).imp
      intro i₁ i₂ hne p hp₁ hp₂
      exact hne (hdisj' i₁ i₂ p hp₁ hp₂)
  have hsub : ((List.range 9).flatMap fun i => st.1.getD i []) ⊆ allCells 9 := by
    intro p hp
    obtain ⟨i, hi, hpi⟩ := List.mem_flatMap.1 hp
    obtain ⟨h1, h2, _⟩ := hinv.2.2.1 i (List.mem_range.1 hi) p hpi
    have : (p.1, p.2) ∈ allCells 9 := mem_allCells.2 ⟨h1, h2⟩
    exact this
  have hlen : ((List.range 9).flatMap fun i => st.1.getD i []).length = 81 := by
    rw [List.length_flatMap]
    have hmap : List.map (List.length ∘ fun i => st.1.getD i []) (List.range 9)
        = List.replicate 9 9 := by
      apply List.ext_getElem (by simp)
      intro i h₁ h₂
      simp only [List.getElem_map, List.getElem_range, List.getElem_replicate,
        Function.comp_apply]
      exact hsz i (by simpa using h₁)
    rw [hmap, List.sum_replicate, smul_eq_mul]
  have hperm : ((List.range 9).flatMap fun i => st.1.getD i []).Perm (allCells 9) := by
    refine (hconcat_nd.subperm hsub).perm_of_length_le ?_
    rw [hlen, length_allCells]
  intro r hr c hc
  have hmem : ((r, c) : Nat × Nat) ∈ (List.range 9).flatMap fun i => st.1.getD i [] :=
    hperm.mem_iff.2 (mem_allCells.2 ⟨hr, hc⟩)
  obtain ⟨i, hi, hpi⟩ := List.mem_flatMap.1 hmem
  exact ⟨i, List.mem_range.1 hi, (hinv.2.2.1 i (List.mem_range.1 hi) _ hpi).2.2⟩

/-- A completed, validated growth state yields a valid region map. -/
theorem valid_of_complete {st : RegState} (hinv : RegInv st)
    (hsz : allSized st.1 = true)
    (hns : not_standard (buildMat st.1) = true)
    (hcross : regions_cross_boxes (buildMat st.1) 4 = true) :
    ValidRegionMap (buildMat st.1) := by
  have hszn : ∀ i, i < 9 → (st.1.getD i []).length = 9 := by
    intro i hi
    have h := List.all_eq_true.1 hsz i (List.mem_range.2 hi)
    exact beq_iff_eq.1 h
  have hmat : buildMat st.1 = st.2 := buildMat_eq_reg_of hinv
  have hiff : ∀ i, i < 9 → ∀ p : Nat × Nat,
      p ∈ regionCells9 (buildMat st.1) i ↔ p ∈ st.1.getD i [] := by
    intro i hi p
    unfold regionCells9
    rw [hmat]
    constructor
    · intro hp
      obtain ⟨hall, hval⟩ := List.mem_filter.1 hp
      have hb : p.1 < 9 ∧ p.2 < 9 := by
        have : (p.1, p.2) ∈ allCells 9 := hall
        exact mem_allCells.1 this
      exact hinv.2.2.2.1 p.1 hb.1 p.2 hb.2 i hi (beq_iff_eq.1 hval)
    · intro hp
      obtain ⟨h1, h2, h3⟩ := hinv.2.2.1 i hi p hp
      refine List.mem_filter.2 ⟨?_, beq_iff_eq.2 h3⟩
      have : (p.1, p.2) ∈ allCells 9 := mem_allCells.2 ⟨h1, h2⟩
      exact this
  refine ⟨regWF_buildMat st.1, ?_, ?_, ?_, not_standard_spec hns, cross_spec hcross⟩
  · rw [hmat]
    exact complete_coverage hinv hszn
  · intro i hi
    have hpm : (regionCells9 (buildMat st.1) i).Perm (st.1.getD i []) :=
      perm_of_nodup_same_mem ((allCells_nodup 9).filter _)
        (hinv.2.2.2.2.2.1 i hi) (hiff i hi)
    rw [hpm.length_eq]
    exact hszn i hi
  · intro i hi
    rcases hinv.2.2.2.2.2.2 i hi with hnil | ⟨s, hs, hcon⟩
    · exfalso
      have := hszn i hi
      rw [hnil] at this
      cases this
    · refine ⟨s, (hiff i hi s).2 hs, ?_⟩
      intro p hp
      exact connIn_mono (fun x hx => (hiff i hi x).2 hx) (hcon p ((hiff i hi p).1 hp))

theorem getD_replicate_nil (i : Nat) :
    (List.replicate 9 ([] : List (Nat × Nat))).getD i [] = [] := by
  rcases Nat.lt_or_ge i 9 with hi | hi
  · rw [List.getD_eq_getElem _ _ (by simpa using hi)]
    exact List.getElem_replicate _ _
  · exact List.getD_eq_default _ _ (by simpa using hi)

theorem regInv_initState : RegInv initState := by
  refine ⟨by simp [initState], regWF_emptyMat, ?_, ?_, ?_, ?_, ?_⟩
  · intro i _ p hp
    rw [show initState.1.getD i [] = [] from getD_replicate_nil i] at hp
    cases hp
  · intro r _ c _ i _ hval
    rw [show getReg initState.2 r c = -1 from getReg_emptyMat r c] at hval
    omega
  · intro r _ c _
    exact Or.inl (getReg_emptyMat r c)
  · intro i _
    rw [show initState.1.getD i [] = [] from getD_replicate_nil i]
    exact List.nodup_nil
  · intro i _
    exact Or.inl (getD_replicate_nil i)

/-- Seeding distinct unclaimed cells into still-empty regions preserves the
invariant. -/
theorem seed_inv :
    ∀ (seeds : List (Nat × Nat)) (idx : Nat) (st : RegState),
      RegInv st →
      (∀ p ∈ seeds, p.1 < 9 ∧ p.2 < 9 ∧ getReg st.2 p.1 p.2 = -1) →
      seeds.Nodup →
      idx + seeds.length ≤ 9 →
      (∀ i, idx ≤ i → i < 9 → st.1.getD i [] = []) →
      RegInv (seedState seeds idx st)
  | [], idx, st, hinv, _, _, _, _ => hinv
  | p :: rest, idx, st, hinv, hcond, hnd, hle, hempties => by
    rw [seedState]
    obtain ⟨hp1, hp2, hpv⟩ := hcond p (List.mem_cons_self _ _)
    have hlen : idx + (rest.length + 1) ≤ 9 := by simpa using hle
    have hidx : idx < 9 := by omega
    have hstep := claim_inv hinv hidx hp1 hp2 hpv (Or.inl (hempties idx (le_refl _) hidx))
    refine seed_inv rest (idx + 1) _ hstep ?_ (List.nodup_cons.1 hnd).2 (by omega) ?_
    · intro q hq
      obtain ⟨hq1, hq2, hqv⟩ := hcond q (List.mem_cons_of_mem _ hq)
      refine ⟨hq1, hq2, ?_⟩
      dsimp only
      rw [getReg_setReg_ne]
      · exact hqv
      · intro hcontra
        obtain ⟨e1, e2⟩ : q.1 = p.1 ∧ q.2 = p.2 := Prod.mk.injEq .. ▸ hcontra
        exact (List.nodup_cons.1 hnd).1 ((Prod.ext e1 e2 : q = p) ▸ hq)
    · intro i hge hi
      dsimp only
      rw [getD_set_ne' _ _ _ (by omega : idx ≠ i)]
      exact hempties i (by omega) hi

/-- A region map returned by the attempt loop is valid. -/
theorem genAux_some {σ : CellShuffle} {j : Nat → ℚ} (hσ : PermFam σ) :
    ∀ (t : Nat) (cells : List (Nat × Nat)) (k : Nat),
      (∀ p ∈ cells, p.1 < 9 ∧ p.2 < 9) → cells.Nodup →
      ∀ {mat : Regions} {k' : Nat},
        genAux σ j t cells k = (some mat, k') → ValidRegionMap mat
  | 0, cells, k, _, _, mat, k', h => by cases h
  | t + 1, cells, k, hb, hnd, mat, k', h => by
    rw [genAux] at h
    have hb' : ∀ p ∈ σ k cells, p.1 < 9 ∧ p.2 < 9 :=
      fun p hp => hb p ((hσ k cells).mem_iff.1 hp)
    have hnd' : (σ k cells).Nodup := ((hσ k cells).nodup_iff).2 hnd
    have hseeds_b : ∀ p ∈ (σ k cells).take 9,
        p.1 < 9 ∧ p.2 < 9 ∧ getReg initState.2 p.1 p.2 = -1 := by
      intro p hp
      obtain ⟨h1, h2⟩ := hb' p (List.take_subset 9 _ hp)
      exact ⟨h1, h2, getReg_emptyMat p.1 p.2⟩
    have hseeds_nd : ((σ k cells).take 9).Nodup :=
      (List.take_sublist 9 _).nodup hnd'
    have hseed : RegInv (seedState ((σ k cells).take 9) 0 initState) := by
      refine seed_inv _ 0 initState regInv_initState hseeds_b hseeds_nd ?_ ?_
      · have := List.length_take_le 9 (σ k cells)
        omega
      · intro i _ _
        exact getD_replicate_nil i
    rcases hgl : growLoop σ j 82 (seedState ((σ k cells).take 9) 0 initState) (k + 1)
      with ⟨res, k₂⟩
    rw [hgl] at h
    rcases res with _ | mat₂
    · dsimp only at h
      exact genAux_some hσ t (σ k cells) k₂ hb' hnd' h
    · dsimp only at h
      rw [Prod.mk.injEq, Option.some.injEq] at h
      obtain ⟨st₂, hinv₂, hsz₂, hmat₂, hns₂, hcr₂⟩ :=
        growLoop_some hσ 82 _ (k + 1) hseed hgl
      have := valid_of_complete hinv₂ hsz₂ (hmat₂ ▸ hns₂) (hmat₂ ▸ hcr₂)
      rw [← hmat₂, h.1] at this
      exact this

/-- A region map returned by `generate_regions` (any restart budget) is
valid. -/
theorem generate_regions_some {σ : CellShuffle} {j : Nat → ℚ} (hσ : PermFam σ)
    {mr k : Nat} {mat : Regions} {k' : Nat}
    (h : generate_regions σ j mr k = (some mat, k')) : ValidRegionMap mat :=
  genAux_some hσ mr (allCells 9) k (fun p hp => mem_allCells.1 hp)
    (allCells_nodup 9) h

end Regions9

section DifficultyConstants

/-- The `DIFFICULTY_GIVENS` table of jigsaw_sudoku.py. -/
def DIFFICULTY_GIVENS : List (Int × Nat) :=
  [(1, 45), (2, 40), (3, 36), (4, 32), (5, 28), (6, 26)]

/-- `DIFFICULTY_GIVENS.get(d, DIFFICULTY_GIVENS[3])` of `main`. -/
def dgGet (d : Int) : Nat :=
  ((DIFFICULTY_GIVENS.find? fun e => e.1 == d).map fun e => e.2).getD 36

/-- `d = max(1, min(6, args.difficulty))` of `main`. -/
def mainClamp (d : Int) : Int := max 1 (min 6 d)

/-- The target clue count `main` passes to the reducer for a CLI
difficulty. -/
def main_target_givens (d : Int) : Nat := dgGet (mainClamp d)

end DifficultyConstants

section ClaimData

/-- A full valid 6x6 solution board (checked by `decide` where used). -/
def sol6 : Grid :=
  [[1, 2, 3, 4, 5, 6], [4, 5, 6, 1, 2, 3], [2, 3, 1, 6, 4, 5],
   [5, 6, 4, 3, 1, 2], [3, 1, 2, 5, 6, 4], [6, 4, 5, 2, 3, 1]]

/-- `sol6` with (0,0), (1,0), (0,3) blanked: the first empty cell (0,0) has
two legal digits while (0,3) has one. -/
def b3 : Grid := setCell (setCell (setCell sol6 0 0 0) 1 0 0) 0 3 0

/-- `b3` with (1,3), (0,1), (1,1), (0,4), (1,4) also blanked: a board with
four completions. -/
def b8 : Grid :=
  setCell (setCell (setCell (setCell (setCell b3 1 3 0) 0 1 0) 1 1 0) 0 4 0) 1 4 0

/-- A complete but conflict-ridden board: every cell holds 1. -/
def allOnes6 : Grid := List.replicate 6 (List.replicate 6 1)

/-- The number of legal digits of a cell per `number_is_valid`. -/
def legalCount6 (b : Grid) (r c : Nat) : Nat :=
  ((DIGITS 6).filter fun d => number_is_valid b r c d).length

/-- The canonical 3x3 box region map for 9x9 grids. -/
def box9 : Regions :=
  (List.range 9).map fun r => (List.range 9).map fun c => ((r / 3 * 3 + c / 3 : Nat) : Int)

/-- A full valid 9x9 box-sudoku solution (the cyclic pattern; checked by
`decide` where used). -/
def sol9 : Grid :=
  (List.range 9).map fun r => (List.range 9).map fun c => (r * 3 + r / 3 + c) % 9 + 1

/-- Row-major order on cells. -/
def rowMajorLt (p q : Nat × Nat) : Prop :=
  p.1 < q.1 ∨ (p.1 = q.1 ∧ p.2 < q.2)

instance (p q : Nat × Nat) : Decidable (rowMajorLt p q) := by
  unfold rowMajorLt
  infer_instance

theorem regionUnitsWF_box6 : RegionUnitsWF 6 box6 := by decide

/-- `find?` returns a minimal hit of a strictly sorted list. -/
theorem find?_min {α : Type} (p : α → Bool) (lt : α → α → Prop) :
    ∀ (l : List α), List.Pairwise lt l → ∀ {x : α}, l.find? p = some x →
      ∀ y ∈ l, p y = true → x = y ∨ lt x y
  | [], _, x, hx, y, hy, _ => absurd hy (List.not_mem_nil y)
  | a :: rest, hpw, x, hx, y, hy, hpy => by
    by_cases hpa : p a = true
    · rw [List.find?_cons_of_pos _ hpa] at hx
      cases hx
      rcases List.mem_cons.1 hy with rfl | hyr
      · exact Or.inl rfl
      · exact Or.inr ((List.pairwise_cons.1 hpw).1 y hyr)
    · rw [List.find?_cons_of_neg _ (by simpa using hpa)] at hx
      rcases List.mem_cons.1 hy with rfl | hyr
      · exact absurd hpy hpa
      · exact find?_min p lt rest (List.pairwise_cons.1 hpw).2 hx y hyr hpy

/-- The cell returned by `firstEmpty` is the row-major-first empty cell. -/
theorem firstEmpty_min {b : Grid} {r c : Nat} (h : firstEmpty b = some (r, c)) :
    ∀ r' c', r' < 6 → c' < 6 → getCell b r' c' = 0 →
      r < r' ∨ (r = r' ∧ c ≤ c') := by
  intro r' c' hr' hc' h0
  have hmin := find?_min (fun p : Nat × Nat => getCell b p.1 p.2 == 0) rowMajorLt
    (allCells 6) (by decide) h (r', c') (mem_allCells.2 ⟨hr', hc'⟩)
    (by simpa using h0)
  rcases hmin with heq | hlt
  · obtain ⟨e1, e2⟩ : r = r' ∧ c = c' := Prod.mk.injEq .. ▸ heq
    omega
  · unfold rowMajorLt at hlt
    dsimp only at hlt
    omega

end ClaimData

section Claims

/-- C1: every puzzle the reducer returns (9x9
`generate_puzzle_from_solution`; the clue-removal loop of the successful
6x6 `Sudoku6x6.generate`) has the original full solution as its unique
completion, and the cutoff-2 counting search on it returns exactly 1. -/
theorem C1_reducer_unique {σ : Shuffle} (hσ : PermFam σ) :
    (∀ (regions : Regions) (sol : Grid), IsSolution 9 regions sol →
      ∀ (target k : Nat) (order : List (Nat × Nat)),
        (∀ p ∈ order, p.1 < 9 ∧ p.2 < 9) →
        ∀ out : Grid × Nat,
          generate_puzzle_from_solution 9 σ sol regions target order k = out →
          UniqueCompletion 9 regions out.1 sol ∧
          ∀ (σ' : Shuffle), PermFam σ' → ∀ k₂,
            (count_solutions 9 σ' out.1 regions 2 k₂).1 = 1) ∧
    (∀ (d : Int) (order : List (Nat × Nat)) (k : Nat),
      (∀ p ∈ order, p.1 < 6 ∧ p.2 < 6) → order.Nodup →
      ∀ res, generate σ d order k = res →
      ∀ puzzle sol, res.1 = some (puzzle, sol) →
        UniqueCompletion 6 box6 puzzle sol ∧
        ∀ (σ' : Shuffle), PermFam σ' → ∀ k₂,
          (count_solutions 6 σ' puzzle box6 2 k₂).1 = 1) := by
  constructor
  · intro regions sol hsol target k order horder out hout
    rcases hra : reduceAux 9 σ regions target order sol (9 * 9) k with ⟨g, k₂, brk⟩
    have hout1 : out.1 = g := by
      rw [← hout]
      unfold generate_puzzle_from_solution
      rw [hra]
    have hGood : Good 9 regions sol := ⟨hsol.1, hsol.2.2.1, hsol.2.2.2⟩
    have hfacts := reduceAux_unique hσ sol target order sol (9 * 9) k hGood
      (isCompletion_self hsol)
      (fun t ht => completion_of_complete hsol.1 hsol.2.1 ht) horder
    rw [hra] at hfacts
    dsimp only at hfacts
    obtain ⟨hg, hcomp, huniq⟩ := hfacts
    rw [hout1]
    exact ⟨⟨hcomp, huniq⟩,
      fun σ' hσ' k₃ => count_solutions_unique hσ' hg ⟨hcomp, huniq⟩⟩
  · intro d order k horder hnd res hres puzzle sol hsome
    have heq : (generate σ d order k).1 = some (puzzle, sol) := by
      rw [hres]
      exact hsome
    obtain ⟨hIsSol, hGoodPz, hcomp, huniq, _⟩ := generate_spec hσ d order k horder hnd heq
    exact ⟨⟨hcomp, huniq⟩,
      fun σ' hσ' k₂ => count_solutions_unique hσ' hGoodPz ⟨hcomp, huniq⟩⟩

theorem C1_witness :
    PermFam (fun _ (l : List Nat) => l) ∧
    UniqueCompletion 9 box9
      (generate_puzzle_from_solution 9 (fun _ l => l) sol9 box9 81 [] 0).1 sol9 :=
  ⟨fun _ l => List.Perm.refl l,
    ((C1_reducer_unique (fun _ l => List.Perm.refl l)).1 box9 sol9 (by decide) 81 0 []
      (by simp) _ rfl).1⟩

/-- C2: solution synthesis yields a fully valid grid — for the 9x9
`generate_full_solution` unconditionally, for the 6x6 `fill_solution`
under the amended precondition that the pre-call board is conflict-free;
the symbols 1..N appear exactly once in every row, column, and region (for
9x9 whenever the region map partitions the grid into size-9 units). -/
theorem C2_synthesis_valid {σ : Shuffle} (hσ : PermFam σ) :
    (∀ (regions : Regions) (k : Nat) (out : Option Grid × Nat),
      generate_full_solution 9 σ regions k = out →
      ∀ sol, out.1 = some sol →
        IsSolution 9 regions sol ∧
        (RegionUnitsWF 9 regions → ExactlyOnceUnits 9 regions sol)) ∧
    (∀ (fuel : Nat) (b : Grid) (k : Nat), Good 6 box6 b → zerosCount 6 b < fuel →
      ∀ out : Bool × Grid × Nat, fill_solution σ fuel b k = out → out.1 = true →
        IsSolution 6 box6 out.2.1 ∧ ExactlyOnceUnits 6 box6 out.2.1) := by
  constructor
  · intro regions k out hout sol hsol1
    have heq : generate_full_solution 9 σ regions k = (some sol, out.2) :=
      hout.trans (Prod.ext hsol1 rfl)
    have hIsSol := generate_full_solution_sound hσ heq
    exact ⟨hIsSol, fun hru => exactlyOnce_of_solution hIsSol hru⟩
  · intro fuel b k hg hfuel out hout hok
    have hsound := fill_solution_sound hσ fuel b k hg hfuel
    rw [hout] at hsound
    obtain ⟨hgood, hcompl⟩ := hsound hok
    have hIsSol := good_complete_isSolution hgood hcompl
    exact ⟨hIsSol, exactlyOnce_of_solution hIsSol regionUnitsWF_box6⟩

theorem C2_witness :
    PermFam (fun _ (l : List Nat) => l) ∧
    IsSolution 6 box6 (fill_solution (fun _ l => l) 1 sol6 0).2.1 :=
  ⟨fun _ l => List.Perm.refl l,
    ((C2_synthesis_valid (fun _ l => List.Perm.refl l)).2 1 sol6 0 (by decide)
      (by decide) _ rfl (by decide)).1⟩

/-- C2 counterexample: the complete but conflict-ridden all-ones board is
accepted by `fill_solution` (it returns `True` and leaves the board as is),
yet it is no valid solution — `fill_solution` alone does not guarantee unit
validity without the conflict-free precondition. -/
theorem C2_cex_fill_solution_accepts_invalid :
    (fill_solution (fun _ l => l) 1 allOnes6 0).1 = true ∧
    (fill_solution (fun _ l => l) 1 allOnes6 0).2.1 = allOnes6 ∧
    ¬ IsSolution 6 box6 allOnes6 :=
  ⟨by decide, by decide, by decide⟩

/-- C3: every region map returned by `generate_regions` is a well-formed
partition of the 9x9 grid into 9 regions of exactly 9 cells, each
4-connected, differing from the canonical box mapping, with at least 4
regions crossing canonical box boundaries. -/
theorem C3_region_maps_valid {σc : CellShuffle} {j : Nat → ℚ} (hσ : PermFam σc) :
    ∀ (mr k : Nat) (res : Option Regions × Nat), generate_regions σc j mr k = res →
      ∀ mat, res.1 = some mat → ValidRegionMap mat := by
  intro mr k res h mat hm
  exact generate_regions_some hσ (h.trans (Prod.ext hm rfl))

theorem C3_witness :
    PermFam (fun _ (l : List (Nat × Nat)) => l) ∧
    (∀ mat,
      (generate_regions (fun _ l => l) (fun _ => 0) 300 0).1 = some mat →
      ValidRegionMap mat) :=
  ⟨fun _ l => List.Perm.refl l,
    fun mat hm => C3_region_maps_valid (fun _ l => List.Perm.refl l) 300 0 _ rfl mat hm⟩

/-- C4 (amended): out-of-range difficulty levels are not rejected. The 9x9
CLI clamps every level into 1..6 (in-range levels pass through); the 6x6
`evaluate` indexes its 7-entry table with Python semantics — every level in
-7..6 silently yields a table value (0 maps to 0 empty cells, negatives
wrap) and only levels outside that range raise (an uncaught `IndexError`,
not an `InvalidDifficulty`). -/
theorem C4_difficulty_domain :
    (∀ d : Int, 1 ≤ mainClamp d ∧ mainClamp d ≤ 6) ∧
    (∀ d : Int, 1 ≤ d → d ≤ 6 → mainClamp d = d) ∧
    (∀ d : Int, (evaluate d).isSome = true ↔ (-7 ≤ d ∧ d < 7)) ∧
    main_target_givens 0 = main_target_givens 1 ∧
    main_target_givens 7 = main_target_givens 6 := by
  refine ⟨?_, ?_, ?_, by decide, by decide⟩
  · intro d
    unfold mainClamp
    constructor
    · exact le_max_left 1 _
    · exact max_le (by norm_num) (min_le_left 6 d)
  · intro d h1 h6
    unfold mainClamp
    rw [min_eq_right h6, max_eq_right h1]
  · intro d
    unfold evaluate
    by_cases h1 : 0 ≤ d ∧ d < 7
    · rw [if_pos h1]
      simp only [Option.isSome_some, true_iff]
      omega
    · rw [if_neg h1]
      by_cases h2 : -7 ≤ d ∧ d < 0
      · rw [if_pos h2]
        simp only [Option.isSome_some, true_iff]
        omega
      · rw [if_neg h2]
        simp only [Option.isSome_none, Bool.false_eq_true, false_iff]
        omega

/-- C4 counterexample: difficulty 0 is answered with a table value (no
error), difficulty -1 wraps to the hardest level, the 9x9 CLI silently
clamps 0 to 1 and 7 to 6 with the mapped clue counts — nowhere is an
`InvalidDifficulty` raised before use. -/
theorem C4_cex_out_of_range_not_rejected :
    evaluate 0 = some 0 ∧ evaluate 7 = none ∧ evaluate (-1) = some 28 ∧
    mainClamp 0 = 1 ∧ mainClamp 7 = 6 ∧
    main_target_givens 0 = 45 ∧ main_target_givens 7 = 26 := by decide

/-- C5 (amended): the 9x9 counting search respects its cutoff — it never
returns more than `limit`, and on a grid with two distinct completions the
cutoff-2 count is exactly 2 however many more exist. The 6x6 removal check
is different: it fully enumerates `solve()` with no cutoff (it still finds
at least 2 on such grids, but can return more — see the counterexample). -/
theorem C5_counting_cutoff {σ : Shuffle} (hσ : PermFam σ) :
    (∀ (n : Nat) (g : Grid) (regions : Regions) (limit k : Nat),
      (count_solutions n σ g regions limit k).1 ≤ limit) ∧
    (∀ (n : Nat) (g : Grid) (regions : Regions) (k : Nat), Good n regions g →
      TwoCompletions n regions g → (count_solutions n σ g regions 2 k).1 = 2) ∧
    (∀ (fuel : Nat) (b : Grid) (k : Nat), Good 6 box6 b → zerosCount 6 b < fuel →
      TwoCompletions 6 box6 b → 2 ≤ (solve6 σ fuel b k).1) := by
  refine ⟨?_, ?_, ?_⟩
  · intro n g regions limit k
    exact count_solutions_le
  · intro n g regions k hg htwo
    exact count_solutions_two hσ hg htwo
  · intro fuel b k hg hfuel htwo
    exact solve6_two hσ fuel b k hg hfuel htwo

theorem C5_witness :
    PermFam (fun _ (l : List Nat) => l) ∧
    (count_solutions 6 (fun _ l => l) sol6 box6 2 0).1 ≤ 2 :=
  ⟨fun _ l => List.Perm.refl l,
    (C5_counting_cutoff (fun _ l => List.Perm.refl l)).1 6 sol6 box6 2 0⟩

/-- C5 counterexample: on the board `b8`, which has four completions, the
6x6 uniqueness check (full enumeration of `solve()`) returns 4, while the
cutoff-2 counting search stops at 2 — the 6x6 check is not the cutoff-2
search the claim describes. -/
theorem C5_cex_full_enumeration_6x6 :
    (solve6 (fun _ l => l) (zerosCount 6 b8 + 1) b8 0).1 = 4 ∧
    (count_solutions 6 (fun _ l => l) b8 box6 2 0).1 = 2 :=
  ⟨by decide, by decide⟩

/-- C6 (amended): the difficulty tables are as documented and a successful
6x6 generation has exactly the mapped number of empty cells; the 9x9
reducer is only best-effort — it never drops below the mapped clue target,
and it hits the target exactly when its removal loop broke early, a
condition no caller checks (see the counterexample for a run that exhausts
its cell order above the target and is still returned as a normal
result). -/
theorem C6_difficulty_table_exact {σ : Shuffle} (hσ : PermFam σ) :
    (∀ (d : Int) (order : List (Nat × Nat)) (k : Nat),
      (∀ p ∈ order, p.1 < 6 ∧ p.2 < 6) → order.Nodup →
      ∀ res, generate σ d order k = res → ∀ pz sol, res.1 = some (pz, sol) →
        ∃ ec : Int, evaluate d = some ec ∧ zerosCount 6 pz = ec.toNat) ∧
    (evaluate 1 = some 10 ∧ evaluate 2 = some 15 ∧ evaluate 3 = some 20 ∧
      evaluate 4 = some 24 ∧ evaluate 5 = some 26 ∧ evaluate 6 = some 28) ∧
    (∀ (regions : Regions) (sol : Grid) (target k : Nat) (order : List (Nat × Nat)),
      IsSolution 9 regions sol →
      (∀ p ∈ order, p.1 < 9 ∧ p.2 < 9) → order.Nodup →
      target ≤ givensCount 9 sol →
      ∀ out, reduceAux 9 σ regions target order sol (givensCount 9 sol) k = out →
        target ≤ givensCount 9 out.1 ∧
        (out.2.2 = true → givensCount 9 out.1 = target)) ∧
    (dgGet 1 = 45 ∧ dgGet 6 = 26) := by
  refine ⟨?_, by decide, ?_, by decide⟩
  · intro d order k horder hnd res hres pz sol hsome
    have heq : (generate σ d order k).1 = some (pz, sol) := by
      rw [hres]
      exact hsome
    exact (generate_spec hσ d order k horder hnd heq).2.2.2.2
  · intro regions sol target k order hsol horder hnd htarget out hout
    have hnz : ∀ p ∈ order, getCell sol p.1 p.2 ≠ 0 := by
      intro p hp
      obtain ⟨h1, h2⟩ := horder p hp
      exact hsol.2.1 p.1 h1 p.2 h2
    have hfacts := @reduceAux_counts 9 σ regions target order sol
      (givensCount 9 sol) k hsol.1 hnd horder hnz rfl htarget
    rw [hout] at hfacts
    exact ⟨hfacts.2.1, hfacts.2.2⟩

theorem C6_witness :
    PermFam (fun _ (l : List Nat) => l) ∧
    (evaluate 1 = some 10 ∧ evaluate 2 = some 15 ∧ evaluate 3 = some 20 ∧
      evaluate 4 = some 24 ∧ evaluate 5 = some 26 ∧ evaluate 6 = some 28) :=
  ⟨fun _ l => List.Perm.refl l,
    (C6_difficulty_table_exact (fun _ l => List.Perm.refl l)).2.1⟩

/-- C6 counterexample: the 9x9 reducer is best-effort, not exact. A run
whose cell order is exhausted while the clue count is still above the
target (here: one visited cell, target 26) ends with `broke = false` and
80 clues — `generate_puzzle_from_solution` returns that grid and `main`
renders it like any other, with no check that the target was reached. -/
theorem C6_cex_nine_by_nine_best_effort :
    (reduceAux 9 (fun _ l => l) box9 26 [(0, 0)] sol9 (givensCount 9 sol9) 0).2.2
      = false ∧
    givensCount 9
      (reduceAux 9 (fun _ l => l) box9 26 [(0, 0)] sol9 (givensCount 9 sol9) 0).1
      = 80 ∧
    26 < 80 :=
  ⟨by decide, by decide, by decide⟩

/-- C7: region generation terminates — a growth pass either claims one of
the 81 cells or leaves the state unchanged, the growth loop's fuel of 82
passes is never the binding constraint (its result is fuel-independent
beyond 81), and the attempt loop returns either a valid map or the
`RuntimeError` outcome (`none`) after its restart budget. -/
theorem C7_region_gen_terminates {σc : CellShuffle} {j : Nat → ℚ} (hσ : PermFam σc) :
    (∀ (st : RegState) (k : Nat), RegInv st →
      ∀ out : RegState × Bool × Nat, passLoop σc j (sortOrder st.1) st false k = out →
        (out.2.1 = true → unclaimedCount out.1.2 < unclaimedCount st.2) ∧
        (out.2.1 = false → out.1 = st)) ∧
    (∀ (st : RegState) (k f : Nat), RegInv st → 81 < f →
      growLoop σc j f st k = growLoop σc j 82 st k) ∧
    (∀ (mr k : Nat) (res : Option Regions × Nat), generate_regions σc j mr k = res →
      (∃ mat, res.1 = some mat ∧ ValidRegionMap mat) ∨ res.1 = none) := by
  refine ⟨?_, ?_, ?_⟩
  · intro st k hinv out hout
    obtain ⟨_, _, hdec, hfid⟩ := passLoop_facts hσ (sortOrder st.1) st false k
      (fun i hi => sortOrder_mem hi) hinv
    rw [hout] at hdec hfid
    constructor
    · intro hp
      rcases hdec hp with h | h
      · cases h
      · exact h
    · intro hp
      exact (hfid hp).1
  · intro st k f hinv hf
    have h81 := unclaimed_le st.2
    exact growLoop_fuel_stable hσ f 82 st k hinv (by omega) (by omega)
  · intro mr k res h
    rcases hres : res.1 with _ | mat
    · exact Or.inr rfl
    · exact Or.inl ⟨mat, rfl, generate_regions_some hσ (h.trans (Prod.ext hres rfl))⟩

theorem C7_witness :
    PermFam (fun _ (l : List (Nat × Nat)) => l) ∧
    growLoop (fun _ l => l) (fun _ => 0) 83 initState 0
      = growLoop (fun _ l => l) (fun _ => 0) 82 initState 0 :=
  ⟨fun _ l => List.Perm.refl l,
    (C7_region_gen_terminates (fun _ l => List.Perm.refl l)).2.1 initState 0 83
      regInv_initState (by omega)⟩

/-- C8 (amended): the 9x9 solver's cell selection is MRV with an immediate
dead-end signal — the returned cell is empty, its candidate list is a
permutation of `compute_candidates`, a nonempty list is of minimal length
over all empty cells, and an empty list certifies a genuine dead end; the
6x6 solver instead always branches on the row-major-first empty cell,
regardless of candidate counts. -/
theorem C8_cell_selection {σ : Shuffle} (hσ : PermFam σ) :
    (∀ (n : Nat) (grid : Grid) (regions : Regions) (k : Nat)
        (r c : Nat) (cands : List Nat) (k' : Nat),
      find_unassigned_with_mrv n σ grid regions k = (some (r, c, cands), k') →
        r < n ∧ c < n ∧ getCell grid r c = 0 ∧
        cands.Perm (compute_candidates n grid regions r c) ∧
        (cands ≠ [] → ∀ p : Nat × Nat, p.1 < n → p.2 < n →
          getCell grid p.1 p.2 = 0 →
          cands.length ≤ (compute_candidates n grid regions p.1 p.2).length) ∧
        (cands = [] → compute_candidates n grid regions r c = [])) ∧
    (∀ (n : Nat) (grid : Grid) (regions : Regions) (k : Nat),
      (find_unassigned_with_mrv n σ grid regions k).1 = none ↔ CompleteG n grid) ∧
    (∀ b : Grid, firstEmpty b = none ↔ CompleteG 6 b) ∧
    (∀ (b : Grid) (r c : Nat), firstEmpty b = some (r, c) →
      r < 6 ∧ c < 6 ∧ getCell b r c = 0 ∧
      ∀ r' c', r' < 6 → c' < 6 → getCell b r' c' = 0 →
        r < r' ∨ (r = r' ∧ c ≤ c')) := by
  refine ⟨?_, ?_, ?_, ?_⟩
  · intro n grid regions k r c cands k' h
    obtain ⟨hr, hc, h0, hperm⟩ := find_mrv_some hσ h
    refine ⟨hr, hc, h0, hperm, ?_, ?_⟩
    · intro hne p hp1 hp2 hp0
      unfold find_unassigned_with_mrv at h
      rcases hscan : mrvScan n grid regions (allCells n) none with _ | ⟨xr, xc, xcands⟩
      · rw [hscan] at h
        cases h
      · rw [hscan] at h
        dsimp only at h
        by_cases hemp : xcands.isEmpty
        · rw [if_pos hemp] at h
          obtain ⟨e, _⟩ : some (xr, xc, xcands) = some (r, c, cands) ∧ k = k' :=
            Prod.mk.injEq .. ▸ h
          obtain ⟨_, e2⟩ : xr = r ∧ (xc, xcands) = (c, cands) :=
            Prod.mk.injEq .. ▸ Option.some.inj e
          obtain ⟨_, e4⟩ : xc = c ∧ xcands = cands := Prod.mk.injEq .. ▸ e2
          rw [e4] at hemp
          rw [List.isEmpty_iff.1 hemp] at hne
          exact absurd rfl hne
        · rw [if_neg hemp] at h
          obtain ⟨e, _⟩ : some (xr, xc, σ k xcands) = some (r, c, cands) ∧ k + 1 = k' :=
            Prod.mk.injEq .. ▸ h
          obtain ⟨_, e2⟩ : xr = r ∧ (xc, σ k xcands) = (c, cands) :=
            Prod.mk.injEq .. ▸ Option.some.inj e
          obtain ⟨_, e4⟩ : xc = c ∧ σ k xcands = cands := Prod.mk.injEq .. ▸ e2
          have hlen : cands.length = xcands.length := by
            rw [← e4]
            exact (hσ k xcands).length_eq
          have hmin := mrvScan_min (allCells n) none (xr, xc, xcands) hscan
            (by
              intro hx
              dsimp only at hx
              rw [hx] at hemp
              simp at hemp)
          have := hmin.2 (p.1, p.2) (mem_allCells.2 ⟨hp1, hp2⟩) hp0
          dsimp only at this
          omega
    · intro hnil
      have hpn : List.Perm (compute_candidates n grid regions r c) [] :=
        (hnil ▸ hperm).symm
      exact hpn.eq_nil
  · intro n grid regions k
    exact find_mrv_none_iff
  · intro b
    exact firstEmpty_none_iff
  · intro b r c h
    obtain ⟨hr, hc, h0⟩ := firstEmpty_some h
    exact ⟨hr, hc, h0, firstEmpty_min h⟩

theorem C8_witness :
    PermFam (fun _ (l : List Nat) => l) ∧
    (firstEmpty b3 = none ↔ CompleteG 6 b3) :=
  ⟨fun _ l => List.Perm.refl l,
    (C8_cell_selection (fun _ l => List.Perm.refl l)).2.2.1 b3⟩

/-- C8 counterexample: on board `b3` the 6x6 solver branches on the first
empty cell (0,0), which has two legal digits, although the empty cell (0,3)
has only one — the 6x6 cell selection is not minimum-remaining-values. -/
theorem C8_cex_first_empty_not_mrv :
    firstEmpty b3 = some (0, 0) ∧ legalCount6 b3 0 0 = 2 ∧
    getCell b3 0 3 = 0 ∧ legalCount6 b3 0 3 = 1 := by decide

/-- C9: `compute_candidates` returns the empty list on a filled cell, and
on an empty cell exactly the symbols 1..n absent from the cell's row,
column, and region (and, being a pure function of its arguments, re-running
it on unchanged inputs returns the same list by definitional equality). -/
theorem C9_legal_symbols {n : Nat} {grid : Grid} {regions : Regions}
    (hwf : GridWF n grid) {r c : Nat} (hr : r < n) (hc : c < n) :
    (getCell grid r c ≠ 0 → compute_candidates n grid regions r c = []) ∧
    (∀ d, d ∈ compute_candidates n grid regions r c ↔
      getCell grid r c = 0 ∧ 1 ≤ d ∧ d ≤ n ∧
      (∀ c', c' < n → getCell grid r c' ≠ d) ∧
      (∀ r', r' < n → getCell grid r' c ≠ d) ∧
      (∀ r', r' < n → ∀ c', c' < n →
        getReg regions r' c' = getReg regions r c → getCell grid r' c' ≠ d)) := by
  constructor
  · exact compute_candidates_filled
  · intro d
    rw [mem_compute_candidates, mem_row_iff hwf hr]
    constructor
    · rintro ⟨h0, h1, h2, hrow, hcol, hreg⟩
      refine ⟨h0, h1, by omega, ?_, hcol, hreg⟩
      intro c' hc' hd
      exact hrow ⟨c', hc', hd⟩
    · rintro ⟨h0, h1, h2, hrow, hcol, hreg⟩
      refine ⟨h0, h1, by omega, ?_, hcol, hreg⟩
      rintro ⟨c', hc', hd⟩
      exact hrow c' hc' hd

theorem C9_witness :
    GridWF 6 b3 ∧ (4 ∈ compute_candidates 6 b3 box6 0 3 ↔
      getCell b3 0 3 = 0 ∧ 1 ≤ 4 ∧ 4 ≤ 6 ∧
      (∀ c', c' < 6 → getCell b3 0 c' ≠ 4) ∧
      (∀ r', r' < 6 → getCell b3 r' 3 ≠ 4) ∧
      (∀ r', r' < 6 → ∀ c', c' < 6 →
        getReg box6 r' c' = getReg box6 0 3 → getCell b3 r' c' ≠ 4)) :=
  ⟨by decide,
    (C9_legal_symbols (by decide) (by decide) (by decide)).2 4⟩

/-- C10: undo on backtrack — a failing 9x9 construction search returns the
grid it was given, a 9x9 counting branch that was exhausted below the
cutoff restores the grid, a failing 6x6 `fill_solution` restores the board,
and the 6x6 full enumeration always restores the board. -/
theorem C10_undo_on_backtrack :
    (∀ (n : Nat) (σ : Shuffle) (regions : Regions) (fuel : Nat) (g : Grid) (k : Nat),
      GridWF n g → (btDfs n σ regions fuel g k).1 = false →
      (btDfs n σ regions fuel g k).2.1 = g) ∧
    (∀ (n : Nat) (σ : Shuffle) (regions : Regions) (limit fuel : Nat) (g : Grid)
        (cnt k : Nat),
      GridWF n g → (cntDfs n σ regions limit fuel g cnt k).1 < limit →
      (cntDfs n σ regions limit fuel g cnt k).2.1 = g) ∧
    (∀ (σ : Shuffle) (fuel : Nat) (b : Grid) (k : Nat), GridWF 6 b →
      (fill_solution σ fuel b k).1 = false → (fill_solution σ fuel b k).2.1 = b) ∧
    (∀ (σ : Shuffle) (fuel : Nat) (b : Grid) (k : Nat), GridWF 6 b →
      (solve6 σ fuel b k).2.1 = b) := by
  refine ⟨?_, ?_, ?_, ?_⟩
  · intro n σ regions fuel g k hwf hfail
    exact @btDfs_restore n σ regions fuel g k hwf hfail
  · intro n σ regions limit fuel g cnt k hwf hlt
    exact @cntDfs_restore n σ regions limit fuel g cnt k hwf hlt
  · intro σ fuel b k hwf hfail
    exact fill_solution_restore fuel b k hwf hfail
  · intro σ fuel b k hwf
    exact solve6_restore fuel b k hwf

end Claims

end PuzzleGen
